import Mathlib

/-!
Node records (package `enr`) over the canonical byte codec (package `rlp`).

A shallow embedding of `p2p/enr/enr.go`.  A Go byte is a `Fin 256`, a Go
`[]byte` that may be `nil` is an `Option (List Byte)`, a Go `string` is the
list of its bytes (Go compares strings byte-wise, which is the lexicographic
order of `List Byte`), and a `uint64` is a natural number kept below `2 ^ 64`
by an explicit `% 2 ^ 64` wherever the source increments it.

After package `enr` come the gas limit check of `consensus/misc/gaslimit.go`, with
the `int64` conversions of the source written out, the cache bounded in bytes of
`common/lru/blob_lru.go`, the byte helpers that `common/bytes_test.go` tests, and the
alarm on the simulated clock that `common/mclock/alarm_test.go` tests.
-/

/-- One byte. -/
abbrev Byte := Fin 256

/-- A byte sequence (`[]byte` known to be non-nil, or the bytes of a `string`). -/
abbrev ByteSeq := List Byte

/-- A Go `string`: its bytes, ordered byte-wise. -/
abbrev GoString := List Byte

/-- The conversion `byte(x)` of Go: the low eight bits. -/
def byte (n : Nat) : Byte := ⟨n % 256, Nat.mod_lt n (by decide)⟩

/-- The error values that the modelled code returns and compares with `==`. -/
inductive Error where
  /-- `io.EOF` -/
  | EOF
  /-- `io.ErrUnexpectedEOF` -/
  | ErrUnexpectedEOF
  /-- `rlp.EOL` -/
  | EOL
  /-- `rlp.ErrExpectedString` -/
  | ErrExpectedString
  /-- `rlp.ErrExpectedList` -/
  | ErrExpectedList
  /-- `rlp.ErrCanonInt` -/
  | ErrCanonInt
  /-- `rlp.ErrCanonSize` -/
  | ErrCanonSize
  /-- `rlp.ErrElemTooLarge` -/
  | ErrElemTooLarge
  /-- `rlp.ErrValueTooLarge` -/
  | ErrValueTooLarge
  /-- `rlp.ErrMoreThanOneValue` -/
  | ErrMoreThanOneValue
  /-- The unexported `errNotInList` of package rlp. -/
  | errNotInList
  /-- The unexported `errNotAtEOL` of package rlp. -/
  | errNotAtEOL
  /-- The unexported `errUintOverflow` of package rlp. -/
  | errUintOverflow
  /-- A `*rlp.decodeError`: the message of a stream error and the Go type decoded into. -/
  | decodeError (msg : String) (typ : String)
  /-- `enr.ErrInvalidSig` -/
  | ErrInvalidSig
  /-- `enr.errNotSorted` -/
  | errNotSorted
  /-- `enr.errDuplicateKey` -/
  | errDuplicateKey
  /-- `enr.errIncompletePair` -/
  | errIncompletePair
  /-- `enr.errIncompleteList` -/
  | errIncompleteList
  /-- `enr.errTooBig` -/
  | errTooBig
  /-- `enr.errEncodeUnsigned` -/
  | errEncodeUnsigned
  /-- `enr.errNotFound` -/
  | errNotFound
  /-- An `*enr.KeyError`: the key looked up and the cause. -/
  | KeyError (Key : GoString) (Err : Error)
  /-- Any other error value, such as one made by an identity scheme or an entry. -/
  | other (code : Nat)
  deriving DecidableEq, Repr

/-- The outcome of a call that may panic instead of returning. -/
inductive Ret (α : Type) where
  /-- The call returned `a`. -/
  | value (a : α)
  /-- The call panicked. -/
  | panic
  deriving DecidableEq, Repr

namespace sort

/-- The loop of Go's `sort.Search`: `for i < j { h := (i+j)/2; if !f(h) { i = h+1 } else { j = h } }`,
with a counter that bounds the number of iterations. -/
def SearchLoop (f : Nat → Bool) : Nat → Nat → Nat → Nat
  | 0, i, _ => i
  | fuel + 1, i, j =>
    if i < j then
      let h := (i + j) / 2
      if !f h then SearchLoop f fuel (h + 1) j else SearchLoop f fuel i h
    else i

/-- Go's `sort.Search(n, f)`: binary search for the least index in `[0, n)` at which `f` holds,
`n` if there is none.  The interval `[i, j)` shrinks at every iteration, so `n` iterations
suffice. -/
def Search (n : Nat) (f : Nat → Bool) : Nat := SearchLoop f n 0 n

end sort

namespace rlp

/-- Modelled from the spec: package rlp (the canonical byte codec, "length-prefixed, no
alternate encodings") is not among the sources.  `intsize` is the number of bytes of the
minimal big-endian form of a `uint64`; the loop `for size = 1; ; size++ { if i >>= 8; i == 0 }`
ends within eight iterations. -/
def intsizeLoop : Nat → Nat → Nat → Nat
  | 0, _, size => size
  | fuel + 1, i, size => if i / 256 = 0 then size else intsizeLoop fuel (i / 256) (size + 1)

/-- Modelled from the spec: package rlp is not among the sources.  The byte length of
the minimal big-endian form of a `uint64` (one byte for zero). -/
def intsize (i : Nat) : Nat := intsizeLoop 8 i 1

/-- Modelled from the spec: package rlp is not among the sources.  The `n` low-order
bytes of `i`, most significant first. -/
def bigEndian : Nat → Nat → ByteSeq
  | 0, _ => []
  | n + 1, i => bigEndian n (i / 256) ++ [byte i]

/-- Modelled from the spec: package rlp is not among the sources.  `putint` writes `i`
big-endian with no leading zero byte. -/
def putint (i : Nat) : ByteSeq := bigEndian (intsize i) i

/-- Modelled from the spec: package rlp is not among the sources.  `headsize` is the
length of the header of an item of the given content size. -/
def headsize (size : Nat) : Nat := if size < 56 then 1 else 1 + intsize size

/-- Modelled from the spec: package rlp is not among the sources.  `puthead` is the
length prefix: one tag byte for a content below 56 bytes, else a tag byte counting the
bytes of the big-endian content size that follows it. -/
def puthead (smalltag largetag : Nat) (size : Nat) : ByteSeq :=
  if size < 56 then [byte (smalltag + size)]
  else byte (largetag + intsize size) :: putint size

/-- Modelled from the spec: package rlp is not among the sources.  The encoding of a
byte string: a single byte up to 0x7F is its own encoding, every other string is prefixed
with its length. -/
def writeBytes (b : ByteSeq) : ByteSeq :=
  match b with
  | [x] => if x.val ≤ 0x7F then [x] else puthead 0x80 0xB7 1 ++ [x]
  | _ => puthead 0x80 0xB7 b.length ++ b

/-- Modelled from the spec: package rlp is not among the sources.  The encoding of a
`uint64`: the encoding of its minimal big-endian byte string (the empty string for zero). -/
def writeUint64 (i : Nat) : ByteSeq :=
  if i = 0 then [byte 0x80]
  else if i < 128 then [byte i]
  else byte (0x80 + intsize i) :: putint i

/-- Modelled from the spec: package rlp is not among the sources.  The Go values that
package enr hands to the codec inside a `[]interface{}`. -/
inductive Val where
  /-- A `[]byte`, possibly nil. -/
  | bytes (b : Option ByteSeq)
  /-- A `uint64`. -/
  | uint64 (i : Nat)
  /-- A `string`. -/
  | string (s : GoString)
  /-- An `rlp.RawValue`: bytes that are written verbatim. -/
  | rawValue (v : ByteSeq)
  deriving DecidableEq, Repr

/-- Modelled from the spec: package rlp is not among the sources.  The encoding of one
element of a `[]interface{}`; a nil `[]byte` encodes as the empty string, a `RawValue`
is inserted as it is. -/
def encodeVal : Val → ByteSeq
  | .bytes b => writeBytes (b.getD [])
  | .uint64 i => writeUint64 i
  | .string s => writeBytes s
  | .rawValue v => v

/-- Modelled from the spec: package rlp is not among the sources.  What the codec
writes for one value: a byte string, or a list with the encodings of its elements as its
content. -/
inductive Item where
  /-- A byte string. -/
  | string (b : ByteSeq)
  /-- A list, with its encoded content. -/
  | list (content : ByteSeq)
  deriving DecidableEq, Repr

/-- Modelled from the spec: package rlp is not among the sources.  The encoding of an
item: a string as `writeBytes` does, a list as its header and its content. -/
def Item.encode : Item → ByteSeq
  | .string b => writeBytes b
  | .list content => puthead 0xC0 0xF7 content.length ++ content

/-- Modelled from the spec: package rlp is not among the sources.  The content of a
list: the encodings of its elements one after the other. -/
def encodeVals (list : List Val) : ByteSeq := (list.map encodeVal).flatten

/-- Modelled from the spec: package rlp is not among the sources.
`rlp.EncodeToBytes(list)` for a `[]interface{}` of the values above: the list header
and then the content.  These element types never make the encoder fail. -/
def EncodeToBytes (list : List Val) : Except Error ByteSeq :=
  .ok (puthead 0xC0 0xF7 (encodeVals list).length ++ encodeVals list)

/-- Modelled from the spec: package rlp is not among the sources.
`rlp.ListSize(contentSize)`. -/
def ListSize (contentSize : Nat) : Nat := headsize contentSize + contentSize

/-- Modelled from the spec: package rlp is not among the sources.  `rlp.IntSize(x)`. -/
def IntSize (x : Nat) : Nat := if x < 0x80 then 1 else 1 + intsize x

/-- Modelled from the spec: package rlp is not among the sources.  `rlp.BytesSize(b)`,
also `rlp.StringSize(s)`. -/
def BytesSize (b : ByteSeq) : Nat :=
  match b with
  | [] => 1
  | [x] => if x.val ≤ 0x7F then 1 else 2
  | _ => headsize b.length + b.length

/-- Modelled from the spec: package rlp is not among the sources.  `rlp.StringSize(s)`. -/
def StringSize (s : GoString) : Nat := BytesSize s

/-- Modelled from the spec: package rlp is not among the sources.  The kind of the
item ahead in a stream. -/
inductive Kind where
  /-- A single byte below 0x80. -/
  | Byte
  /-- A byte string with a length prefix. -/
  | String
  /-- A list. -/
  | List
  deriving DecidableEq, Repr

/-- Modelled from the spec: package rlp is not among the sources.  The state of an
`rlp.Stream` over an in-memory reader: the unread input `r`, the input limit
(`limited`, `remaining`), the remaining sizes of the enclosing lists (`stack`, innermost
first) and the cached result of `Kind` (`kind = none` is Go's `-1`). -/
structure Stream where
  /-- The unread bytes of the reader. -/
  r : ByteSeq
  /-- The number of bytes the stream may still read, when `limited`. -/
  remaining : Nat
  /-- Whether an input limit is set. -/
  limited : Bool
  /-- The bytes left in each enclosing list, innermost first. -/
  stack : List Nat
  /-- The cached kind of the item ahead. -/
  kind : Option Kind
  /-- The cached content size of the item ahead. -/
  size : Nat
  /-- The cached value of a single-byte item. -/
  byteval : Byte
  /-- The cached error of `Kind`. -/
  kinderr : Option Error
  deriving DecidableEq, Repr

/-- Modelled from the spec: package rlp is not among the sources.
`rlp.NewStream(bytes.NewReader(b), inputLimit)`: a limit of zero takes the length of
the reader as the limit. -/
def NewStream (b : ByteSeq) (inputLimit : Nat) : Stream :=
  { r := b, remaining := if inputLimit > 0 then inputLimit else b.length, limited := true,
    stack := [], kind := none, size := 0, byteval := 0, kinderr := none }

/-- Modelled from the spec: package rlp is not among the sources.  `willRead(n)`
re-arms `Kind` and charges `n` bytes to the innermost list and to the input limit. -/
def Stream.willRead (s : Stream) (n : Nat) : Except Error Stream :=
  let s := { s with kind := none }
  match s.stack with
  | limit :: rest =>
    if n > limit then .error .ErrElemTooLarge
    else
      let s := { s with stack := (limit - n) :: rest }
      if s.limited then
        if n > s.remaining then .error .ErrValueTooLarge
        else .ok { s with remaining := s.remaining - n }
      else .ok s
  | [] =>
    if s.limited then
      if n > s.remaining then .error .ErrValueTooLarge
      else .ok { s with remaining := s.remaining - n }
    else .ok s

/-- Modelled from the spec: package rlp is not among the sources.  `readByte`: one
byte of input, `io.ErrUnexpectedEOF` when the reader is exhausted. -/
def Stream.readByte (s : Stream) : Except Error (Byte × Stream) :=
  match s.willRead 1 with
  | .error e => .error e
  | .ok s =>
    match s.r with
    | [] => .error .ErrUnexpectedEOF
    | b :: rest => .ok (b, { s with r := rest })

/-- Modelled from the spec: package rlp is not among the sources.  `readFull` of a
buffer of `n` bytes: exactly `n` bytes of input, `io.ErrUnexpectedEOF` when the reader
has fewer. -/
def Stream.readFull (s : Stream) (n : Nat) : Except Error (ByteSeq × Stream) :=
  match s.willRead n with
  | .error e => .error e
  | .ok s =>
    if s.r.length < n then .error .ErrUnexpectedEOF
    else .ok (s.r.take n, { s with r := s.r.drop n })

/-- Modelled from the spec: package rlp is not among the sources.  The value of a
big-endian byte string (`binary.BigEndian.Uint64` of the zero-padded buffer). -/
def Stream.beUint (b : ByteSeq) : Nat := b.foldl (fun acc x => acc * 256 + x.val) 0

/-- Modelled from the spec: package rlp is not among the sources.  `readUint(size)`
reads a big-endian integer of `size` bytes (at most eight) and rejects a leading zero
byte with `ErrCanonSize`. -/
def Stream.readUint (s : Stream) (size : Nat) : Except Error (Nat × Stream) :=
  match size with
  | 0 => .ok (0, { s with kind := none })
  | 1 =>
    match s.readByte with
    | .error e => .error e
    | .ok (b, s) => .ok (b.val, s)
  | _ =>
    match s.readFull size with
    | .error e => .error e
    | .ok (buffer, s) =>
      if buffer.head? = some 0 then .error .ErrCanonSize else .ok (beUint buffer, s)

/-- Modelled from the spec: package rlp is not among the sources.  `readKind` reads
the type tag of the item ahead and, for the long forms, its size, which must not fit the
short form (`ErrCanonSize`).  The result is the kind, the content size, the value of a
single-byte item and the stream after the header. -/
def Stream.readKind (s : Stream) : Except Error (Kind × Nat × Byte × Stream) :=
  match s.readByte with
  | .error e =>
    if s.stack.length = 0 then
      if e = .ErrUnexpectedEOF then .error .EOF
      else if e = .ErrValueTooLarge then .error .EOF
      else .error e
    else .error e
  | .ok (b, s) =>
    if b.val < 0x80 then .ok (.Byte, 0, b, s)
    else if b.val < 0xB8 then .ok (.String, b.val - 0x80, 0, s)
    else if b.val < 0xC0 then
      match s.readUint (b.val - 0xB7) with
      | .error e => .error e
      | .ok (size, s) => if size < 56 then .error .ErrCanonSize else .ok (.String, size, 0, s)
    else if b.val < 0xF8 then .ok (.List, b.val - 0xC0, 0, s)
    else
      match s.readUint (b.val - 0xF7) with
      | .error e => .error e
      | .ok (size, s) => if size < 56 then .error .ErrCanonSize else .ok (.List, size, 0, s)

/-- Modelled from the spec: package rlp is not among the sources.  `Kind` returns the
kind and size of the item ahead, reading its header unless a result is cached; at the
end of the enclosing list it returns `EOL` and reads nothing, and it rejects an item
larger than the enclosing list or the input limit. -/
def Stream.Kind (s : Stream) : Except Error (Kind × Nat × Stream) :=
  match s.kind with
  | some k =>
    match s.kinderr with
    | some e => .error e
    | none => .ok (k, s.size, s)
  | none =>
    if s.stack.head? = some 0 then .error .EOL
    else
      match s.readKind with
      | .error e => .error e
      | .ok (k, size, bv, s1) =>
        if (s.stack.head?.any fun listLimit => decide (size > listLimit)) then
          .error .ErrElemTooLarge
        else if s1.limited && decide (size > s1.remaining) then .error .ErrValueTooLarge
        else .ok (k, size, { s1 with kind := some k, size := size, byteval := bv, kinderr := none })

/-- Modelled from the spec: package rlp is not among the sources.  `Raw` reads the
item ahead whole and returns it with a freshly written header. -/
def Stream.Raw (s : Stream) : Except Error (ByteSeq × Stream) :=
  match s.Kind with
  | .error e => .error e
  | .ok (kind, size, s) =>
    if kind = .Byte then .ok ([s.byteval], { s with kind := none })
    else
      match s.readFull size with
      | .error e => .error e
      | .ok (content, s) =>
        if kind = .String then .ok (puthead 0x80 0xB7 size ++ content, s)
        else .ok (puthead 0xC0 0xF7 size ++ content, s)

/-- Modelled from the spec: package rlp is not among the sources.  `Bytes` reads a
byte string; a one-byte string that has the single-byte form is rejected. -/
def Stream.Bytes (s : Stream) : Except Error (ByteSeq × Stream) :=
  match s.Kind with
  | .error e => .error e
  | .ok (kind, size, s) =>
    match kind with
    | .Byte => .ok ([s.byteval], { s with kind := none })
    | .String =>
      match s.readFull size with
      | .error e => .error e
      | .ok (b, s) =>
        if size = 1 ∧ (b.headD 0).val < 128 then .error .ErrCanonSize else .ok (b, s)
    | .List => .error .ErrExpectedString

/-- Modelled from the spec: package rlp is not among the sources.  `uint(64)` reads an
unsigned integer of at most eight bytes in its minimal form: no leading zero byte
(`ErrCanonInt`), and a value below 128 only in the single-byte form (`ErrCanonSize`). -/
def Stream.uint (s : Stream) : Except Error (Nat × Stream) :=
  match s.Kind with
  | .error e => .error e
  | .ok (kind, size, s) =>
    match kind with
    | .Byte =>
      if s.byteval = 0 then .error .ErrCanonInt
      else .ok (s.byteval.val, { s with kind := none })
    | .String =>
      if size > 8 then .error .errUintOverflow
      else
        match s.readUint size with
        | .error e => if e = .ErrCanonSize then .error .ErrCanonInt else .error e
        | .ok (v, s) => if size > 0 ∧ v < 128 then .error .ErrCanonSize else .ok (v, s)
    | .List => .error .ErrExpectedString

/-- Modelled from the spec: package rlp is not among the sources.  `List` enters the
list ahead: its size is taken off the enclosing list and pushed on the stack. -/
def Stream.List (s : Stream) : Except Error (Nat × Stream) :=
  match s.Kind with
  | .error e => .error e
  | .ok (kind, size, s) =>
    if kind ≠ .List then .error .ErrExpectedList
    else
      match s.stack with
      | limit :: rest =>
        .ok (size, { s with stack := size :: (limit - size) :: rest, kind := none, size := 0 })
      | [] => .ok (size, { s with stack := [size], kind := none, size := 0 })

/-- Modelled from the spec: package rlp is not among the sources.  `ListEnd` leaves
the current list, which must have been read to its end. -/
def Stream.ListEnd (s : Stream) : Except Error Stream :=
  match s.stack with
  | [] => .error .errNotInList
  | listLimit :: rest =>
    if listLimit > 0 then .error .errNotAtEOL
    else .ok { s with stack := rest, kind := none, size := 0 }

/-- Modelled from the spec: package rlp is not among the sources.  `wrapStreamError`
turns the stream's data errors into a `*decodeError` naming the target type and lets
every other error (`EOL`, the reader's errors) through unchanged. -/
def wrapStreamError (err : Error) (typ : String) : Error :=
  match err with
  | .ErrCanonInt => .decodeError "non-canonical integer (leading zero bytes)" typ
  | .ErrCanonSize => .decodeError "non-canonical size information" typ
  | .ErrExpectedList => .decodeError "expected input list" typ
  | .ErrExpectedString => .decodeError "expected input string or byte" typ
  | .errUintOverflow => .decodeError "input string too long" typ
  | .errNotAtEOL => .decodeError "input list has too many elements" typ
  | e => e

/-- Modelled from the spec: package rlp is not among the sources.  `s.Decode(&b)`
for a `[]byte` target. -/
def decodeByteSlice (s : Stream) : Except Error (ByteSeq × Stream) :=
  match s.Bytes with
  | .error e => .error (wrapStreamError e "[]uint8")
  | .ok r => .ok r

/-- Modelled from the spec: package rlp is not among the sources.  `s.Decode(&n)`
for a `uint64` target. -/
def decodeUint (s : Stream) : Except Error (Nat × Stream) :=
  match s.uint with
  | .error e => .error (wrapStreamError e "uint64")
  | .ok r => .ok r

/-- Modelled from the spec: package rlp is not among the sources.  `s.Decode(&str)`
for a `string` target. -/
def decodeString (s : Stream) : Except Error (GoString × Stream) :=
  match s.Bytes with
  | .error e => .error (wrapStreamError e "string")
  | .ok r => .ok r

/-- Modelled from the spec: package rlp is not among the sources.  `s.Decode(&v)`
for an `rlp.RawValue` target: the item ahead, unparsed. -/
def decodeRawValue (s : Stream) : Except Error (ByteSeq × Stream) := s.Raw

end rlp

namespace enr

/-- The constant `SizeLimit`: the maximum encoded size of a node record in bytes. -/
def SizeLimit : Nat := 300

/-- The type `pair`: a key and the RLP encoding of its value. -/
structure pair where
  /-- The key. -/
  k : GoString
  /-- The value, an `rlp.RawValue`. -/
  v : ByteSeq
  deriving DecidableEq, Repr

/-- The type `Record`.  `signature` and `raw` are `none` when the Go slice is nil. -/
structure Record where
  /-- The sequence number, a `uint64`. -/
  seq : Nat
  /-- The signature. -/
  signature : Option ByteSeq
  /-- The RLP encoded record. -/
  raw : Option ByteSeq
  /-- The sorted list of all key/value pairs. -/
  pairs : List pair
  deriving DecidableEq, Repr

/-- The zero value of `Record`: the empty record. -/
def Record.zero : Record := { seq := 0, signature := none, raw := none, pairs := [] }

/-- Modelled from the spec: the interface `Entry` is declared in a file that is not
among the sources ("any value type that exposes a stable string key and is
encodable/decodable by the canonical codec").  An entry has its key, the item that the
codec writes for it (or the error of encoding it), and the item it holds after the codec
has decoded given bytes into it (or the error of decoding them). -/
structure Entry where
  /-- The key of the entry, `ENRKey()`. -/
  ENRKey : GoString
  /-- The result of encoding the entry. -/
  EncodeRLP : Except Error rlp.Item
  /-- The result of decoding bytes into the entry. -/
  DecodeRLP : ByteSeq → Except Error rlp.Item

/-- Modelled from the spec: `rlp.EncodeToBytes(e)` for an entry: the encoding of the item
that the entry writes. -/
def Entry.EncodeToBytes (e : Entry) : Except Error ByteSeq :=
  match e.EncodeRLP with
  | .error err => .error err
  | .ok item => .ok item.encode

/-- The interface `IdentityScheme`.  `Verify` is a function of the record and the
signature (nil or not); `none` is a nil error. -/
structure IdentityScheme where
  /-- The method `Verify(r, sig)`. -/
  Verify : Record → Option ByteSeq → Option Error
  /-- The method `NodeAddr(r)`. -/
  NodeAddr : Record → Option ByteSeq

/-- `computeSize`: the size that the encoding of the record has. -/
def computeSize (r : Record) : Nat :=
  let size := rlp.IntSize r.seq
  let size := size + rlp.BytesSize (r.signature.getD [])
  let size := r.pairs.foldl (fun size p => size + rlp.StringSize p.k + p.v.length) size
  rlp.ListSize size

/-- `Record.Size`: the length of the cached encoding if there is one, else `computeSize`. -/
def Record.Size (r : Record) : Nat :=
  match r.raw with
  | some raw => raw.length
  | none => computeSize r

/-- `Record.Seq`. -/
def Record.Seq (r : Record) : Nat := r.seq

/-- `Record.SetSeq`. -/
def Record.SetSeq (r : Record) (s : Nat) : Record :=
  { r with signature := none, raw := none, seq := s }

/-- `Record.invalidate`: a signed record gets the next sequence number (a `uint64`
increment), and the signature and the cached encoding are dropped. -/
def Record.invalidate (r : Record) : Record :=
  let r := if r.signature ≠ none then { r with seq := (r.seq + 1) % 2 ^ 64 } else r
  { r with signature := none, raw := none }

/-- The key of `pairs[i]`, for an index in range. -/
def keyAt (pairs : List pair) (i : Nat) : GoString :=
  match pairs.get? i with
  | some p => p.k
  | none => []

/-- `Record.Set`: panics when the entry cannot be encoded, before anything is changed;
else invalidates the record and inserts the pair at the place that binary search finds,
replacing the value of an equal key. -/
def Record.Set (r : Record) (e : Entry) : Record × Ret Unit :=
  match e.EncodeToBytes with
  | .error _ => (r, .panic)
  | .ok blob =>
    let r := r.invalidate
    let pairs := r.pairs
    let i := sort.Search pairs.length (fun i => decide (keyAt pairs i ≥ e.ENRKey))
    if i < pairs.length ∧ keyAt pairs i = e.ENRKey then
      ({ r with pairs := pairs.set i { k := keyAt pairs i, v := blob } }, .value ())
    else if i < r.pairs.length then
      ({ r with pairs := pairs.take i ++ [{ k := e.ENRKey, v := blob }] ++ pairs.drop i },
        .value ())
    else ({ r with pairs := pairs ++ [{ k := e.ENRKey, v := blob }] }, .value ())

/-- `Record.Signature`: a copy of the signature, nil for an unsigned record. -/
def Record.Signature (r : Record) : Option ByteSeq :=
  match r.signature with
  | none => none
  | some sig => some (sig.take sig.length)

/-- `Record.EncodeRLP` on a writer that accepts everything: the error returned and the
bytes written. -/
def Record.EncodeRLP (r : Record) : Option Error × ByteSeq :=
  match r.signature with
  | none => (some .errEncodeUnsigned, [])
  | some _ => (none, r.raw.getD [])

/-- `Record.AppendElements`: the sequence number and then each key and value. -/
def Record.AppendElements (r : Record) (list : List rlp.Val) : List rlp.Val :=
  r.pairs.foldl (fun list p => list ++ [.string p.k, .rawValue p.v]) (list ++ [.uint64 r.seq])

/-- `Record.encode`: the encoding of the list of the signature and the elements, refused
when longer than `SizeLimit`. -/
def Record.encode (r : Record) (sig : Option ByteSeq) : Except Error ByteSeq :=
  let list := r.AppendElements [.bytes sig]
  match rlp.EncodeToBytes list with
  | .error err => .error err
  | .ok raw => if raw.length > SizeLimit then .error .errTooBig else .ok raw

/-- `Record.SetSig`: the record after the call and what the call returned. -/
def Record.SetSig (r : Record) (s : Option IdentityScheme) (sig : Option ByteSeq) :
    Record × Ret (Option Error) :=
  match s, sig with
  | none, some _ => (r, .panic)
  | some _, none => (r, .panic)
  | some s, some sig =>
    match s.Verify r (some sig) with
    | some err => (r, .value (some err))
    | none =>
      match r.encode (some sig) with
      | .error err => (r, .value (some err))
      | .ok raw => ({ r with signature := some sig, raw := some raw }, .value none)
  | none, none => ({ r with signature := none, raw := none }, .value none)

/-- `Record.VerifySignature`. -/
def Record.VerifySignature (r : Record) (s : IdentityScheme) : Option Error :=
  s.Verify r r.signature

/-- The result of `decodeRecord`: the three values that the Go function returns. -/
structure Decoded where
  /-- The record decoded so far. -/
  dec : Record
  /-- The raw item read from the stream. -/
  raw : Option ByteSeq
  /-- The error, `none` for nil. -/
  err : Option Error
  deriving DecidableEq, Repr

/-- The loop of `decodeRecord` over the key/value pairs, at iteration `i` with the
previous key `prevkey`.  Every iteration that does not return reads at least one byte, so
a counter of the unread bytes bounds the iterations. -/
def decodePairs (raw : ByteSeq) : Nat → Nat → GoString → Record → rlp.Stream → Decoded
  | 0, _, _, dec, _ => { dec := dec, raw := some raw, err := some .ErrUnexpectedEOF }
  | fuel + 1, i, prevkey, dec, s =>
    match rlp.decodeString s with
    | .error err =>
      if err = .EOL then
        match s.ListEnd with
        | .error e => { dec := dec, raw := some raw, err := some e }
        | .ok _ => { dec := dec, raw := some raw, err := none }
      else { dec := dec, raw := some raw, err := some err }
    | .ok (k, s) =>
      match rlp.decodeRawValue s with
      | .error err =>
        if err = .EOL then { dec := dec, raw := some raw, err := some .errIncompletePair }
        else { dec := dec, raw := some raw, err := some err }
      | .ok (v, s) =>
        if i > 0 ∧ k = prevkey then { dec := dec, raw := some raw, err := some .errDuplicateKey }
        else if i > 0 ∧ k < prevkey then { dec := dec, raw := some raw, err := some .errNotSorted }
        else decodePairs raw fuel (i + 1) k { dec with pairs := dec.pairs ++ [{ k := k, v := v }] } s

/-- `decodeRecord`. -/
def decodeRecord (s : rlp.Stream) : Decoded :=
  let dec := Record.zero
  match s.Raw with
  | .error err => { dec := dec, raw := none, err := some err }
  | .ok (raw, _) =>
    if raw.length > SizeLimit then { dec := dec, raw := some raw, err := some .errTooBig }
    else
      let s := rlp.NewStream raw 0
      match s.List with
      | .error err => { dec := dec, raw := some raw, err := some err }
      | .ok (_, s) =>
        match rlp.decodeByteSlice s with
        | .error err =>
          { dec := dec, raw := some raw, err := some (if err = .EOL then .errIncompleteList else err) }
        | .ok (signature, s) =>
          let dec := { dec with signature := some signature }
          match rlp.decodeUint s with
          | .error err =>
            { dec := dec, raw := some raw, err := some (if err = .EOL then .errIncompleteList else err) }
          | .ok (seq, s) =>
            let dec := { dec with seq := seq }
            decodePairs raw (raw.length + 1) 0 [] dec s

/-- `Record.DecodeRLP`: the record after the call and the error returned.  The record is
assigned only when `decodeRecord` returns no error. -/
def Record.DecodeRLP (r : Record) (s : rlp.Stream) : Record × Option Error :=
  let d := decodeRecord s
  match d.err with
  | some err => (r, some err)
  | none => ({ d.dec with raw := d.raw }, none)

/-! ### The statements' vocabulary -/

/-- The list `[signature, seq, k1, v1, ..., kn, vn]` of a signature, a sequence number
and pairs, the values as raw values. -/
def canonicalList (sig : Option ByteSeq) (seq : Nat) (pairs : List pair) : List rlp.Val :=
  .bytes sig :: .uint64 seq :: pairs.flatMap fun p => [.string p.k, .rawValue p.v]

/-- The canonical encoding of a record as the specification words it: one container
holding the signature bytes, then the sequence number, then the pairs in stored order
flattened as key, value, key, value, with each value inserted as it is. -/
def canonicalEncoding (sig : Option ByteSeq) (seq : Nat) (pairs : List pair) : ByteSeq :=
  let content := rlp.writeBytes (sig.getD []) ++ rlp.writeUint64 seq
    ++ pairs.flatMap fun p => rlp.writeBytes p.k ++ p.v
  rlp.puthead 0xC0 0xF7 content.length ++ content

/-- The keys of the pairs, in stored order. -/
def keys (pairs : List pair) : List GoString := pairs.map pair.k

/-- The pairs are strictly ascending by key. -/
def Ascending (pairs : List pair) : Prop := (keys pairs).Pairwise (· < ·)

/-- The records that the exported operations produce from the zero record: `Set` (whether
it panics or not), `SetSeq` with a `uint64`, `SetSig` (whatever it returns) and `DecodeRLP`
(whether it fails or not) on any stream. -/
inductive Reachable : Record → Prop
  | zero : Reachable Record.zero
  | Set (r : Record) (e : Entry) : Reachable r → Reachable (r.Set e).1
  | SetSeq (r : Record) (s : Nat) : Reachable r → s < 2 ^ 64 → Reachable (r.SetSeq s)
  | SetSig (r : Record) (s : Option IdentityScheme) (sig : Option ByteSeq) :
      Reachable r → Reachable (r.SetSig s sig).1
  | DecodeRLP (r : Record) (s : rlp.Stream) : Reachable r → Reachable (r.DecodeRLP s).1

/-- The records built from the zero record by `Set` and `SetSeq` alone. -/
inductive Built : Record → Prop
  | zero : Built Record.zero
  | Set (r : Record) (e : Entry) : Built r → Built (r.Set e).1
  | SetSeq (r : Record) (s : Nat) : Built r → s < 2 ^ 64 → Built (r.SetSeq s)

/-! ### Fixtures -/

/-- An entry under the key "ip" holding the four bytes of 127.0.0.1. -/
def ipEntry : Entry :=
  { ENRKey := [0x69, 0x70], EncodeRLP := .ok (.string [127, 0, 0, 1]),
    DecodeRLP := fun _ => .ok (.string [127, 0, 0, 1]) }

/-- An entry under the key "udp" holding the port 30303. -/
def udpEntry : Entry :=
  { ENRKey := [0x75, 0x64, 0x70], EncodeRLP := .ok (.string [0x76, 0x5f]),
    DecodeRLP := fun _ => .ok (.string [0x76, 0x5f]) }

/-- An identity scheme that accepts exactly the signature "S1". -/
def schemeS1 : IdentityScheme :=
  { Verify := fun _ sig => if sig = some [0x53, 0x31] then none else some .ErrInvalidSig,
    NodeAddr := fun _ => none }

/-- An identity scheme that accepts every signature. -/
def schemeAny : IdentityScheme :=
  { Verify := fun _ _ => none, NodeAddr := fun _ => none }

/-- The record of the scenario: the empty record, `Set` "ip", signed with "S1". -/
def signedIp : Record := ((Record.zero.Set ipEntry).1.SetSig (some schemeS1) (some [0x53, 0x31])).1

/-- A signed record at the largest sequence number. -/
def signedMaxSeq : Record :=
  ((Record.zero.SetSeq (2 ^ 64 - 1)).SetSig (some schemeS1) (some [0x53, 0x31])).1

/-- A signature of 300 zero bytes. -/
def longSig : ByteSeq := List.replicate 300 0

end enr

/-! ### The position of a stream in its input -/

namespace rlp

/-- The header of an item of the given kind and content size: the byte itself for a
single byte, else the length prefix with the tags of a string or of a list. -/
def itemHeader (k : Kind) (size : Nat) (bv : Byte) : ByteSeq :=
  match k with
  | .Byte => [bv]
  | .String => puthead 0x80 0xB7 size
  | .List => puthead 0xC0 0xF7 size

/-- The stream after `n` bytes were read: the reader, the input limit and the innermost
list are `n` bytes shorter, and `Kind` is re-armed. -/
def Stream.advance (s : Stream) (n : Nat) : Stream :=
  { s with
    r := s.r.drop n
    remaining := s.remaining - n
    kind := none
    stack := match s.stack with
      | [] => []
      | limit :: rest => (limit - n) :: rest }

/-- The stream has exactly `input` left to read: at top level (`inList = false`), or
inside one list (`inList = true`) whose content ends with the input.  The input limit
covers the input. -/
structure Stream.Pos (s : Stream) (input : ByteSeq) (inList : Bool) : Prop where
  /-- The bytes left. -/
  r_eq : s.r = input
  /-- The stream is limited. -/
  limited_eq : s.limited = true
  /-- The list stack. -/
  stack_eq : s.stack = if inList then [input.length] else []
  /-- The input limit covers the input. -/
  le_remaining : input.length ≤ s.remaining

/-- The stream is at `input` with no cached kind. -/
structure Stream.At (s : Stream) (input : ByteSeq) (inList : Bool) : Prop where
  /-- The position. -/
  pos : Stream.Pos s input inList
  /-- `Kind` is armed. -/
  kind_eq : s.kind = none

/-- The bytes are one item: a canonical header and a content of the size that the header
gives. -/
def IsItem (v : ByteSeq) : Prop :=
  ∃ (k : Kind) (size : Nat) (bv : Byte) (content : ByteSeq),
    v = itemHeader k size bv ++ content ∧ content.length = size ∧ size < 2 ^ 64 ∧
      (k = .Byte → bv.val < 0x80 ∧ size = 0)

end rlp

namespace enr

/-- The values of the pairs are encodings of items, as `Set` stores them. -/
def ValuesEncoded (pairs : List pair) : Prop :=
  ∀ p ∈ pairs, ∃ item : rlp.Item, p.v = item.encode

end enr

namespace enr

/-- The value of `pairs[i]`, for an index in range. -/
def valueAt (pairs : List pair) (i : Nat) : ByteSeq :=
  match pairs.get? i with
  | some p => p.v
  | none => []

/-- What a call of `Load` leaves: the record, the error returned (`none` for nil) and the
entry that was passed by pointer. -/
structure Loaded where
  /-- The record after the call. -/
  record : Record
  /-- The error returned. -/
  err : Option Error
  /-- The entry after the call. -/
  entry : Entry

/-- `Record.Load`: binary search for the key of the entry; on a hit the stored value is
decoded into the entry with `rlp.DecodeBytes`, and an error of the codec is wrapped in a
`KeyError`; on a miss the `KeyError` wraps `errNotFound`.  No field of the record is
assigned.  An entry that could not be decoded into is returned as it was. -/
def Record.Load (r : Record) (e : Entry) : Loaded :=
  let i := sort.Search r.pairs.length (fun i => decide (keyAt r.pairs i ≥ e.ENRKey))
  if i < r.pairs.length ∧ keyAt r.pairs i = e.ENRKey then
    match e.DecodeRLP (valueAt r.pairs i) with
    | .error err => { record := r, err := some (.KeyError e.ENRKey err), entry := e }
    | .ok item => { record := r, err := none, entry := { e with EncodeRLP := .ok item } }
  else { record := r, err := some (.KeyError e.ENRKey .errNotFound), entry := e }

/-- An item of 301 bytes: a string of 298 zero bytes behind its three-byte header. -/
def item301 : ByteSeq := rlp.writeBytes (List.replicate 298 0)

/-- An item of 300 bytes that is no record: a string of 297 zero bytes. -/
def item300 : ByteSeq := rlp.writeBytes (List.replicate 297 0)

/-- A list that holds a single signature of 300 zero bytes. -/
def longSigList : ByteSeq :=
  rlp.puthead 0xC0 0xF7 (rlp.writeBytes longSig).length ++ rlp.writeBytes longSig

/-- An entry under the key "ip" whose type accepts only a string of four bytes. -/
def ip4Entry : Entry :=
  { ENRKey := [0x69, 0x70], EncodeRLP := .ok (.string [0, 0, 0, 0]),
    DecodeRLP := fun b =>
      match b with
      | [0x84, a, b, c, d] => .ok (.string [a, b, c, d])
      | _ => .error (.decodeError "wrong size" "enr.IPv4") }

end enr

/-- The error is one of package rlp or of the reader under it, not one of package enr. -/
def Error.isRlp : Error → Bool
  | .EOF => true
  | .ErrUnexpectedEOF => true
  | .EOL => true
  | .ErrExpectedString => true
  | .ErrExpectedList => true
  | .ErrCanonInt => true
  | .ErrCanonSize => true
  | .ErrElemTooLarge => true
  | .ErrValueTooLarge => true
  | .ErrMoreThanOneValue => true
  | .errNotInList => true
  | .errNotAtEOL => true
  | .errUintOverflow => true
  | .decodeError _ _ => true
  | _ => false

namespace rlp

/-- Modelled from the spec: package rlp is not among the sources.  The stream that
`rlp.DecodeBytes(b, val)` makes: `Reset` over the bytes with their number as the input
limit, which limits the stream when it is positive. -/
def DecodeBytesStream (b : ByteSeq) : Stream :=
  { r := b, remaining := b.length, limited := decide (b.length > 0),
    stack := [], kind := none, size := 0, byteval := 0, kinderr := none }

end rlp

namespace enr

/-- Modelled from the spec: the type `ID` (a string, the entry under the key "id") is
declared in a file that is not among the sources.  The key `ID.ENRKey()`. -/
def ID.ENRKey : GoString := [0x69, 0x64]

/-- Modelled from the spec: the type `ID` is declared in a file that is not among the
sources, and neither is package rlp.  `rlp.DecodeBytes(b, &id)` for an `id` of type
`ID`: the string that `id` holds afterwards and the error returned.  The string is
assigned once the item has been read; bytes after the item are then an error. -/
def ID.DecodeBytes (id : GoString) (b : ByteSeq) : GoString × Option Error :=
  match (rlp.DecodeBytesStream b).Bytes with
  | .error err => (id, some (rlp.wrapStreamError err "enr.ID"))
  | .ok (str, s) => if s.r.length > 0 then (str, some .ErrMoreThanOneValue) else (str, none)

/-- `Record.Load` called with `&id` for an `id` of type `ID`: the string that `id` holds
afterwards and the error returned. -/
def Record.LoadID (r : Record) (id : GoString) : GoString × Option Error :=
  let i := sort.Search r.pairs.length (fun i => decide (keyAt r.pairs i ≥ ID.ENRKey))
  if i < r.pairs.length ∧ keyAt r.pairs i = ID.ENRKey then
    match ID.DecodeBytes id (valueAt r.pairs i) with
    | (id, some err) => (id, some (.KeyError ID.ENRKey err))
    | (id, none) => (id, none)
  else (id, some (.KeyError ID.ENRKey .errNotFound))

/-- `Record.IdentityScheme`: the name of the identity scheme in the record, loaded into
an `ID` that starts as the empty string; the error of `Load` is dropped. -/
def Record.IdentityScheme (r : Record) : GoString :=
  let id : GoString := []
  (r.LoadID id).1

/-- The type `SchemeMap`, a map from names to identity schemes: the value of `m[name]`,
`none` where it is nil. -/
def SchemeMap : Type := GoString → Option IdentityScheme

/-- `SchemeMap.Verify`. -/
def SchemeMap.Verify (m : SchemeMap) (r : Record) (sig : Option ByteSeq) : Option Error :=
  match m r.IdentityScheme with
  | none => some .ErrInvalidSig
  | some s => s.Verify r sig

/-- `SchemeMap.NodeAddr`. -/
def SchemeMap.NodeAddr (m : SchemeMap) (r : Record) : Option ByteSeq :=
  match m r.IdentityScheme with
  | none => none
  | some s => s.NodeAddr r

/-- An entry that the codec cannot encode. -/
def badEntry : Entry :=
  { ENRKey := [0x78], EncodeRLP := .error (.other 1), DecodeRLP := fun _ => .error (.other 1) }

/-- An entry under the key "id" holding the name "v4". -/
def idEntry : Entry :=
  { ENRKey := ID.ENRKey, EncodeRLP := .ok (.string [0x76, 0x34]),
    DecodeRLP := fun b => match ID.DecodeBytes [] b with
      | (_, some err) => .error err
      | (id, none) => .ok (.string id) }

/-- A registry that knows the scheme "v4" only, which accepts exactly the signature "S1"
and derives the address "A". -/
def v4Only : SchemeMap := fun name =>
  if name = [0x76, 0x34] then
    some { Verify := schemeS1.Verify, NodeAddr := fun _ => some [0x41] }
  else none

/-- The items of `pairs` with `p` put in for the pair that has its key, at the place that
keeps the keys ascending: the pairs with a smaller key, then `p`, then the pairs with a
greater key. -/
def insertOrReplace (pairs : List pair) (p : pair) : List pair :=
  pairs.filter (fun q => decide (q.k < p.k)) ++ [p] ++ pairs.filter (fun q => decide (p.k < q.k))

end enr

namespace params

/-- Modelled from the spec: package params is not among the sources.  The constant
`params.GasLimitBoundDivisor`. -/
def GasLimitBoundDivisor : Nat := 1024

/-- Modelled from the spec: package params is not among the sources.  The constant
`params.MinGasLimit`. -/
def MinGasLimit : Nat := 5000

end params

namespace misc

/-- The value of an integer as an `int64`: the conversion of a `uint64` and the result of
`int64` arithmetic both wrap into the range from `-2 ^ 63` to `2 ^ 63 - 1`. -/
def int64 (x : Int) : Int := (x + 2 ^ 63) % 2 ^ 64 - 2 ^ 63

/-- The conversion `uint64(x)` of an `int64`. -/
def uint64 (x : Int) : Nat := (x % 2 ^ 64).toNat

/-- The errors that `VerifyGaslimit` makes with `fmt.Errorf`, with the numbers that the
message prints. -/
inductive GasLimitError where
  /-- "invalid gas limit: have %d, want %d +-= %d" -/
  | invalid (header : Nat) (parent : Nat) (bound : Nat)
  /-- "invalid gas limit below %d" -/
  | belowMin (min : Nat)
  deriving DecidableEq, Repr

/-- `VerifyGaslimit`: `none` is a nil error. -/
def VerifyGaslimit (parentGasLimit headerGasLimit : Nat) : Option GasLimitError :=
  let diff := int64 (int64 parentGasLimit - int64 headerGasLimit)
  let diff := if diff < 0 then int64 (diff * -1) else diff
  let limit := parentGasLimit / params.GasLimitBoundDivisor
  if uint64 diff ≥ limit then
    some (.invalid headerGasLimit parentGasLimit ((limit + 2 ^ 64 - 1) % 2 ^ 64))
  else if headerGasLimit < params.MinGasLimit then some (.belowMin params.MinGasLimit)
  else none

/-- The exact absolute difference of two gas limits. -/
def absDiff (a b : Nat) : Nat := if a ≤ b then b - a else a - b

end misc

namespace lru

/-- Modelled from the spec: the type `BasicLRU` is declared in a file that is not among
the sources.  The cache holds at most `cap` items; `items` lists them from the most
recently used to the oldest, each key once. -/
structure BasicLRU (K : Type) where
  /-- The capacity in items. -/
  cap : Nat
  /-- The items, the most recently used first. -/
  items : List (K × ByteSeq)

/-- Modelled from the spec: `NewBasicLRU(capacity)`; a capacity of zero is taken as
one. -/
def NewBasicLRU {K : Type} (capacity : Nat) : BasicLRU K :=
  { cap := if capacity = 0 then 1 else capacity, items := [] }

/-- Modelled from the spec: `BasicLRU.Contains`. -/
def BasicLRU.Contains {K : Type} [DecidableEq K] (c : BasicLRU K) (key : K) : Bool :=
  c.items.any (fun it => decide (it.1 = key))

/-- Modelled from the spec: `BasicLRU.Add`.  A key that is present gets the value and
becomes the most recently used; a new key is put in front, after the oldest item has
been dropped when the cache is full.  Returns whether an item was dropped. -/
def BasicLRU.Add {K : Type} [DecidableEq K] (c : BasicLRU K) (key : K) (value : ByteSeq) :
    BasicLRU K × Bool :=
  if c.Contains key then
    ({ c with items := (key, value) :: c.items.filter (fun it => decide (it.1 ≠ key)) }, false)
  else if c.items.length ≥ c.cap then
    ({ c with items := (key, value) :: c.items.dropLast }, true)
  else ({ c with items := (key, value) :: c.items }, false)

/-- Modelled from the spec: `BasicLRU.RemoveOldest`: drops the oldest item and returns
it, `none` (`ok = false`) when the cache is empty. -/
def BasicLRU.RemoveOldest {K : Type} (c : BasicLRU K) : BasicLRU K × Option (K × ByteSeq) :=
  match c.items.getLast? with
  | none => (c, none)
  | some it => ({ c with items := c.items.dropLast }, some it)

/-- The type `SizeConstrainedCache` with byte slices as values; the lock is left out. -/
structure SizeConstrainedCache (K : Type) where
  /-- The field `size`, a `uint64`. -/
  size : Nat
  /-- The field `maxSize`, a `uint64`. -/
  maxSize : Nat
  /-- The field `lru`. -/
  lru : BasicLRU K

/-- The constant `math.MaxInt` on a 64-bit platform. -/
def MaxInt : Nat := 2 ^ 63 - 1

/-- `NewSizeConstrainedCache`. -/
def NewSizeConstrainedCache {K : Type} (maxSize : Nat) : SizeConstrainedCache K :=
  { size := 0, maxSize := maxSize, lru := NewBasicLRU MaxInt }

/-- The loop of `SizeConstrainedCache.Add`: while `targetSize` exceeds `maxSize`, note
an eviction and remove the oldest item, leaving the loop when there is none; the
subtraction is one of `uint64`.  Every turn that does not leave removes an item, so a
counter above the number of items bounds the turns. -/
def evictLoop {K : Type} (maxSize : Nat) :
    Nat → Nat → BasicLRU K → Bool → Nat × BasicLRU K × Bool
  | 0, targetSize, l, evicted => (targetSize, l, evicted)
  | fuel + 1, targetSize, l, evicted =>
    if targetSize > maxSize then
      match l.RemoveOldest with
      | (l, none) => (targetSize, l, true)
      | (l, some (_, v)) =>
        evictLoop maxSize fuel ((targetSize + 2 ^ 64 - v.length % 2 ^ 64) % 2 ^ 64) l true
    else (targetSize, l, evicted)

/-- `SizeConstrainedCache.Add`: the cache after the call and the value returned. -/
def SizeConstrainedCache.Add {K : Type} [DecidableEq K] (c : SizeConstrainedCache K) (key : K)
    (value : ByteSeq) : SizeConstrainedCache K × Bool :=
  if ¬ c.lru.Contains key then
    let targetSize := (c.size + value.length % 2 ^ 64) % 2 ^ 64
    let res := evictLoop c.maxSize (c.lru.items.length + 1) targetSize c.lru false
    ({ c with size := res.1, lru := (res.2.1.Add key value).1 }, res.2.2)
  else ({ c with lru := (c.lru.Add key value).1 }, false)

/-- The total byte length of the values held in the cache. -/
def SizeConstrainedCache.held {K : Type} (c : SizeConstrainedCache K) : Nat :=
  (c.lru.items.map fun it => it.2.length).sum

/-- The cache after a sequence of `Add` calls on a new cache. -/
def run {K : Type} [DecidableEq K] (maxSize : Nat) (adds : List (K × ByteSeq)) :
    SizeConstrainedCache K :=
  adds.foldl (fun c a => (c.Add a.1 a.2).1) (NewSizeConstrainedCache maxSize)

end lru


namespace enr

/-- An entry under the key "ip" of the type of `ip4Entry`, holding 127.0.0.1. -/
def ip4Local : Entry := { ip4Entry with EncodeRLP := .ok (.string [127, 0, 0, 1]) }

end enr

namespace lru

/-- Modelled from the spec: `BasicLRU.Get` (the type `BasicLRU` is declared in a file that
is not among the sources): the value under the key, which becomes the most recently used
item; the zero value and false when the key is not in the cache. -/
def BasicLRU.Get {K : Type} [DecidableEq K] (c : BasicLRU K) (key : K) :
    BasicLRU K × ByteSeq × Bool :=
  match c.items.find? (fun it => decide (it.1 = key)) with
  | none => (c, [], false)
  | some it =>
    ({ c with items := it :: c.items.filter (fun x => decide (x.1 ≠ key)) }, it.2, true)

/-- `SizeConstrainedCache.Get`: the cache after the call, the value and the flag. -/
def SizeConstrainedCache.Get {K : Type} [DecidableEq K] (c : SizeConstrainedCache K) (key : K) :
    SizeConstrainedCache K × ByteSeq × Bool :=
  let res := c.lru.Get key
  ({ c with lru := res.1 }, res.2.1, res.2.2)

/-- Whether a subtraction in the loop of `SizeConstrainedCache.Add` wraps below zero: some
turn of the loop removes a value that is longer than the target size is then. -/
def evictUnderflows {K : Type} (maxSize : Nat) : Nat → Nat → BasicLRU K → Bool
  | 0, _, _ => false
  | fuel + 1, targetSize, l =>
    if targetSize > maxSize then
      match l.RemoveOldest with
      | (_, none) => false
      | (l, some (_, v)) =>
        decide (targetSize < v.length % 2 ^ 64) ||
          evictUnderflows maxSize fuel ((targetSize + 2 ^ 64 - v.length % 2 ^ 64) % 2 ^ 64) l
    else false

end lru

namespace common

/-- Modelled from the spec: the built-in `copy(dst[off:], src)` of Go on byte slices: as
many bytes as fit are written over `dst` from the offset on. -/
def copyAt (dst : ByteSeq) (off : Nat) (src : ByteSeq) : ByteSeq :=
  dst.take off ++ (src.take (dst.length - off) ++ dst.drop (off + src.length))

/-- Modelled from the spec: `LeftPadBytes` is declared in a file that is not among the
sources; `TestLeftPadBytes` calls it.  A slice that is long enough is returned as it is;
otherwise a slice of `l` zero bytes is made and the slice is copied to its end. -/
def LeftPadBytes (slice : ByteSeq) (l : Int) : ByteSeq :=
  if l ≤ slice.length then slice
  else
    let padded : ByteSeq := List.replicate l.toNat 0
    copyAt padded (l.toNat - slice.length) slice

/-- Modelled from the spec: the loop of `TrimRightZeroes`, which steps `idx` down from the
length while the byte before `idx` is zero. -/
def trimIdx (s : ByteSeq) : Nat → Nat
  | 0 => 0
  | idx + 1 => if s.getD idx 0 ≠ 0 then idx + 1 else trimIdx s idx

/-- Modelled from the spec: `TrimRightZeroes` is declared in a file that is not among the
sources; `TestTrimRightZeroes` calls it.  The slice up to the index where the loop
stops. -/
def TrimRightZeroes (s : ByteSeq) : ByteSeq := s.take (trimIdx s s.length)

end common

namespace mclock

/-- Modelled from the spec: the simulated clock and the alarm are declared in files that
are not among the sources; `TestAlarm` calls them.  A timer that is scheduled on the
clock: its identity and the absolute time at which it is due. -/
structure simTimer where
  /-- The identity of the timer. -/
  id : Nat
  /-- The absolute time at which the timer is due. -/
  due : Int
  deriving DecidableEq, Repr

/-- Modelled from the spec: the clock `Simulated`: the current time and the timers that
are scheduled and have not fired or been stopped. -/
structure Simulated where
  /-- The current time. -/
  now : Int
  /-- The active timers. -/
  scheduled : List simTimer
  /-- The identity that the next timer gets. -/
  nextId : Nat
  deriving DecidableEq, Repr

/-- Modelled from the spec: the type `Alarm`: a channel that holds at most one value, the
timer that was set last, and the deadline it was set for. -/
structure Alarm where
  /-- Whether the channel holds a value. -/
  ch : Bool
  /-- The timer set last, `none` for nil. -/
  timer : Option Nat
  /-- The deadline. -/
  deadline : Int
  deriving DecidableEq, Repr

/-- A simulated clock with one alarm on it; every timer of the clock is one of the alarm,
whose callback sends on the channel of the alarm. -/
structure World where
  /-- The clock. -/
  clk : Simulated
  /-- The alarm. -/
  a : Alarm
  deriving DecidableEq, Repr

/-- Modelled from the spec: `new(Simulated)` with `NewAlarm(clk)`: the time zero, no
timer, an empty channel. -/
def World.new : World :=
  { clk := { now := 0, scheduled := [], nextId := 0 },
    a := { ch := false, timer := none, deadline := 0 } }

/-- Modelled from the spec: `Alarm.send`: a send that does not block, dropped when the
channel is full. -/
def Alarm.send (a : Alarm) : Alarm := { a with ch := true }

/-- Modelled from the spec: `Simulated.Run(d)`: the timers due by the end of the step
are taken off the clock, the time moves to the end of the step, and then their callbacks
run. -/
def World.Run (w : World) (d : Nat) : World :=
  let stop := w.clk.now + d
  let fired := w.clk.scheduled.filter (fun t => decide (t.due ≤ stop))
  let clk := { w.clk with now := stop,
                          scheduled := w.clk.scheduled.filter (fun t => decide (¬ t.due ≤ stop)) }
  { clk := clk, a := fired.foldl (fun a _ => a.send) w.a }

/-- Modelled from the spec: `Simulated.ActiveTimers`. -/
def World.ActiveTimers (w : World) : Nat := w.clk.scheduled.length

/-- Modelled from the spec: `Alarm.Schedule(time)`.  A timer that is still to fire no
later than the new deadline is kept; otherwise the old timer is stopped and a new one is
set for the deadline, or for now when the deadline has passed. -/
def World.Schedule (w : World) (time : Int) : World :=
  let now := w.clk.now
  if w.a.timer ≠ none ∧ w.a.deadline > now ∧ w.a.deadline ≤ time then w
  else
    let scheduled := match w.a.timer with
      | none => w.clk.scheduled
      | some id => w.clk.scheduled.filter (fun t => decide (t.id ≠ id))
    let d : Int := if time < now then 0 else time - now
    let t : simTimer := { id := w.clk.nextId, due := now + d }
    { clk := { w.clk with scheduled := scheduled ++ [t], nextId := w.clk.nextId + 1 },
      a := { w.a with timer := some t.id, deadline := time } }

/-- The function `recv` of the test: a receive that does not block; whether a value was
there, and the world after it was taken. -/
def World.recv (w : World) : World × Bool :=
  ({ w with a := { w.a with ch := false } }, w.a.ch)

/-- The alarm is at rest: nothing in the channel, no timer on the clock, and the
deadline of a timer set earlier has passed. -/
def World.Idle (w : World) : Prop :=
  w.a.ch = false ∧ w.clk.scheduled = [] ∧ (w.a.timer ≠ none → w.a.deadline ≤ w.clk.now)

/-- The alarm is set for the deadline `T`: nothing in the channel, and one timer on the
clock, which is due by a time from now on exactly when `T` is reached by then. -/
def World.Armed (w : World) (T : Int) : Prop :=
  w.a.ch = false ∧ w.a.timer ≠ none ∧ w.a.deadline = T ∧
    ∃ t, w.clk.scheduled = [t] ∧ ∀ x, w.clk.now ≤ x → (t.due ≤ x ↔ T ≤ x)

/-- The world after a sequence of clock steps. -/
def World.Runs (w : World) (ds : List Nat) : World := ds.foldl World.Run w

end mclock


/-! ## Theorems -/

namespace enr

theorem foldl_append_pairs (pairs : List pair) (acc : List rlp.Val) :
    pairs.foldl (fun list p => list ++ [rlp.Val.string p.k, rlp.Val.rawValue p.v]) acc
      = acc ++ pairs.flatMap fun p => [rlp.Val.string p.k, rlp.Val.rawValue p.v] := by
  induction pairs generalizing acc with
  | nil => simp
  | cons p ps ih => simp [List.foldl_cons, ih, List.flatMap_cons, List.append_assoc]

theorem AppendElements_eq (r : Record) (list : List rlp.Val) :
    r.AppendElements list
      = list ++ rlp.Val.uint64 r.seq ::
          r.pairs.flatMap fun p => [rlp.Val.string p.k, rlp.Val.rawValue p.v] := by
  unfold Record.AppendElements
  rw [foldl_append_pairs]
  simp [List.append_assoc]

theorem AppendElements_sig (r : Record) (sig : Option ByteSeq) :
    r.AppendElements [rlp.Val.bytes sig] = canonicalList sig r.seq r.pairs := by
  rw [AppendElements_eq]
  rfl

theorem encode_eq (r : Record) (sig : Option ByteSeq) :
    r.encode sig =
      match rlp.EncodeToBytes (canonicalList sig r.seq r.pairs) with
      | .error err => .error err
      | .ok raw => if raw.length > SizeLimit then .error .errTooBig else .ok raw := by
  unfold Record.encode
  rw [AppendElements_sig]

theorem invalidate_signature (r : Record) : r.invalidate.signature = none := rfl

theorem invalidate_raw (r : Record) : r.invalidate.raw = none := rfl

theorem invalidate_pairs (r : Record) : r.invalidate.pairs = r.pairs := by
  unfold Record.invalidate
  split <;> rfl

theorem invalidate_seq_signed (r : Record) (h : r.signature ≠ none) :
    r.invalidate.seq = (r.seq + 1) % 2 ^ 64 := by
  unfold Record.invalidate
  simp [h]

theorem invalidate_seq_unsigned (r : Record) (h : r.signature = none) :
    r.invalidate.seq = r.seq := by
  unfold Record.invalidate
  simp [h]

/-- What `Set` does with an entry that encodes to `blob`: it returns, and apart from the
pairs the record is the invalidated one. -/
theorem Set_frame (r : Record) (e : Entry) (blob : ByteSeq) (h : e.EncodeToBytes = .ok blob) :
    (r.Set e).2 = .value () ∧ (r.Set e).1.seq = r.invalidate.seq ∧
      (r.Set e).1.signature = none ∧ (r.Set e).1.raw = none := by
  unfold Record.Set
  simp only [h]
  split_ifs <;> simp [invalidate_signature, invalidate_raw]

/-- C3 (as stated, refuted): a signed record whose sequence number is the largest `uint64`
has sequence number 0 after `Set`, not `n + 1`. -/
theorem Set_signed_seq_counterexample :
    signedMaxSeq.signature ≠ none ∧ signedMaxSeq.seq = 2 ^ 64 - 1 ∧
      ((signedMaxSeq.Set udpEntry).1.Seq = 0 ∧
        (signedMaxSeq.Set udpEntry).1.Seq ≠ signedMaxSeq.seq + 1) := by
  decide

/-- C3 (amended): after `Set` of an encodable entry on a signed record with sequence number
`n`, the sequence number is `(n + 1) mod 2 ^ 64`, which is exactly `n + 1` whenever
`n < 2 ^ 64 - 1`, and the record is unsigned: `Signature()` is nil and the cached encoding
is cleared. -/
theorem Set_signed_seq (r : Record) (e : Entry) (blob : ByteSeq)
    (hsig : r.signature ≠ none) (henc : e.EncodeToBytes = .ok blob) :
    (r.Set e).2 = .value () ∧
      (r.Set e).1.Seq = (r.seq + 1) % 2 ^ 64 ∧
      (r.seq < 2 ^ 64 - 1 → (r.Set e).1.Seq = r.seq + 1) ∧
      (r.Set e).1.Signature = none ∧ (r.Set e).1.signature = none ∧ (r.Set e).1.raw = none := by
  obtain ⟨h1, h2, h3, h4⟩ := Set_frame r e blob henc
  have hseq : (r.Set e).1.Seq = (r.seq + 1) % 2 ^ 64 := by
    unfold Record.Seq
    rw [h2, invalidate_seq_signed r hsig]
  refine ⟨h1, hseq, ?_, ?_, h3, h4⟩
  · intro hlt
    rw [hseq]
    exact Nat.mod_eq_of_lt (by omega)
  · unfold Record.Signature
    rw [h3]

/-- The scenario of the specification: the empty record, `Set` "ip", signed with "S1",
then `Set` "udp": the sequence number is 1 and the signature is nil. -/
theorem Set_signed_seq_witness :
    signedIp.signature ≠ none ∧ udpEntry.EncodeToBytes = .ok [0x82, 0x76, 0x5f] ∧
      ((signedIp.Set udpEntry).2 = .value () ∧
      (signedIp.Set udpEntry).1.Seq = (signedIp.seq + 1) % 2 ^ 64 ∧
      (signedIp.seq < 2 ^ 64 - 1 → (signedIp.Set udpEntry).1.Seq = signedIp.seq + 1) ∧
      (signedIp.Set udpEntry).1.Signature = none ∧ (signedIp.Set udpEntry).1.signature = none ∧
      (signedIp.Set udpEntry).1.raw = none) :=
  ⟨by decide, rfl, Set_signed_seq signedIp udpEntry [0x82, 0x76, 0x5f] (by decide) rfl⟩

/-- C4: on an unsigned record, `Set` of an encodable entry leaves the sequence number
unchanged, and the record stays unsigned with no cached encoding. -/
theorem Set_unsigned_seq (r : Record) (e : Entry) (blob : ByteSeq)
    (hsig : r.signature = none) (henc : e.EncodeToBytes = .ok blob) :
    (r.Set e).2 = .value () ∧ (r.Set e).1.Seq = r.Seq ∧
      (r.Set e).1.Signature = none ∧ (r.Set e).1.signature = none ∧ (r.Set e).1.raw = none := by
  obtain ⟨h1, h2, h3, h4⟩ := Set_frame r e blob henc
  refine ⟨h1, ?_, ?_, h3, h4⟩
  · unfold Record.Seq
    rw [h2, invalidate_seq_unsigned r hsig]
  · unfold Record.Signature
    rw [h3]

/-- The unsigned record at sequence number 7 keeps it when "ip" is set. -/
theorem Set_unsigned_seq_witness :
    (Record.zero.SetSeq 7).signature = none ∧ ipEntry.EncodeToBytes = .ok [0x84, 127, 0, 0, 1] ∧
      (((Record.zero.SetSeq 7).Set ipEntry).2 = .value () ∧
      ((Record.zero.SetSeq 7).Set ipEntry).1.Seq = (Record.zero.SetSeq 7).Seq ∧
      ((Record.zero.SetSeq 7).Set ipEntry).1.Signature = none ∧
      ((Record.zero.SetSeq 7).Set ipEntry).1.signature = none ∧
      ((Record.zero.SetSeq 7).Set ipEntry).1.raw = none) :=
  ⟨rfl, rfl, Set_unsigned_seq (Record.zero.SetSeq 7) ipEntry [0x84, 127, 0, 0, 1] rfl rfl⟩

/-- C5: after `SetSeq(s)` the sequence number is `s` itself, the signature and the cached
encoding are cleared, and the pairs are unchanged, whether the record was signed or not. -/
theorem SetSeq_spec (r : Record) (s : Nat) :
    (r.SetSeq s).Seq = s ∧ (r.SetSeq s).Signature = none ∧ (r.SetSeq s).signature = none ∧
      (r.SetSeq s).raw = none ∧ (r.SetSeq s).pairs = r.pairs :=
  ⟨rfl, rfl, rfl, rfl, rfl⟩

end enr

namespace enr

theorem encodeVals_pairs (pairs : List pair) :
    rlp.encodeVals (pairs.flatMap fun p => [rlp.Val.string p.k, rlp.Val.rawValue p.v])
      = pairs.flatMap fun p => rlp.writeBytes p.k ++ p.v := by
  induction pairs with
  | nil => rfl
  | cons p ps ih =>
    simp only [rlp.encodeVals] at ih
    simp [rlp.encodeVals, rlp.encodeVal, List.flatMap_cons, ih]

theorem encodeVals_canonicalList (sig : Option ByteSeq) (seq : Nat) (pairs : List pair) :
    rlp.encodeVals (canonicalList sig seq pairs)
      = rlp.writeBytes (sig.getD []) ++ rlp.writeUint64 seq
          ++ pairs.flatMap fun p => rlp.writeBytes p.k ++ p.v := by
  have h := encodeVals_pairs pairs
  simp only [rlp.encodeVals] at h
  simp [canonicalList, rlp.encodeVals, rlp.encodeVal, h]

/-- The codec's encoding of the list `[sig, seq, k1, v1, ...]` is the canonical encoding. -/
theorem EncodeToBytes_canonicalList (sig : Option ByteSeq) (seq : Nat) (pairs : List pair) :
    rlp.EncodeToBytes (canonicalList sig seq pairs) = .ok (canonicalEncoding sig seq pairs) := by
  simp only [rlp.EncodeToBytes, canonicalEncoding, encodeVals_canonicalList]

theorem encode_canonical (r : Record) (sig : Option ByteSeq) :
    r.encode sig =
      if (canonicalEncoding sig r.seq r.pairs).length > SizeLimit then .error .errTooBig
      else .ok (canonicalEncoding sig r.seq r.pairs) := by
  rw [encode_eq, EncodeToBytes_canonicalList]

/-- C8: when the scheme accepts the signature and the canonical encoding of
`[sig, seq, k1, v1, ..., kn, vn]` is at most 300 bytes, `SetSig` returns nil, the signature
is `sig`, the cached encoding is that canonical encoding (signature, sequence number, then
the pairs in stored order, which is ascending key order for ascending pairs), and the
sequence number and the pairs are unchanged. -/
theorem SetSig_success (r : Record) (s : IdentityScheme) (sig : ByteSeq)
    (hv : s.Verify r (some sig) = none)
    (hsize : (canonicalEncoding (some sig) r.seq r.pairs).length ≤ SizeLimit) :
    (r.SetSig (some s) (some sig)).2 = .value none ∧
      (r.SetSig (some s) (some sig)).1.signature = some sig ∧
      (r.SetSig (some s) (some sig)).1.Signature = some sig ∧
      (r.SetSig (some s) (some sig)).1.raw = some (canonicalEncoding (some sig) r.seq r.pairs) ∧
      rlp.EncodeToBytes (canonicalList (some sig) r.seq r.pairs)
        = .ok (canonicalEncoding (some sig) r.seq r.pairs) ∧
      (r.SetSig (some s) (some sig)).1.seq = r.seq ∧
      (r.SetSig (some s) (some sig)).1.pairs = r.pairs ∧
      (Ascending r.pairs → Ascending (r.SetSig (some s) (some sig)).1.pairs) := by
  have h : r.SetSig (some s) (some sig)
      = ({ r with signature := some sig,
                  raw := some (canonicalEncoding (some sig) r.seq r.pairs) }, .value none) := by
    simp only [Record.SetSig, hv, encode_canonical]
    rw [if_neg (by omega)]
  rw [h]
  refine ⟨rfl, rfl, ?_, rfl, EncodeToBytes_canonicalList _ _ _, rfl, rfl, fun ha => ha⟩
  simp [Record.Signature]

/-- Signing the record that holds "ip" with "S1" caches the thirteen bytes of its encoding. -/
theorem SetSig_success_witness :
    schemeS1.Verify (Record.zero.Set ipEntry).1 (some [0x53, 0x31]) = none ∧
      (signedIp.signature = some [0x53, 0x31] ∧
        signedIp.raw = some [0xcc, 0x82, 0x53, 0x31, 0x80, 0x82, 0x69, 0x70, 0x84, 127, 0, 0, 1]) := by
  have h := SetSig_success (Record.zero.Set ipEntry).1 schemeS1 [0x53, 0x31] (by decide) (by decide)
  exact ⟨by decide, h.2.1, h.2.2.2.1.trans (by decide)⟩

/-- C9: `SetSig` with a scheme and a signature is atomic on failure.  If `Verify` returns an
error, `SetSig` returns that error; if `Verify` accepts and the canonical encoding with the
signature is longer than 300 bytes, `SetSig` returns `errTooBig`; in both cases the record
(sequence number, signature, cached encoding, pairs) is as before the call. -/
theorem SetSig_failure_atomic (r : Record) (s : IdentityScheme) (sig : ByteSeq) :
    (∀ err, s.Verify r (some sig) = some err →
        r.SetSig (some s) (some sig) = (r, .value (some err))) ∧
      (s.Verify r (some sig) = none →
        SizeLimit < (canonicalEncoding (some sig) r.seq r.pairs).length →
        r.SetSig (some s) (some sig) = (r, .value (some .errTooBig))) := by
  constructor
  · intro err hv
    simp only [Record.SetSig, hv]
  · intro hv hbig
    simp only [Record.SetSig, hv, encode_canonical]
    rw [if_pos hbig]

set_option maxRecDepth 100000 in
/-- On the record signed with "S1", a signature that the scheme refuses and a signature of
300 bytes both leave the record as it was. -/
theorem SetSig_failure_atomic_witness :
    signedIp.SetSig (some schemeS1) (some [0]) = (signedIp, .value (some .ErrInvalidSig)) ∧
      signedIp.SetSig (some schemeAny) (some longSig) = (signedIp, .value (some .errTooBig)) :=
  ⟨(SetSig_failure_atomic signedIp schemeS1 [0]).1 .ErrInvalidSig (by decide),
    (SetSig_failure_atomic signedIp schemeAny longSig).2 rfl (by decide)⟩

set_option maxRecDepth 100000 in
/-- C10 (as stated, refuted): the record signed with "S1" is given a signature of 300
bytes that the scheme accepts; the encoding is longer than 300 bytes, `SetSig` fails with
`errTooBig`, and `Signature()` is still "S1", not nil. -/
theorem SetSig_too_big_counterexample :
    schemeAny.Verify signedIp (some longSig) = none ∧
      SizeLimit < (canonicalEncoding (some longSig) signedIp.seq signedIp.pairs).length ∧
      (signedIp.SetSig (some schemeAny) (some longSig)).2 = .value (some .errTooBig) ∧
      (signedIp.SetSig (some schemeAny) (some longSig)).1.Signature = some [0x53, 0x31] ∧
      (signedIp.SetSig (some schemeAny) (some longSig)).1.Signature ≠ none := by
  decide

/-- C10 (amended): when the scheme accepts the signature and the canonical encoding
`[sig, seq, pairs...]` is longer than 300 bytes, `SetSig` fails with `errTooBig` and leaves
the record as it was before the call: `Signature()` is nil afterwards if the record was
unsigned before. -/
theorem SetSig_too_big (r : Record) (s : IdentityScheme) (sig : ByteSeq)
    (hv : s.Verify r (some sig) = none)
    (hbig : SizeLimit < (canonicalEncoding (some sig) r.seq r.pairs).length) :
    (r.SetSig (some s) (some sig)).2 = .value (some .errTooBig) ∧
      (r.SetSig (some s) (some sig)).1 = r ∧
      (r.signature = none → (r.SetSig (some s) (some sig)).1.Signature = none) := by
  have h : r.SetSig (some s) (some sig) = (r, .value (some .errTooBig)) := by
    simp only [Record.SetSig, hv, encode_canonical]
    rw [if_pos hbig]
  rw [h]
  refine ⟨rfl, rfl, fun hn => ?_⟩
  simp [Record.Signature, hn]

set_option maxRecDepth 100000 in
/-- The unsigned record holding "ip" stays unsigned when a signature of 300 bytes is
refused for its size. -/
theorem SetSig_too_big_witness :
    schemeAny.Verify (Record.zero.Set ipEntry).1 (some longSig) = none ∧
      SizeLimit < (canonicalEncoding (some longSig) (Record.zero.Set ipEntry).1.seq
        (Record.zero.Set ipEntry).1.pairs).length ∧
      ((Record.zero.Set ipEntry).1.SetSig (some schemeAny) (some longSig)).2
        = .value (some .errTooBig) ∧
      ((Record.zero.Set ipEntry).1.SetSig (some schemeAny) (some longSig)).1.Signature = none :=
  have h := SetSig_too_big (Record.zero.Set ipEntry).1 schemeAny longSig rfl (by decide)
  ⟨rfl, by decide, h.1, h.2.2 rfl⟩

end enr

namespace sort

/-- The loop of `Search` on a predicate that stays true once true: it ends within
`j - i` iterations at the boundary between the indices where `f` fails and those where
it holds. -/
theorem SearchLoop_spec (f : Nat → Bool) (n : Nat)
    (hmono : ∀ a b, a ≤ b → b < n → f a = true → f b = true) :
    ∀ fuel i j, j ≤ n → i ≤ j → j - i ≤ fuel →
      (∀ k, k < i → f k = false) → (∀ k, j ≤ k → k < n → f k = true) →
      i ≤ SearchLoop f fuel i j ∧ SearchLoop f fuel i j ≤ j ∧
        (∀ k, k < SearchLoop f fuel i j → f k = false) ∧
        (∀ k, SearchLoop f fuel i j ≤ k → k < n → f k = true) := by
  intro fuel
  induction fuel with
  | zero =>
    intro i j _ hij hfuel hlo hhi
    have hji : j = i := by omega
    subst hji
    exact ⟨Nat.le_refl _, Nat.le_refl _, hlo, hhi⟩
  | succ fuel ih =>
    intro i j hjn hij hfuel hlo hhi
    unfold SearchLoop
    by_cases hlt : i < j
    · rw [if_pos hlt]
      have hh1 : i ≤ (i + j) / 2 := by omega
      have hh2 : (i + j) / 2 < j := by omega
      cases hf : f ((i + j) / 2) with
      | false =>
        simp only [hf, Bool.not_false, if_true]
        have hlo2 : ∀ k, k < (i + j) / 2 + 1 → f k = false := by
          intro k hk
          cases hfk : f k with
          | false => rfl
          | true =>
            have := hmono k ((i + j) / 2) (by omega) (by omega) hfk
            rw [hf] at this
            exact absurd this (by decide)
        obtain ⟨h1, h2, h3, h4⟩ :=
          ih ((i + j) / 2 + 1) j hjn (by omega) (by omega) hlo2 hhi
        exact ⟨by omega, h2, h3, h4⟩
      | true =>
        simp only [hf, Bool.not_true, Bool.false_eq_true, if_false]
        have hhi2 : ∀ k, (i + j) / 2 ≤ k → k < n → f k = true := by
          intro k hk hkn
          exact hmono ((i + j) / 2) k hk hkn hf
        obtain ⟨h1, h2, h3, h4⟩ :=
          ih i ((i + j) / 2) (by omega) hh1 (by omega) hlo hhi2
        exact ⟨h1, by omega, h3, h4⟩
    · rw [if_neg hlt]
      have hji : j = i := by omega
      subst hji
      exact ⟨Nat.le_refl _, Nat.le_refl _, hlo, hhi⟩

/-- `Search(n, f)` on a predicate that stays true once true returns the least index at
which `f` holds, `n` if there is none. -/
theorem Search_spec (f : Nat → Bool) (n : Nat)
    (hmono : ∀ a b, a ≤ b → b < n → f a = true → f b = true) :
    Search n f ≤ n ∧ (∀ k, k < Search n f → f k = false) ∧
      (∀ k, Search n f ≤ k → k < n → f k = true) := by
  obtain ⟨_, h2, h3, h4⟩ := SearchLoop_spec f n hmono n 0 n (Nat.le_refl _) (Nat.zero_le _)
    (by omega) (fun k hk => absurd hk (Nat.not_lt_zero k)) (fun k hk hkn => absurd hkn (by omega))
  exact ⟨h2, h3, h4⟩

end sort

namespace enr

theorem keys_length (pairs : List pair) : (keys pairs).length = pairs.length := by
  simp [keys]

theorem keyAt_eq (pairs : List pair) (i : Nat) (h : i < (keys pairs).length) :
    keyAt pairs i = (keys pairs)[i] := by
  have hi : i < pairs.length := by simpa [keys] using h
  simp [keyAt, keys, List.get?_eq_getElem?, List.getElem?_eq_getElem hi]

/-- On ascending pairs the search predicate of `Set` and `Load` stays true once true. -/
theorem search_pred_mono (pairs : List pair) (key : GoString) (ha : Ascending pairs) :
    ∀ a b, a ≤ b → b < pairs.length →
      decide (keyAt pairs a ≥ key) = true → decide (keyAt pairs b ≥ key) = true := by
  intro a b hab hb hfa
  rcases Nat.eq_or_lt_of_le hab with heq | hlt
  · subst heq
    exact hfa
  · have hbk : b < (keys pairs).length := by rw [keys_length]; exact hb
    have hak : a < (keys pairs).length := by omega
    have hlt2 := (List.pairwise_iff_getElem.mp ha) a b hak hbk hlt
    rw [keyAt_eq pairs a hak] at hfa
    rw [keyAt_eq pairs b hbk]
    simp only [ge_iff_le, decide_eq_true_eq] at hfa ⊢
    exact le_of_lt (lt_of_le_of_lt hfa hlt2)

/-- The index that `Set` and `Load` search for on ascending pairs: every key before it is
smaller than the key searched, every key from it on is at least that key. -/
theorem search_pairs (pairs : List pair) (key : GoString) (ha : Ascending pairs) :
    sort.Search pairs.length (fun i => decide (keyAt pairs i ≥ key)) ≤ pairs.length ∧
      (∀ k, k < sort.Search pairs.length (fun i => decide (keyAt pairs i ≥ key)) →
        keyAt pairs k < key) ∧
      (∀ k, sort.Search pairs.length (fun i => decide (keyAt pairs i ≥ key)) ≤ k →
        k < pairs.length → key ≤ keyAt pairs k) := by
  obtain ⟨h1, h2, h3⟩ := sort.Search_spec (fun i => decide (keyAt pairs i ≥ key)) pairs.length
    (search_pred_mono pairs key ha)
  refine ⟨h1, fun k hk => ?_, fun k hk hkn => ?_⟩
  · have := h2 k hk
    simpa using this
  · have := h3 k hk hkn
    simpa using this

theorem keys_take (pairs : List pair) (i : Nat) : keys (pairs.take i) = (keys pairs).take i := by
  simp [keys, List.map_take]

theorem keys_drop (pairs : List pair) (i : Nat) : keys (pairs.drop i) = (keys pairs).drop i := by
  simp [keys, List.map_drop]

/-- Inserting a key at an index that separates the smaller keys from the larger ones keeps
the pairs ascending. -/
theorem Ascending_insert (pairs : List pair) (i : Nat) (p : pair) (ha : Ascending pairs)
    (hlo : ∀ k, k < i → k < pairs.length → keyAt pairs k < p.k)
    (hhi : ∀ k, i ≤ k → k < pairs.length → p.k < keyAt pairs k) :
    Ascending (pairs.take i ++ [p] ++ pairs.drop i) := by
  unfold Ascending at ha ⊢
  have hsplit : keys (pairs.take i ++ [p] ++ pairs.drop i)
      = (keys pairs).take i ++ (p.k :: (keys pairs).drop i) := by
    simp [keys, List.map_take, List.map_drop]
  rw [hsplit, List.pairwise_append]
  have hall : ((keys pairs).take i ++ (keys pairs).drop i).Pairwise (· < ·) := by
    rw [List.take_append_drop]; exact ha
  rw [List.pairwise_append] at hall
  obtain ⟨ht, hd, hcross⟩ := hall
  refine ⟨ht, List.pairwise_cons.mpr ⟨?_, hd⟩, ?_⟩
  · intro b hb
    obtain ⟨j, hj, rfl⟩ := List.mem_drop_iff_getElem.mp hb
    have hj2 : i + j < (keys pairs).length := by omega
    have := hhi (i + j) (by omega) (by rw [← keys_length]; exact hj2)
    rwa [keyAt_eq pairs (i + j) hj2] at this
  · intro a hat b hb
    rcases List.mem_cons.mp hb with rfl | hb
    · obtain ⟨j, hj, rfl⟩ := List.mem_take_iff_getElem.mp hat
      have hj2 : j < (keys pairs).length := by omega
      have := hlo j (by omega) (by rw [← keys_length]; exact hj2)
      rwa [keyAt_eq pairs j hj2] at this
    · exact hcross a hat b hb

theorem Ascending_set (pairs : List pair) (i : Nat) (v : ByteSeq) (ha : Ascending pairs) :
    Ascending (pairs.set i { k := keyAt pairs i, v := v }) := by
  unfold Ascending at ha ⊢
  have : keys (pairs.set i { k := keyAt pairs i, v := v }) = keys pairs := by
    by_cases hi : i < pairs.length
    · have hik : i < (keys pairs).length := by rw [keys_length]; exact hi
      simp only [keys, List.map_set]
      rw [keyAt_eq pairs i hik]
      apply List.ext_getElem (by simp)
      intro n h1 h2
      by_cases hn : i = n
      · subst hn
        simp [keys]
      · simp [List.getElem_set_ne hn]
    · rw [List.set_eq_of_length_le (by omega)]
  rw [this]
  exact ha

/-- `Set` keeps ascending pairs ascending. -/
theorem Set_Ascending (r : Record) (e : Entry) (ha : Ascending r.pairs) :
    Ascending (r.Set e).1.pairs := by
  unfold Record.Set
  cases henc : e.EncodeToBytes with
  | error err => exact ha
  | ok blob =>
    simp only [invalidate_pairs]
    obtain ⟨h1, h2, h3⟩ := search_pairs r.pairs e.ENRKey ha
    split_ifs with hc1 hc2
    · exact Ascending_set _ _ _ ha
    · refine Ascending_insert _ _ _ ha (fun k hk _ => h2 k hk) (fun k hk hkn => ?_)
      have hge := h3 k hk hkn
      have hge_i := h3 _ (Nat.le_refl _) hc2
      have hne : keyAt r.pairs
          (sort.Search r.pairs.length fun i => decide (keyAt r.pairs i ≥ e.ENRKey)) ≠ e.ENRKey :=
        fun heq => hc1 ⟨hc2, heq⟩
      have hgt_i := lt_of_le_of_ne hge_i (Ne.symm hne)
      rcases Nat.eq_or_lt_of_le hk with heq | hlt
      · rw [← heq]; exact hgt_i
      · have hkk : k < (keys r.pairs).length := by rw [keys_length]; exact hkn
        have := (List.pairwise_iff_getElem.mp ha) _ k (by omega) hkk hlt
        rw [keyAt_eq r.pairs k hkk]
        rw [keyAt_eq r.pairs _ (by omega)] at hgt_i
        exact lt_trans hgt_i this
    · have hlen : sort.Search r.pairs.length (fun i => decide (keyAt r.pairs i ≥ e.ENRKey))
          = r.pairs.length := by omega
      have := Ascending_insert r.pairs r.pairs.length { k := e.ENRKey, v := blob } ha
        (fun k hk _ => h2 k (by omega)) (fun k hk hkn => absurd hkn (by omega))
      simpa using this

end enr

namespace enr

/-- The loop of `decodeRecord` returns the raw item it was given and changes nothing of
the record but the pairs. -/
theorem decodePairs_frame (raw : ByteSeq) :
    ∀ (fuel i : Nat) (prevkey : GoString) (dec : Record) (s : rlp.Stream),
      (decodePairs raw fuel i prevkey dec s).raw = some raw ∧
        (decodePairs raw fuel i prevkey dec s).dec.signature = dec.signature ∧
        (decodePairs raw fuel i prevkey dec s).dec.seq = dec.seq ∧
        (decodePairs raw fuel i prevkey dec s).dec.raw = dec.raw := by
  intro fuel
  induction fuel with
  | zero => intro i prevkey dec s; exact ⟨rfl, rfl, rfl, rfl⟩
  | succ fuel ih =>
    intro i prevkey dec s
    unfold decodePairs
    split
    · split_ifs
      · split <;> exact ⟨rfl, rfl, rfl, rfl⟩
      · exact ⟨rfl, rfl, rfl, rfl⟩
    · split
      · split_ifs <;> exact ⟨rfl, rfl, rfl, rfl⟩
      · split_ifs
        · exact ⟨rfl, rfl, rfl, rfl⟩
        · exact ⟨rfl, rfl, rfl, rfl⟩
        · exact ih _ _ _ _

/-- The loop of `decodeRecord` keeps the decoded pairs ascending: a key is appended only
when it is greater than the previous one. -/
theorem decodePairs_Ascending (raw : ByteSeq) :
    ∀ (fuel i : Nat) (prevkey : GoString) (dec : Record) (s : rlp.Stream),
      Ascending dec.pairs → (∀ k ∈ keys dec.pairs, 0 < i ∧ k ≤ prevkey) →
      Ascending (decodePairs raw fuel i prevkey dec s).dec.pairs := by
  intro fuel
  induction fuel with
  | zero => intro i prevkey dec s ha _; exact ha
  | succ fuel ih =>
    intro i prevkey dec s ha hprev
    unfold decodePairs
    cases hk : rlp.decodeString s with
    | error err =>
      simp only []
      split_ifs
      · split <;> exact ha
      · exact ha
    | ok ks =>
      obtain ⟨k, s1⟩ := ks
      simp only []
      cases hv : rlp.decodeRawValue s1 with
      | error err =>
        simp only []
        split_ifs <;> exact ha
      | ok vs =>
        obtain ⟨v, s2⟩ := vs
        simp only []
        split_ifs with hdup hns
        · exact ha
        · exact ha
        · apply ih
          · unfold Ascending at ha ⊢
            simp only [keys, List.map_append, List.map_cons, List.map_nil]
            rw [List.pairwise_append]
            refine ⟨ha, List.pairwise_singleton _ _, ?_⟩
            intro a hmem b hb
            rw [List.mem_singleton] at hb
            subst hb
            obtain ⟨hi, hle⟩ := hprev a hmem
            have h1 : ¬ b = prevkey := fun h => hdup ⟨hi, h⟩
            have h2 : ¬ b < prevkey := fun h => hns ⟨hi, h⟩
            have h3 : prevkey < b := lt_of_le_of_ne (not_lt.mp h2) (Ne.symm h1)
            exact lt_of_le_of_lt hle h3
          · intro a hmem
            simp only [keys, List.map_append, List.map_cons, List.map_nil, List.mem_append,
              List.mem_singleton] at hmem
            refine ⟨Nat.succ_pos _, ?_⟩
            rcases hmem with hmem | rfl
            · obtain ⟨hi, hle⟩ := hprev a hmem
              have h2 : ¬ k < prevkey := fun h => hns ⟨hi, h⟩
              exact le_trans hle (not_lt.mp h2)
            · exact le_refl _

/-- What `decodeRecord` returns when it returns no error: a raw item, a signature that is
not nil, no cached encoding in the record itself, and ascending pairs. -/
theorem decodeRecord_ok (s : rlp.Stream) (h : (decodeRecord s).err = none) :
    (∃ raw, (decodeRecord s).raw = some raw) ∧
      (∃ sig, (decodeRecord s).dec.signature = some sig) ∧
      (decodeRecord s).dec.raw = none ∧ Ascending (decodeRecord s).dec.pairs := by
  unfold decodeRecord at h ⊢
  cases hraw : s.Raw with
  | error err => rw [hraw] at h; simp at h
  | ok rs =>
    obtain ⟨raw, s0⟩ := rs
    rw [hraw] at h
    simp only [] at h ⊢
    by_cases hbig : raw.length > SizeLimit
    · rw [if_pos hbig] at h; simp at h
    · rw [if_neg hbig] at h ⊢
      cases hl : (rlp.NewStream raw 0).List with
      | error err => rw [hl] at h; simp at h
      | ok ls =>
        obtain ⟨n, s1⟩ := ls
        rw [hl] at h
        simp only [] at h ⊢
        cases hsig : rlp.decodeByteSlice s1 with
        | error err => rw [hsig] at h; simp at h
        | ok ss =>
          obtain ⟨sig, s2⟩ := ss
          rw [hsig] at h
          simp only [] at h ⊢
          cases hseq : rlp.decodeUint s2 with
          | error err => rw [hseq] at h; simp at h
          | ok qs =>
            obtain ⟨seq, s3⟩ := qs
            simp only []
            obtain ⟨h1, h2, _, h4⟩ := decodePairs_frame raw (raw.length + 1) 0 []
              { Record.zero with signature := some sig, seq := seq } s3
            refine ⟨⟨raw, h1⟩, ⟨sig, h2⟩, h4, ?_⟩
            apply decodePairs_Ascending
            · exact List.Pairwise.nil
            · intro k hk
              simp [keys, Record.zero] at hk

end enr

namespace enr

/-- The three things `SetSig` can do to a record: leave it as it is (a panic or an error),
clear signature and cached encoding, or store the signature with the canonical encoding,
which then is within the size limit. -/
theorem SetSig_cases (r : Record) (s : Option IdentityScheme) (sig : Option ByteSeq) :
    (r.SetSig s sig).1 = r ∨
      (r.SetSig s sig).1 = { r with signature := none, raw := none } ∨
      ∃ sg, (canonicalEncoding (some sg) r.seq r.pairs).length ≤ SizeLimit ∧
        (r.SetSig s sig).1 = { r with signature := some sg,
                                      raw := some (canonicalEncoding (some sg) r.seq r.pairs) } := by
  cases s with
  | none =>
    cases sig with
    | none => exact Or.inr (Or.inl rfl)
    | some sg => exact Or.inl rfl
  | some sch =>
    cases sig with
    | none => exact Or.inl rfl
    | some sg =>
      simp only [Record.SetSig]
      cases hv : sch.Verify r (some sg) with
      | some err => exact Or.inl rfl
      | none =>
        simp only [encode_canonical]
        by_cases hbig : (canonicalEncoding (some sg) r.seq r.pairs).length > SizeLimit
        · rw [if_pos hbig]; exact Or.inl rfl
        · rw [if_neg hbig]; exact Or.inr (Or.inr ⟨sg, by omega, rfl⟩)

/-- `DecodeRLP` either fails and leaves the record as it is, or `decodeRecord` returned no
error and the record is the decoded one with the raw item as its cached encoding. -/
theorem DecodeRLP_cases (r : Record) (s : rlp.Stream) :
    ((r.DecodeRLP s).2 ≠ none ∧ (r.DecodeRLP s).1 = r) ∨
      ((decodeRecord s).err = none ∧ (r.DecodeRLP s).2 = none ∧
        (r.DecodeRLP s).1 = { (decodeRecord s).dec with raw := (decodeRecord s).raw }) := by
  unfold Record.DecodeRLP
  cases h : (decodeRecord s).err with
  | some err => left; simp [h]
  | none => right; simp [h]

theorem Set_raw_signature (r : Record) (e : Entry) :
    (r.Set e).1 = r ∨ ((r.Set e).1.signature = none ∧ (r.Set e).1.raw = none) := by
  cases henc : e.EncodeToBytes with
  | error err => left; simp [Record.Set, henc]
  | ok blob =>
    obtain ⟨_, _, h3, h4⟩ := Set_frame r e blob henc
    exact Or.inr ⟨h3, h4⟩

/-- Every reachable record has ascending pairs. -/
theorem Reachable.ascending {r : Record} (h : Reachable r) : Ascending r.pairs := by
  induction h with
  | zero => exact List.Pairwise.nil
  | Set r e _ ih => exact Set_Ascending r e ih
  | SetSeq r s _ _ ih => exact ih
  | SetSig r s sig _ ih =>
    rcases SetSig_cases r s sig with h | h | ⟨sg, _, h⟩ <;> rw [h] <;> exact ih
  | DecodeRLP r s _ ih =>
    rcases DecodeRLP_cases r s with ⟨_, h⟩ | ⟨herr, _, h⟩
    · rw [h]; exact ih
    · rw [h]; exact (decodeRecord_ok s herr).2.2.2

/-- Every reachable record has a cached encoding exactly when it has a signature. -/
theorem Reachable.raw_iff_signature {r : Record} (h : Reachable r) :
    r.raw ≠ none ↔ r.signature ≠ none := by
  induction h with
  | zero => simp [Record.zero]
  | Set r e _ ih =>
    rcases Set_raw_signature r e with h | ⟨h1, h2⟩
    · rw [h]; exact ih
    · rw [h1, h2]
  | SetSeq r s _ _ ih => simp [Record.SetSeq]
  | SetSig r s sig _ ih =>
    rcases SetSig_cases r s sig with h | h | ⟨sg, _, h⟩ <;> rw [h]
    · exact ih
    · simp
  | DecodeRLP r s _ ih =>
    rcases DecodeRLP_cases r s with ⟨_, h⟩ | ⟨herr, _, h⟩
    · rw [h]; exact ih
    · obtain ⟨⟨raw, hr⟩, ⟨sig, hs⟩, _, _⟩ := decodeRecord_ok s herr
      rw [h]
      simp [hr, hs]

/-- C2: every record reachable from the zero record by `Set`, `SetSeq`, `SetSig` and
`DecodeRLP` has its pairs strictly ascending by byte-wise key order, hence no key twice. -/
theorem Reachable_pairs_sorted (r : Record) (h : Reachable r) :
    Ascending r.pairs ∧ (keys r.pairs).Nodup ∧
      ∀ (i j : Nat) (hi : i < r.pairs.length) (hj : j < r.pairs.length),
        i < j → (r.pairs.get ⟨i, hi⟩).k < (r.pairs.get ⟨j, hj⟩).k := by
  have ha := h.ascending
  refine ⟨ha, ?_, ?_⟩
  · exact List.Pairwise.imp (fun hlt => ne_of_lt hlt) ha
  · intro i j hi hj hij
    have := (List.pairwise_iff_getElem.mp ha) i j (by rw [keys_length]; exact hi)
      (by rw [keys_length]; exact hj) hij
    simpa [keys] using this

/-- The record decoded from the bytes `[sig "", seq 0, "a" 1, "b" 2]` and then given "udp"
and "ip" in that order holds the keys "a" < "b" < "ip" < "udp". -/
theorem Reachable_pairs_sorted_witness :
    keys (((Record.zero.DecodeRLP
        (rlp.NewStream [0xc6, 0x80, 0x80, 0x61, 0x01, 0x62, 0x02] 0)).1.Set udpEntry).1.Set
          ipEntry).1.pairs = [[0x61], [0x62], [0x69, 0x70], [0x75, 0x64, 0x70]] ∧
      Ascending (((Record.zero.DecodeRLP
        (rlp.NewStream [0xc6, 0x80, 0x80, 0x61, 0x01, 0x62, 0x02] 0)).1.Set udpEntry).1.Set
          ipEntry).1.pairs :=
  ⟨by decide, (Reachable_pairs_sorted _
    (Reachable.Set _ ipEntry (Reachable.Set _ udpEntry
      (Reachable.DecodeRLP _ _ Reachable.zero)))).1⟩

/-- C6: for every record reachable from the zero record by `Set`, `SetSeq`, `SetSig` and
`DecodeRLP`, the cached encoding `raw` is present if and only if the signature is. -/
theorem Reachable_raw_iff_signature (r : Record) (h : Reachable r) :
    (r.raw ≠ none ↔ r.signature ≠ none) ∧ (r.raw = none ↔ r.Signature = none) := by
  have h1 := h.raw_iff_signature
  refine ⟨h1, ?_⟩
  have h2 : r.Signature = none ↔ r.signature = none := by
    unfold Record.Signature
    cases r.signature <;> simp
  rw [h2]
  exact not_iff_not.mp h1

/-- The record signed with "S1" has both, and loses both when "udp" is set. -/
theorem Reachable_raw_iff_signature_witness :
    (signedIp.raw ≠ none ∧ signedIp.signature ≠ none) ∧
      ((signedIp.Set udpEntry).1.raw = none ↔ (signedIp.Set udpEntry).1.Signature = none) :=
  ⟨by decide, (Reachable_raw_iff_signature (signedIp.Set udpEntry).1
    (Reachable.Set _ udpEntry (Reachable.SetSig _ _ _
      (Reachable.Set _ ipEntry Reachable.zero)))).2⟩

end enr

namespace rlp

theorem byte_val (n : Nat) : (byte n).val = n % 256 := rfl

theorem byte_val_of_lt (n : Nat) (h : n < 256) : (byte n).val = n := by
  rw [byte_val, Nat.mod_eq_of_lt h]

theorem byte_eq_of_val (x : Byte) : byte x.val = x := by
  apply Fin.ext
  rw [byte_val, Nat.mod_eq_of_lt x.isLt]

theorem bigEndian_length (n i : Nat) : (bigEndian n i).length = n := by
  induction n generalizing i with
  | zero => rfl
  | succ n ih => simp [bigEndian, ih]

theorem beUint_append (l : ByteSeq) (x : Byte) :
    Stream.beUint (l ++ [x]) = Stream.beUint l * 256 + x.val := by
  simp [Stream.beUint, List.foldl_append]

theorem beUint_lt (l : ByteSeq) : Stream.beUint l < 256 ^ l.length := by
  induction l using List.reverseRecOn with
  | nil => simp [Stream.beUint]
  | append_singleton l x ih =>
    rw [beUint_append, List.length_append, List.length_singleton, Nat.pow_succ]
    have := x.isLt
    omega

/-- Writing a big-endian byte string back gives the same bytes. -/
theorem bigEndian_beUint (l : ByteSeq) : bigEndian l.length (Stream.beUint l) = l := by
  induction l using List.reverseRecOn with
  | nil => rfl
  | append_singleton l x ih =>
    rw [beUint_append, List.length_append, List.length_singleton, bigEndian]
    have hx := x.isLt
    have h1 : (Stream.beUint l * 256 + x.val) / 256 = Stream.beUint l := by omega
    have h2 : byte (Stream.beUint l * 256 + x.val) = x := by
      apply Fin.ext
      rw [byte_val]
      omega
    rw [h1, h2, ih]

/-- Reading the `n` big-endian bytes of `i` gives `i` modulo `256 ^ n`. -/
theorem beUint_bigEndian (n i : Nat) : Stream.beUint (bigEndian n i) = i % 256 ^ n := by
  induction n generalizing i with
  | zero => simp [bigEndian, Stream.beUint, Nat.mod_one]
  | succ n ih =>
    rw [bigEndian, beUint_append, ih, byte_val, Nat.pow_succ]
    have := Nat.mod_mul_right_div_self i 256 (256 ^ n)
    have h3 : i % (256 ^ n * 256) = i % 256 + 256 * (i / 256 % 256 ^ n) := by
      rw [Nat.mul_comm (256 ^ n) 256]
      exact Nat.mod_mul
    rw [h3]
    omega

theorem beUint_cons (x : Byte) (l : ByteSeq) :
    Stream.beUint (x :: l) = x.val * 256 ^ l.length + Stream.beUint l := by
  induction l using List.reverseRecOn with
  | nil => simp [Stream.beUint]
  | append_singleton l y ih =>
    rw [← List.cons_append, beUint_append, ih, beUint_append, List.length_append,
      List.length_singleton, Nat.pow_succ]
    ring

/-- A big-endian byte string whose first byte is not zero has a value of full length. -/
theorem beUint_ge (x : Byte) (l : ByteSeq) (hx : x ≠ 0) :
    256 ^ l.length ≤ Stream.beUint (x :: l) := by
  rw [beUint_cons]
  have : 1 ≤ x.val := by
    rcases Nat.eq_zero_or_pos x.val with h | h
    · exact absurd (Fin.ext h) hx
    · exact h
  calc 256 ^ l.length = 1 * 256 ^ l.length := (Nat.one_mul _).symm
    _ ≤ x.val * 256 ^ l.length := Nat.mul_le_mul_right _ this
    _ ≤ x.val * 256 ^ l.length + Stream.beUint l := Nat.le_add_right _ _

theorem intsizeLoop_eq (fuel : Nat) :
    ∀ (i size n : Nat), n ≤ fuel → 256 ^ n ≤ i → i < 256 ^ (n + 1) →
      intsizeLoop fuel i size = size + n := by
  induction fuel with
  | zero =>
    intro i size n hn _ _
    have : n = 0 := by omega
    subst this
    rfl
  | succ fuel ih =>
    intro i size n hn hlo hhi
    unfold intsizeLoop
    cases n with
    | zero =>
      have : i / 256 = 0 := by
        simp only [Nat.zero_add, Nat.pow_one] at hhi
        omega
      rw [if_pos this]
      rfl
    | succ n =>
      have hlo2 : 256 ^ n ≤ i / 256 := by
        rw [Nat.pow_succ] at hlo
        exact (Nat.le_div_iff_mul_le (by decide)).mpr hlo
      have hhi2 : i / 256 < 256 ^ (n + 1) := by
        rw [Nat.pow_succ] at hhi
        exact (Nat.div_lt_iff_lt_mul (by decide)).mpr hhi
      have hne : ¬ i / 256 = 0 := by
        have : 0 < 256 ^ n := Nat.pow_pos (by decide)
        omega
      rw [if_neg hne, ih (i / 256) (size + 1) n (by omega) hlo2 hhi2]
      omega

/-- The byte length of a value from `256 ^ n` up to `256 ^ (n + 1)`, for `n` up to seven, is
`n + 1`. -/
theorem intsize_eq (i n : Nat) (hn : n ≤ 7) (hlo : 256 ^ n ≤ i) (hhi : i < 256 ^ (n + 1)) :
    intsize i = n + 1 := by
  unfold intsize
  rw [intsizeLoop_eq 8 i 1 n (by omega) hlo hhi]
  omega

theorem intsize_zero : intsize 0 = 1 := rfl

/-- Every positive `uint64` lies between two consecutive powers of 256 up to `256 ^ 8`. -/
theorem exists_pow_bounds (i : Nat) (h0 : 0 < i) (h : i < 2 ^ 64) :
    ∃ n, n ≤ 7 ∧ 256 ^ n ≤ i ∧ i < 256 ^ (n + 1) := by
  by_cases h1 : i < 256 ^ 1
  · exact ⟨0, by omega, by simpa using h0, h1⟩
  by_cases h2 : i < 256 ^ 2
  · exact ⟨1, by omega, by omega, h2⟩
  by_cases h3 : i < 256 ^ 3
  · exact ⟨2, by omega, by omega, h3⟩
  by_cases h4 : i < 256 ^ 4
  · exact ⟨3, by omega, by omega, h4⟩
  by_cases h5 : i < 256 ^ 5
  · exact ⟨4, by omega, by omega, h5⟩
  by_cases h6 : i < 256 ^ 6
  · exact ⟨5, by omega, by omega, h6⟩
  by_cases h7 : i < 256 ^ 7
  · exact ⟨6, by omega, by omega, h7⟩
  · exact ⟨7, by omega, by omega, by
      have : (256 : Nat) ^ (7 + 1) = 2 ^ 64 := by norm_num
      omega⟩

end rlp

namespace rlp

theorem Stream.Pos.advance {s : Stream} {input : ByteSeq} {inList : Bool}
    (h : s.Pos input inList) (n : Nat) (hn : n ≤ input.length) :
    (s.advance n).At (input.drop n) inList := by
  obtain ⟨h1, h2, h3, h4⟩ := h
  refine ⟨⟨?_, h2, ?_, ?_⟩, rfl⟩
  · simp [Stream.advance, h1]
  · cases inList <;> simp [Stream.advance, h3]
  · simp only [Stream.advance, List.length_drop]
    omega

theorem Stream.At.toPos {s : Stream} {input : ByteSeq} {inList : Bool}
    (h : s.At input inList) : s.Pos input inList := h.pos

/-- Caching a kind does not move the stream. -/
theorem Stream.Pos.cache {s : Stream} {input : ByteSeq} {inList : Bool}
    (h : s.Pos input inList) (k : Option rlp.Kind) (size : Nat) (bv : Byte) (e : Option Error) :
    Stream.Pos { s with kind := k, size := size, byteval := bv, kinderr := e } input inList :=
  ⟨h.r_eq, h.limited_eq, h.stack_eq, h.le_remaining⟩

theorem Stream.Pos.rearm {s : Stream} {input : ByteSeq} {inList : Bool}
    (h : s.Pos input inList) : Stream.At { s with kind := none } input inList :=
  ⟨⟨h.r_eq, h.limited_eq, h.stack_eq, h.le_remaining⟩, rfl⟩

/-- `willRead(n)` with `n` bytes of input left succeeds. -/
theorem willRead_eq {s : Stream} {input : ByteSeq} {inList : Bool}
    (h : s.Pos input inList) (n : Nat) (hn : n ≤ input.length) :
    s.willRead n = .ok { s.advance n with r := s.r } := by
  obtain ⟨h1, h2, h3, h4⟩ := h
  have hrem : ¬ n > s.remaining := by omega
  cases inList with
  | false =>
    simp only [Bool.false_eq_true, if_false] at h3
    simp [Stream.willRead, Stream.advance, h3, h2, hrem]
  | true =>
    simp only [if_true] at h3
    have hlim : ¬ n > input.length := by omega
    simp [Stream.willRead, Stream.advance, h3, h2, hrem, hlim]

/-- `willRead(n)` fails only with an error other than `EOL`. -/
theorem willRead_err (s : Stream) (n : Nat) (e : Error) (h : s.willRead n = .error e) :
    e = .ErrElemTooLarge ∨ e = .ErrValueTooLarge := by
  unfold Stream.willRead at h
  simp only at h
  split at h
  · split_ifs at h <;> simp at h <;> simp [← h]
  · split_ifs at h
    simp at h
    simp [← h]

theorem readFull_eq {s : Stream} {input : ByteSeq} {inList : Bool}
    (h : s.Pos input inList) (n : Nat) (hn : n ≤ input.length) :
    s.readFull n = .ok (input.take n, s.advance n) := by
  have hlen : ¬ input.length < n := by omega
  simp [Stream.readFull, willRead_eq h n hn, h.r_eq, hlen, Stream.advance]

theorem readFull_ok {s : Stream} {input : ByteSeq} {inList : Bool}
    (h : s.Pos input inList) (n : Nat) (buf : ByteSeq) (s1 : Stream)
    (hr : s.readFull n = .ok (buf, s1)) :
    n ≤ input.length ∧ buf = input.take n ∧ s1 = s.advance n := by
  by_cases hn : n ≤ input.length
  · rw [readFull_eq h n hn] at hr
    simp only [Except.ok.injEq, Prod.mk.injEq] at hr
    exact ⟨hn, hr.1.symm, hr.2.symm⟩
  · exfalso
    unfold Stream.readFull at hr
    cases hw : s.willRead n with
    | error e => rw [hw] at hr; simp at hr
    | ok s' =>
      rw [hw] at hr
      have hr' : s'.r = s.r := by
        unfold Stream.willRead at hw
        simp only at hw
        split at hw
        · split_ifs at hw <;> simp at hw <;> simp [← hw]
        · split_ifs at hw <;> simp at hw <;> simp [← hw]
      simp only at hr
      rw [hr', h.r_eq] at hr
      rw [if_pos (by omega)] at hr
      simp at hr

theorem readFull_err (s : Stream) (n : Nat) (e : Error) (h : s.readFull n = .error e) :
    e ≠ .EOL := by
  unfold Stream.readFull at h
  cases hw : s.willRead n with
  | error e' =>
    rw [hw] at h
    simp only [Except.error.injEq] at h
    rcases willRead_err s n e' hw with h' | h' <;> rw [← h, h'] <;> decide
  | ok s' =>
    rw [hw] at h
    simp only at h
    split_ifs at h
    · simp only [Except.error.injEq] at h
      rw [← h]; decide

theorem readByte_eq {s : Stream} {b : Byte} {rest : ByteSeq} {inList : Bool}
    (h : s.Pos (b :: rest) inList) : s.readByte = .ok (b, s.advance 1) := by
  simp [Stream.readByte, willRead_eq h 1 (by simp), h.r_eq, Stream.advance]

theorem readByte_ok {s : Stream} {input : ByteSeq} {inList : Bool}
    (h : s.Pos input inList) (b : Byte) (s1 : Stream) (hr : s.readByte = .ok (b, s1)) :
    ∃ rest, input = b :: rest ∧ s1 = s.advance 1 := by
  cases input with
  | cons x rest =>
    rw [readByte_eq h] at hr
    simp only [Except.ok.injEq, Prod.mk.injEq] at hr
    exact ⟨rest, by rw [hr.1], hr.2.symm⟩
  | nil =>
    exfalso
    unfold Stream.readByte at hr
    cases hw : s.willRead 1 with
    | error e => rw [hw] at hr; simp at hr
    | ok s' =>
      rw [hw] at hr
      have hr' : s'.r = s.r := by
        unfold Stream.willRead at hw
        simp only at hw
        split at hw
        · split_ifs at hw <;> simp at hw <;> simp [← hw]
        · split_ifs at hw <;> simp at hw <;> simp [← hw]
      simp only at hr
      rw [hr', h.r_eq] at hr
      simp at hr

end rlp

namespace rlp

theorem advance_advance (s : Stream) (m n : Nat) :
    (s.advance m).advance n = s.advance (m + n) := by
  cases hs : s.stack with
  | nil => simp [Stream.advance, hs, List.drop_drop, Nat.sub_sub, Nat.add_comm]
  | cons l rest => simp [Stream.advance, hs, List.drop_drop, Nat.sub_sub, Nat.add_comm]

theorem advance_kind (s : Stream) (n : Nat) : (s.advance n).kind = none := rfl

/-- The minimal big-endian form of a positive `uint64`: between one and eight bytes, no
leading zero byte, and the value read back is the value written. -/
theorem putint_spec (i : Nat) (h0 : 0 < i) (h : i < 2 ^ 64) :
    1 ≤ intsize i ∧ intsize i ≤ 8 ∧ (putint i).length = intsize i ∧
      Stream.beUint (putint i) = i ∧ (putint i).head? ≠ some 0 ∧
      256 ^ (intsize i - 1) ≤ i ∧ i < 256 ^ intsize i := by
  obtain ⟨n, hn, hlo, hhi⟩ := exists_pow_bounds i h0 h
  have hsz := intsize_eq i n hn hlo hhi
  have hlen : (putint i).length = intsize i := bigEndian_length _ _
  have hval : Stream.beUint (putint i) = i := by
    unfold putint
    rw [beUint_bigEndian, hsz, Nat.mod_eq_of_lt hhi]
  refine ⟨by omega, by omega, hlen, hval, ?_, by rw [hsz]; simpa using hlo, by rw [hsz]; exact hhi⟩
  intro hhead
  cases hp : putint i with
  | nil => rw [hp] at hlen; simp at hlen; omega
  | cons x l =>
    rw [hp] at hhead hval hlen
    simp only [List.head?_cons, Option.some.injEq] at hhead
    rw [beUint_cons, hhead] at hval
    have hl := beUint_lt l
    simp only [List.length_cons] at hlen
    have : l.length = n := by omega
    rw [this] at hl
    simp only [Fin.val_zero, Nat.zero_mul, Nat.zero_add] at hval
    omega

/-- A big-endian string of one to eight bytes without a leading zero byte is the minimal
form of its value. -/
theorem putint_beUint (buf : ByteSeq) (h1 : 1 ≤ buf.length) (h8 : buf.length ≤ 8)
    (hhead : buf.head? ≠ some 0) :
    intsize (Stream.beUint buf) = buf.length ∧ putint (Stream.beUint buf) = buf ∧
      Stream.beUint buf < 2 ^ 64 ∧ 256 ^ (buf.length - 1) ≤ Stream.beUint buf := by
  cases buf with
  | nil => simp at h1
  | cons x l =>
    have hx : x ≠ 0 := fun h => hhead (by simp [h])
    have hlo := beUint_ge x l hx
    have hhi := beUint_lt (x :: l)
    simp only [List.length_cons] at h8 hhi ⊢
    have hsz := intsize_eq (Stream.beUint (x :: l)) l.length (by omega) hlo hhi
    refine ⟨hsz, ?_, ?_, by simpa using hlo⟩
    · unfold putint
      rw [hsz]
      exact bigEndian_beUint (x :: l)
    · calc Stream.beUint (x :: l) < 256 ^ (l.length + 1) := hhi
        _ ≤ 256 ^ 8 := Nat.pow_le_pow_right (by decide) (by omega)
        _ = 2 ^ 64 := by norm_num

/-- `readUint(n)` for `n` of at least one with `n` bytes of input left. -/
theorem readUint_eq {s : Stream} {input : ByteSeq} {inList : Bool}
    (h : s.Pos input inList) (n : Nat) (h1 : 1 ≤ n) (hn : n ≤ input.length) :
    s.readUint n =
      if 2 ≤ n ∧ (input.take n).head? = some 0 then .error .ErrCanonSize
      else .ok (Stream.beUint (input.take n), s.advance n) := by
  match n, h1 with
  | 1, _ =>
    cases input with
    | nil => simp at hn
    | cons b rest =>
      simp [Stream.readUint, readByte_eq h, Stream.beUint]
  | n + 2, _ =>
    simp only [Stream.readUint, readFull_eq h (n + 2) hn]
    simp

theorem readUint_ok {s : Stream} {input : ByteSeq} {inList : Bool}
    (h : s.Pos input inList) (n : Nat) (h1 : 1 ≤ n) (v : Nat) (s1 : Stream)
    (hr : s.readUint n = .ok (v, s1)) :
    n ≤ input.length ∧ v = Stream.beUint (input.take n) ∧ s1 = s.advance n ∧
      (2 ≤ n → (input.take n).head? ≠ some 0) := by
  have hn : n ≤ input.length := by
    match n, h1 with
    | 1, _ =>
      simp only [Stream.readUint] at hr
      cases hb : s.readByte with
      | error e => rw [hb] at hr; simp at hr
      | ok bs =>
        obtain ⟨rest, hin, _⟩ := readByte_ok h bs.1 bs.2 hb
        rw [hin]; simp
    | n + 2, _ =>
      simp only [Stream.readUint] at hr
      cases hb : s.readFull (n + 2) with
      | error e => rw [hb] at hr; simp at hr
      | ok bs => exact (readFull_ok h (n + 2) bs.1 bs.2 hb).1
  rw [readUint_eq h n h1 hn] at hr
  split_ifs at hr with hc
  simp only [Except.ok.injEq, Prod.mk.injEq] at hr
  exact ⟨hn, hr.1.symm, hr.2.symm, fun h2 hh => hc ⟨h2, hh⟩⟩

end rlp

namespace rlp

theorem puthead_small (a b size : Nat) (h : size < 56) :
    puthead a b size = [byte (a + size)] := by
  simp [puthead, h]

theorem puthead_large (a b size : Nat) (h : ¬ size < 56) :
    puthead a b size = byte (b + intsize size) :: putint size := by
  simp [puthead, h]

theorem byte_add_sub (b : Byte) (t : Nat) (h : t ≤ b.val) : byte (t + (b.val - t)) = b := by
  apply Fin.ext
  rw [byte_val]
  have := b.isLt
  omega

theorem itemHeader_length_pos (k : Kind) (size : Nat) (bv : Byte) :
    1 ≤ (itemHeader k size bv).length := by
  cases k with
  | Byte => simp [itemHeader]
  | String =>
    by_cases h : size < 56
    · simp [itemHeader, puthead_small _ _ _ h]
    · simp [itemHeader, puthead_large _ _ _ h]
  | List =>
    by_cases h : size < 56
    · simp [itemHeader, puthead_small _ _ _ h]
    · simp [itemHeader, puthead_large _ _ _ h]

/-- A long-form size that `readUint` accepts and that does not fit the short form was
written by `putint`. -/
theorem readUint_long_ok {s : Stream} {input : ByteSeq} {inList : Bool}
    (h : s.Pos input inList) (n : Nat) (h1 : 1 ≤ n) (h8 : n ≤ 8) (sz : Nat) (s1 : Stream)
    (hu : s.readUint n = .ok (sz, s1)) (h56 : ¬ sz < 56) :
    input = putint sz ++ input.drop n ∧ intsize sz = n ∧ (putint sz).length = n ∧
      s1 = s.advance n ∧ sz < 2 ^ 64 := by
  obtain ⟨hn, hsz, hs1, hhead⟩ := readUint_ok h n h1 sz s1 hu
  have hlen : (input.take n).length = n := by
    rw [List.length_take]; omega
  have hhead' : (input.take n).head? ≠ some 0 := by
    by_cases h2 : 2 ≤ n
    · exact hhead h2
    · have hn1 : n = 1 := by omega
      intro hh
      cases htk : input.take n with
      | nil => rw [htk] at hlen; simp at hlen; omega
      | cons x l =>
        rw [htk] at hh hlen
        simp only [List.head?_cons, Option.some.injEq] at hh
        have hl : l = [] := by
          simp only [List.length_cons] at hlen
          exact List.eq_nil_of_length_eq_zero (by omega)
        rw [htk, hl, hh] at hsz
        simp [Stream.beUint] at hsz
        omega
  obtain ⟨p1, p2, p3, _⟩ := putint_beUint (input.take n) (by omega) (by omega) hhead'
  rw [← hsz] at p1 p2 p3
  refine ⟨?_, by rw [p1, hlen], by rw [p2, hlen], hs1, p3⟩
  rw [p2, List.take_append_drop]

/-- What `readKind` has read when it succeeds: the header of an item of the kind and size
it returns, in canonical form. -/
theorem readKind_ok {s : Stream} {input : ByteSeq} {inList : Bool}
    (h : s.Pos input inList) (k : Kind) (size : Nat) (bv : Byte) (s1 : Stream)
    (hr : s.readKind = .ok (k, size, bv, s1)) :
    ∃ rest, input = itemHeader k size bv ++ rest ∧
      s1 = s.advance (itemHeader k size bv).length ∧
      (k = .Byte → bv.val < 0x80 ∧ size = 0) ∧ size < 2 ^ 64 := by
  unfold Stream.readKind at hr
  cases hb : s.readByte with
  | error e =>
    rw [hb] at hr
    simp only at hr
    split_ifs at hr
  | ok bs =>
    obtain ⟨b, s'⟩ := bs
    rw [hb] at hr
    simp only at hr
    obtain ⟨rest0, hin, hs'⟩ := readByte_ok h b s' hb
    have hpos' : s'.Pos rest0 inList := by
      have := (h.advance 1 (by rw [hin]; simp)).pos
      rw [hin] at this
      rw [hs']
      simpa using this
    have hb256 := b.isLt
    split_ifs at hr with c1 c2 c3 c4
    · simp only [Except.ok.injEq, Prod.mk.injEq] at hr
      obtain ⟨rfl, rfl, rfl, rfl⟩ := hr
      exact ⟨rest0, by simp [itemHeader, hin], by simp [itemHeader, hs'],
        fun _ => ⟨c1, rfl⟩, by norm_num⟩
    · simp only [Except.ok.injEq, Prod.mk.injEq] at hr
      obtain ⟨rfl, rfl, rfl, rfl⟩ := hr
      have hsm : b.val - 0x80 < 56 := by omega
      have hhd : itemHeader .String (b.val - 0x80) 0 = [b] := by
        simp only [itemHeader]
        rw [puthead_small _ _ _ hsm, byte_add_sub b 0x80 (by omega)]
      exact ⟨rest0, by rw [hhd, hin]; rfl, by rw [hhd, hs']; rfl,
        (fun hk => by cases hk), Nat.lt_trans hsm (by norm_num)⟩
    · cases hu : s'.readUint (b.val - 0xB7) with
      | error e => rw [hu] at hr; simp at hr
      | ok us =>
        obtain ⟨sz, s''⟩ := us
        rw [hu] at hr
        simp only at hr
        split_ifs at hr with c56
        simp only [Except.ok.injEq, Prod.mk.injEq] at hr
        obtain ⟨rfl, rfl, rfl, rfl⟩ := hr
        obtain ⟨q1, q2, q3, q4, q5⟩ :=
          readUint_long_ok hpos' (b.val - 0xB7) (by omega) (by omega) sz s'' hu c56
        have hhd : itemHeader .String sz 0 = b :: putint sz := by
          simp only [itemHeader]
          rw [puthead_large _ _ _ c56, q2, byte_add_sub b 0xB7 (by omega)]
        refine ⟨rest0.drop (b.val - 0xB7), ?_, ?_, (fun hk => by cases hk), q5⟩
        · rw [hhd, hin, List.cons_append, ← q1]
        · rw [hhd, q4, hs', advance_advance, List.length_cons, q3, Nat.add_comm]
    · simp only [Except.ok.injEq, Prod.mk.injEq] at hr
      obtain ⟨rfl, rfl, rfl, rfl⟩ := hr
      have hsm : b.val - 0xC0 < 56 := by omega
      have hhd : itemHeader .List (b.val - 0xC0) 0 = [b] := by
        simp only [itemHeader]
        rw [puthead_small _ _ _ hsm, byte_add_sub b 0xC0 (by omega)]
      exact ⟨rest0, by rw [hhd, hin]; rfl, by rw [hhd, hs']; rfl,
        (fun hk => by cases hk), Nat.lt_trans hsm (by norm_num)⟩
    · cases hu : s'.readUint (b.val - 0xF7) with
      | error e => rw [hu] at hr; simp at hr
      | ok us =>
        obtain ⟨sz, s''⟩ := us
        rw [hu] at hr
        simp only at hr
        split_ifs at hr with c56
        simp only [Except.ok.injEq, Prod.mk.injEq] at hr
        obtain ⟨rfl, rfl, rfl, rfl⟩ := hr
        obtain ⟨q1, q2, q3, q4, q5⟩ :=
          readUint_long_ok hpos' (b.val - 0xF7) (by omega) (by omega) sz s'' hu c56
        have hhd : itemHeader .List sz 0 = b :: putint sz := by
          simp only [itemHeader]
          rw [puthead_large _ _ _ c56, q2, byte_add_sub b 0xF7 (by omega)]
        refine ⟨rest0.drop (b.val - 0xF7), ?_, ?_, (fun hk => by cases hk), q5⟩
        · rw [hhd, hin, List.cons_append, ← q1]
        · rw [hhd, q4, hs', advance_advance, List.length_cons, q3, Nat.add_comm]

end rlp

namespace rlp

/-- `readKind` on the canonical header of an item returns its kind and size. -/
theorem readKind_eq {s : Stream} {rest : ByteSeq} {inList : Bool} (k : Kind) (size : Nat)
    (bv : Byte) (h : s.Pos (itemHeader k size bv ++ rest) inList)
    (hk : k = .Byte → bv.val < 0x80 ∧ size = 0) (hsz : size < 2 ^ 64) :
    s.readKind = .ok (k, size, if k = .Byte then bv else 0,
      s.advance (itemHeader k size bv).length) := by
  have long : ∀ (s' : Stream), ¬ size < 56 →
      s'.Pos (putint size ++ rest) inList →
      s'.readUint (intsize size) = .ok (size, s'.advance (intsize size)) := by
    intro s' h56 hpos
    obtain ⟨p1, p2, p3, p4, p5, _, _⟩ := putint_spec size (by omega) hsz
    rw [readUint_eq hpos (intsize size) p1 (by rw [List.length_append]; omega)]
    have htake : (putint size ++ rest).take (intsize size) = putint size := by
      rw [← p3]; exact List.take_left' rfl
    rw [htake, p4, if_neg (fun hc => p5 hc.2)]
  cases k with
  | Byte =>
    obtain ⟨hbv, hs0⟩ := hk rfl
    subst hs0
    simp only [itemHeader, List.singleton_append] at h ⊢
    simp [Stream.readKind, readByte_eq h, hbv]
  | String =>
    by_cases h56 : size < 56
    · simp only [itemHeader, puthead_small _ _ _ h56, List.singleton_append] at h ⊢
      have hv : (byte (0x80 + size)).val = 0x80 + size := byte_val_of_lt _ (by omega)
      simp only [Stream.readKind, readByte_eq h, hv]
      rw [if_neg (by omega), if_pos (by omega)]
      simp
    · obtain ⟨p1, p2, p3, _⟩ := putint_spec size (by omega) hsz
      simp only [itemHeader, puthead_large _ _ _ h56, List.cons_append] at h ⊢
      have hv : (byte (0xB7 + intsize size)).val = 0xB7 + intsize size :=
        byte_val_of_lt _ (by omega)
      have hpos' : (s.advance 1).Pos (putint size ++ rest) inList := by
        simpa using (h.advance 1 (by simp)).pos
      simp only [Stream.readKind, readByte_eq h, hv]
      rw [if_neg (by omega), if_neg (by omega), if_pos (by omega)]
      simp only [Nat.add_sub_cancel_left]
      rw [long _ h56 hpos']
      simp only [if_neg h56, advance_advance, List.length_cons, p3]
      simp [Nat.add_comm]
  | List =>
    by_cases h56 : size < 56
    · simp only [itemHeader, puthead_small _ _ _ h56, List.singleton_append] at h ⊢
      have hv : (byte (0xC0 + size)).val = 0xC0 + size := byte_val_of_lt _ (by omega)
      simp only [Stream.readKind, readByte_eq h, hv]
      rw [if_neg (by omega), if_neg (by omega), if_neg (by omega), if_pos (by omega)]
      simp
    · obtain ⟨p1, p2, p3, _⟩ := putint_spec size (by omega) hsz
      simp only [itemHeader, puthead_large _ _ _ h56, List.cons_append] at h ⊢
      have hv : (byte (0xF7 + intsize size)).val = 0xF7 + intsize size :=
        byte_val_of_lt _ (by omega)
      have hpos' : (s.advance 1).Pos (putint size ++ rest) inList := by
        simpa using (h.advance 1 (by simp)).pos
      simp only [Stream.readKind, readByte_eq h, hv]
      rw [if_neg (by omega), if_neg (by omega), if_neg (by omega), if_neg (by omega)]
      simp only [Nat.add_sub_cancel_left]
      rw [long _ h56 hpos']
      simp only [if_neg h56, advance_advance, List.length_cons, p3]
      simp [Nat.add_comm]

/-- At the end of the enclosing list `Kind` returns `EOL`. -/
theorem Kind_EOL {s : Stream} (h : s.At [] true) : s.Kind = .error .EOL := by
  have hst : s.stack = [0] := by simpa using h.pos.stack_eq
  simp [Stream.Kind, h.kind_eq, hst]

/-- What `Kind` has read when it succeeds: the canonical header of an item of the kind
and size it returns; the stream is behind the header and has the kind cached. -/
theorem Kind_ok {s : Stream} {input : ByteSeq} {inList : Bool}
    (h : s.At input inList) (k : Kind) (size : Nat) (s1 : Stream)
    (hr : s.Kind = .ok (k, size, s1)) :
    ∃ rest, input = itemHeader k size s1.byteval ++ rest ∧ s1.Pos rest inList ∧
      s1.kind = some k ∧ (k = .Byte → s1.byteval.val < 0x80 ∧ size = 0) ∧ size < 2 ^ 64 := by
  unfold Stream.Kind at hr
  rw [h.kind_eq] at hr
  simp only at hr
  split_ifs at hr with hEOL
  cases hk : s.readKind with
  | error e => rw [hk] at hr; simp at hr
  | ok res =>
    obtain ⟨k', size', bv', s'⟩ := res
    rw [hk] at hr
    simp only at hr
    split_ifs at hr with c1 c2
    simp only [Except.ok.injEq, Prod.mk.injEq] at hr
    obtain ⟨rfl, rfl, rfl⟩ := hr
    obtain ⟨rest, hin, hs', hbyte, hsz⟩ := readKind_ok h.pos k' size' bv' s' hk
    refine ⟨rest, hin, ?_, rfl, hbyte, hsz⟩
    apply Stream.Pos.cache
    have := (h.pos.advance (itemHeader k' size' bv').length
      (by rw [hin]; simp)).pos
    rw [hs']
    rw [hin] at this
    simpa using this

/-- `Kind` on the canonical header of an item whose content fits what is left. -/
theorem Kind_eq {s : Stream} {rest : ByteSeq} {inList : Bool} (k : Kind) (size : Nat)
    (bv : Byte) (h : s.At (itemHeader k size bv ++ rest) inList)
    (hk : k = .Byte → bv.val < 0x80 ∧ size = 0) (hsz : size < 2 ^ 64)
    (hle : size ≤ rest.length) :
    ∃ s1, s.Kind = .ok (k, size, s1) ∧ s1.Pos rest inList ∧ s1.kind = some k ∧
      (k = .Byte → s1.byteval = bv) := by
  have hpos := itemHeader_length_pos k size bv
  have hadv := (h.pos.advance (itemHeader k size bv).length (by simp)).pos
  simp only [List.drop_left] at hadv
  refine ⟨{ s.advance (itemHeader k size bv).length with
      kind := some k, size := size, byteval := if k = .Byte then bv else 0, kinderr := none },
    ?_, Stream.Pos.cache hadv _ _ _ _, rfl, fun hkb => by simp [hkb]⟩
  unfold Stream.Kind
  rw [h.kind_eq]
  simp only
  have hEOL : ¬ s.stack.head? = some 0 := by
    rw [h.pos.stack_eq]
    cases inList with
    | false => simp
    | true =>
      simp only [if_true, List.head?_cons, Option.some.injEq, List.length_append]
      omega
  rw [if_neg hEOL, readKind_eq k size bv h.pos hk hsz]
  simp only
  have c1 : ¬ (s.stack.head?.any fun listLimit => decide (size > listLimit)) = true := by
    rw [h.pos.stack_eq]
    cases inList with
    | false => simp
    | true =>
      simp only [if_true, List.head?_cons, Option.any_some, decide_eq_true_eq,
        List.length_append]
      omega
  have c2 : ¬ ((s.advance (itemHeader k size bv).length).limited &&
      decide (size > (s.advance (itemHeader k size bv).length).remaining)) = true := by
    have := hadv.le_remaining
    simp only [Bool.and_eq_true, decide_eq_true_eq, not_and]
    intro _
    omega
  rw [if_neg c1, if_neg c2]

end rlp

namespace rlp

/-- The two forms of an encoded byte string: a single byte below 0x80 is the item itself,
every other string follows the header of its length. -/
theorem writeBytes_cases (b : ByteSeq) :
    (∃ x : Byte, b = [x] ∧ x.val < 0x80 ∧ writeBytes b = itemHeader .Byte 0 x) ∨
      ((∀ x : Byte, b = [x] → ¬ x.val < 0x80) ∧
        writeBytes b = itemHeader .String b.length 0 ++ b) := by
  match b with
  | [] => right; exact ⟨(fun x h => by cases h), rfl⟩
  | [x] =>
    by_cases hx : x.val ≤ 0x7F
    · left
      refine ⟨x, rfl, by omega, ?_⟩
      simp [writeBytes, hx, itemHeader]
    · right
      refine ⟨fun y h => ?_, by simp [writeBytes, hx, itemHeader]⟩
      simp only [List.cons.injEq, and_true] at h
      subst h
      omega
  | x :: y :: l => right; exact ⟨(fun z h => by simp at h), rfl⟩

/-- What `Bytes` has read when it succeeds: the encoding of the string it returns. -/
theorem Bytes_ok {s : Stream} {input : ByteSeq} {inList : Bool}
    (h : s.At input inList) (b : ByteSeq) (s' : Stream) (hr : s.Bytes = .ok (b, s')) :
    ∃ rest, input = writeBytes b ++ rest ∧ s'.At rest inList := by
  unfold Stream.Bytes at hr
  cases hk : s.Kind with
  | error e => rw [hk] at hr; simp at hr
  | ok res =>
    obtain ⟨k, size, s1⟩ := res
    rw [hk] at hr
    obtain ⟨rest0, hin, hpos1, _, hbyte, _⟩ := Kind_ok h k size s1 hk
    cases k with
    | Byte =>
      simp only [Except.ok.injEq, Prod.mk.injEq] at hr
      obtain ⟨rfl, rfl⟩ := hr
      obtain ⟨hlt, _⟩ := hbyte rfl
      refine ⟨rest0, ?_, hpos1.rearm⟩
      rw [hin]
      have : (s1.byteval).val ≤ 0x7F := by omega
      simp [writeBytes, this, itemHeader]
    | String =>
      simp only at hr
      cases hf : s1.readFull size with
      | error e => rw [hf] at hr; simp at hr
      | ok fs =>
        obtain ⟨buf, s2⟩ := fs
        rw [hf] at hr
        simp only at hr
        split_ifs at hr with hc
        simp only [Except.ok.injEq, Prod.mk.injEq] at hr
        obtain ⟨rfl, rfl⟩ := hr
        obtain ⟨hn, hbuf, hs2⟩ := readFull_ok hpos1 size buf s2 hf
        have hlen : buf.length = size := by rw [hbuf, List.length_take]; omega
        refine ⟨rest0.drop size, ?_, by rw [hs2]; exact hpos1.advance size hn⟩
        rcases writeBytes_cases buf with ⟨x, hx, hxlt, _⟩ | ⟨_, hw⟩
        · exfalso
          apply hc
          rw [hx] at hlen ⊢
          exact ⟨by simpa using hlen.symm, by simpa using hxlt⟩
        · rw [hw, hlen, hin, List.append_assoc, hbuf, List.take_append_drop]
          rfl
    | List => simp at hr

/-- `Bytes` on the encoding of a string returns the string. -/
theorem Bytes_eq {s : Stream} {rest : ByteSeq} {inList : Bool} (b : ByteSeq)
    (h : s.At (writeBytes b ++ rest) inList) (hb : b.length < 2 ^ 64) :
    ∃ s', s.Bytes = .ok (b, s') ∧ s'.At rest inList := by
  rcases writeBytes_cases b with ⟨x, hx, hxlt, hw⟩ | ⟨hne, hw⟩
  · rw [hw] at h
    obtain ⟨s1, hk, hpos1, _, hbv⟩ :=
      Kind_eq .Byte 0 x h (fun _ => ⟨hxlt, rfl⟩) (by norm_num) (Nat.zero_le _)
    refine ⟨{ s1 with kind := none }, ?_, hpos1.rearm⟩
    simp [Stream.Bytes, hk, hbv rfl, hx]
  · rw [hw, List.append_assoc] at h
    obtain ⟨s1, hk, hpos1, _, _⟩ :=
      Kind_eq .String b.length 0 h (fun hk => by cases hk) hb (by simp)
    refine ⟨s1.advance b.length, ?_, ?_⟩
    · simp only [Stream.Bytes, hk, readFull_eq hpos1 b.length (by simp), List.take_left']
      have hc : ¬ (b.length = 1 ∧ (b.headD 0).val < 128) := by
        rintro ⟨h1, h2⟩
        match b, h1 with
        | [x], _ => exact hne x rfl (by simpa using h2)
      rw [if_neg hc]
    · have := hpos1.advance b.length (by simp)
      simpa using this

/-- The three forms of an encoded `uint64`. -/
theorem writeUint64_cases (v : Nat) (hv : v < 2 ^ 64) :
    (v = 0 ∧ writeUint64 v = itemHeader .String 0 0) ∨
      (0 < v ∧ v < 128 ∧ writeUint64 v = itemHeader .Byte 0 (byte v)) ∨
      (128 ≤ v ∧ writeUint64 v = itemHeader .String (intsize v) 0 ++ putint v) := by
  by_cases h0 : v = 0
  · left; subst h0; exact ⟨rfl, rfl⟩
  · by_cases h1 : v < 128
    · right; left
      exact ⟨by omega, h1, by simp [writeUint64, h0, h1, itemHeader]⟩
    · right; right
      obtain ⟨_, p2, _⟩ := putint_spec v (by omega) hv
      refine ⟨by omega, ?_⟩
      simp [writeUint64, h0, h1, itemHeader, puthead_small _ _ _ (show intsize v < 56 by omega)]

end rlp

namespace rlp

/-- What `uint` has read when it succeeds: the encoding of the `uint64` it returns. -/
theorem uint_ok {s : Stream} {input : ByteSeq} {inList : Bool}
    (h : s.At input inList) (v : Nat) (s' : Stream) (hr : s.uint = .ok (v, s')) :
    ∃ rest, input = writeUint64 v ++ rest ∧ s'.At rest inList ∧ v < 2 ^ 64 := by
  unfold Stream.uint at hr
  cases hk : s.Kind with
  | error e => rw [hk] at hr; simp at hr
  | ok res =>
    obtain ⟨k, size, s1⟩ := res
    rw [hk] at hr
    obtain ⟨rest0, hin, hpos1, _, hbyte, _⟩ := Kind_ok h k size s1 hk
    cases k with
    | Byte =>
      simp only at hr
      split_ifs at hr with hz
      simp only [Except.ok.injEq, Prod.mk.injEq] at hr
      obtain ⟨rfl, rfl⟩ := hr
      obtain ⟨hlt, _⟩ := hbyte rfl
      have hpos : 0 < s1.byteval.val := by
        rcases Nat.eq_zero_or_pos s1.byteval.val with h0 | h0
        · exact absurd (Fin.ext h0) hz
        · exact h0
      refine ⟨rest0, ?_, hpos1.rearm, by omega⟩
      rw [hin]
      have h0 : ¬ s1.byteval.val = 0 := by omega
      simp [writeUint64, h0, hlt, itemHeader, byte_eq_of_val]
    | String =>
      simp only at hr
      split_ifs at hr with h8
      by_cases hs0 : size = 0
      · subst hs0
        simp only [Stream.readUint] at hr
        simp only [Nat.lt_irrefl, false_and, if_false, Except.ok.injEq, Prod.mk.injEq] at hr
        obtain ⟨rfl, rfl⟩ := hr
        exact ⟨rest0, by rw [hin]; rfl, hpos1.rearm, by norm_num⟩
      · cases hu : s1.readUint size with
        | error e => rw [hu] at hr; simp only at hr; split_ifs at hr
        | ok us =>
          obtain ⟨v', s2⟩ := us
          rw [hu] at hr
          simp only at hr
          split_ifs at hr with hc
          simp only [Except.ok.injEq, Prod.mk.injEq] at hr
          obtain ⟨rfl, rfl⟩ := hr
          have h128 : ¬ v' < 128 := fun hlt => hc ⟨by omega, hlt⟩
          obtain ⟨q1, q2, q3, q4, q5⟩ :=
            readUint_long_ok hpos1 size (by omega) (by omega) v' s2 hu (by omega)
          refine ⟨rest0.drop size, ?_, by rw [q4]; exact hpos1.advance size (by
            have := congrArg List.length q1
            simp only [List.length_append, List.length_drop] at this
            omega), q5⟩
          have h0 : ¬ v' = 0 := by omega
          have hw : writeUint64 v' = itemHeader .String size 0 ++ putint v' := by
            simp [writeUint64, h0, h128, itemHeader, q2,
              puthead_small _ _ _ (show size < 56 by omega)]
          rw [hw, hin, List.append_assoc, ← q1]
          rfl
    | List => simp at hr

/-- `uint` on the encoding of a `uint64` returns it. -/
theorem uint_eq {s : Stream} {rest : ByteSeq} {inList : Bool} (v : Nat)
    (h : s.At (writeUint64 v ++ rest) inList) (hv : v < 2 ^ 64) :
    ∃ s', s.uint = .ok (v, s') ∧ s'.At rest inList := by
  rcases writeUint64_cases v hv with ⟨h0, hw⟩ | ⟨h0, h128, hw⟩ | ⟨h128, hw⟩
  · rw [hw] at h
    obtain ⟨s1, hk, hpos1, _, _⟩ :=
      Kind_eq .String 0 0 h (fun hk => by cases hk) (by norm_num) (Nat.zero_le _)
    refine ⟨{ s1 with kind := none }, ?_, hpos1.rearm⟩
    simp [Stream.uint, hk, Stream.readUint, h0]
  · rw [hw] at h
    have hbv : (byte v).val = v := byte_val_of_lt v (by omega)
    obtain ⟨s1, hk, hpos1, _, hb⟩ :=
      Kind_eq .Byte 0 (byte v) h (fun _ => ⟨by omega, rfl⟩) (by norm_num) (Nat.zero_le _)
    refine ⟨{ s1 with kind := none }, ?_, hpos1.rearm⟩
    have hne : ¬ byte v = 0 := by
      intro hc
      have := congrArg Fin.val hc
      rw [hbv] at this
      simp at this
      omega
    simp [Stream.uint, hk, hb rfl, hne, hbv]
  · obtain ⟨p1, p2, p3, p4, p5, _, _⟩ := putint_spec v (by omega) hv
    rw [hw, List.append_assoc] at h
    obtain ⟨s1, hk, hpos1, _, _⟩ :=
      Kind_eq .String (intsize v) 0 h (fun hk => by cases hk) (by omega)
        (by rw [List.length_append]; omega)
    refine ⟨s1.advance (intsize v), ?_, ?_⟩
    · have htake : (putint v ++ rest).take (intsize v) = putint v := by
        rw [← p3]; exact List.take_left' rfl
      simp only [Stream.uint, hk]
      rw [if_neg (by omega), readUint_eq hpos1 (intsize v) p1 (by rw [List.length_append]; omega),
        htake, p4, if_neg (fun hc => p5 hc.2)]
      simp only
      rw [if_neg (by omega)]
    · have := hpos1.advance (intsize v) (by rw [List.length_append]; omega)
      rw [List.drop_left' p3] at this
      exact this

/-- `ListEnd` succeeds at the end of the list. -/
theorem ListEnd_eq {s : Stream} (h : s.At [] true) :
    s.ListEnd = .ok { s with stack := [], kind := none, size := 0 } := by
  have hst : s.stack = [0] := by simpa using h.pos.stack_eq
  simp [Stream.ListEnd, hst]

/-- `ListEnd` succeeds only at the end of the list. -/
theorem ListEnd_ok {s : Stream} {input : ByteSeq} (h : s.At input true) (s' : Stream)
    (hr : s.ListEnd = .ok s') : input = [] := by
  have hst : s.stack = [input.length] := by simpa using h.pos.stack_eq
  simp only [Stream.ListEnd, hst] at hr
  split_ifs at hr with hc
  exact List.eq_nil_of_length_eq_zero (by omega)

end rlp

namespace rlp

/-- What `Raw` has read when it succeeds: the item it returns. -/
theorem Raw_ok {s : Stream} {input : ByteSeq} {inList : Bool}
    (h : s.At input inList) (v : ByteSeq) (s' : Stream) (hr : s.Raw = .ok (v, s')) :
    ∃ rest, input = v ++ rest ∧ s'.At rest inList := by
  unfold Stream.Raw at hr
  cases hk : s.Kind with
  | error e => rw [hk] at hr; simp at hr
  | ok res =>
    obtain ⟨k, size, s1⟩ := res
    rw [hk] at hr
    obtain ⟨rest0, hin, hpos1, _, _, _⟩ := Kind_ok h k size s1 hk
    simp only at hr
    by_cases hkb : k = .Byte
    · rw [if_pos hkb] at hr
      simp only [Except.ok.injEq, Prod.mk.injEq] at hr
      obtain ⟨rfl, rfl⟩ := hr
      subst hkb
      exact ⟨rest0, by rw [hin]; rfl, hpos1.rearm⟩
    · rw [if_neg hkb] at hr
      cases hf : s1.readFull size with
      | error e => rw [hf] at hr; simp at hr
      | ok fs =>
        obtain ⟨buf, s2⟩ := fs
        rw [hf] at hr
        obtain ⟨hn, hbuf, hs2⟩ := readFull_ok hpos1 size buf s2 hf
        have hat : s2.At (rest0.drop size) inList := by
          rw [hs2]; exact hpos1.advance size hn
        cases k with
        | Byte => exact absurd rfl hkb
        | String =>
          simp only [if_true, Except.ok.injEq, Prod.mk.injEq] at hr
          obtain ⟨rfl, rfl⟩ := hr
          refine ⟨rest0.drop size, ?_, hat⟩
          rw [hin, List.append_assoc, hbuf, List.take_append_drop]
          rfl
        | List =>
          simp only [reduceCtorEq, if_false, Except.ok.injEq, Prod.mk.injEq] at hr
          obtain ⟨rfl, rfl⟩ := hr
          refine ⟨rest0.drop size, ?_, hat⟩
          rw [hin, List.append_assoc, hbuf, List.take_append_drop]
          rfl

/-- `Raw` on an item returns the item. -/
theorem Raw_eq {s : Stream} {rest : ByteSeq} {inList : Bool} (v : ByteSeq)
    (h : s.At (v ++ rest) inList) (hv : IsItem v) :
    ∃ s', s.Raw = .ok (v, s') ∧ s'.At rest inList := by
  obtain ⟨k, size, bv, content, rfl, hlen, hsz, hbyte⟩ := hv
  rw [List.append_assoc] at h
  obtain ⟨s1, hk, hpos1, _, hbv⟩ :=
    Kind_eq k size bv h hbyte hsz (by rw [List.length_append]; omega)
  cases k with
  | Byte =>
    obtain ⟨_, hs0⟩ := hbyte rfl
    have hc : content = [] := List.eq_nil_of_length_eq_zero (by omega)
    subst hc
    refine ⟨{ s1 with kind := none }, ?_, by simpa using hpos1.rearm⟩
    simp [Stream.Raw, hk, hbv rfl, itemHeader]
  | String =>
    refine ⟨s1.advance size, ?_, ?_⟩
    · simp only [Stream.Raw, hk, reduceCtorEq, if_false,
        readFull_eq hpos1 size (by rw [List.length_append]; omega), if_true]
      rw [List.take_left' hlen]
      rfl
    · have := hpos1.advance size (by rw [List.length_append]; omega)
      rw [List.drop_left' hlen] at this
      exact this
  | List =>
    refine ⟨s1.advance size, ?_, ?_⟩
    · simp only [Stream.Raw, hk, reduceCtorEq, if_false,
        readFull_eq hpos1 size (by rw [List.length_append]; omega)]
      rw [List.take_left' hlen]
      rfl
    · have := hpos1.advance size (by rw [List.length_append]; omega)
      rw [List.drop_left' hlen] at this
      exact this

theorem readFull_length (s : Stream) (n : Nat) (buf : ByteSeq) (s' : Stream)
    (h : s.readFull n = .ok (buf, s')) : buf.length = n := by
  unfold Stream.readFull at h
  cases hw : s.willRead n with
  | error e => rw [hw] at h; simp at h
  | ok s1 =>
    rw [hw] at h
    simp only at h
    split_ifs at h with hc
    simp only [Except.ok.injEq, Prod.mk.injEq] at h
    rw [← h.1, List.length_take]
    omega

/-- Whatever the state of the stream, what `Raw` returns is a header followed by a
content of the size in the header. -/
theorem Raw_shape (s : Stream) (raw : ByteSeq) (s' : Stream) (h : s.Raw = .ok (raw, s')) :
    ∃ (k : Kind) (size : Nat) (bv : Byte) (content : ByteSeq),
      raw = itemHeader k size bv ++ content ∧ content.length = size ∧
        (k = .Byte → size = 0) := by
  unfold Stream.Raw at h
  cases hk : s.Kind with
  | error e => rw [hk] at h; simp at h
  | ok res =>
    obtain ⟨k, size, s1⟩ := res
    rw [hk] at h
    simp only at h
    by_cases hkb : k = .Byte
    · rw [if_pos hkb] at h
      simp only [Except.ok.injEq, Prod.mk.injEq] at h
      exact ⟨.Byte, 0, s1.byteval, [], by rw [← h.1]; rfl, rfl, fun _ => rfl⟩
    · rw [if_neg hkb] at h
      cases hf : s1.readFull size with
      | error e => rw [hf] at h; simp at h
      | ok fs =>
        obtain ⟨buf, s2⟩ := fs
        rw [hf] at h
        have hlen := readFull_length s1 size buf s2 hf
        simp only at h
        split_ifs at h with hs
        · simp only [Except.ok.injEq, Prod.mk.injEq] at h
          exact ⟨.String, size, 0, buf, by rw [← h.1]; rfl, hlen, (fun hk => by cases hk)⟩
        · simp only [Except.ok.injEq, Prod.mk.injEq] at h
          exact ⟨.List, size, 0, buf, by rw [← h.1]; rfl, hlen, (fun hk => by cases hk)⟩

/-- `List` on a stream at top level that holds exactly one list enters the list. -/
theorem List_eq {s : Stream} (size : Nat) (bv : Byte) (content : ByteSeq)
    (h : s.At (itemHeader .List size bv ++ content) false) (hlen : content.length = size)
    (hsz : size < 2 ^ 64) :
    ∃ s', s.List = .ok (size, s') ∧ s'.At content true := by
  obtain ⟨s1, hk, hpos1, _, _⟩ :=
    Kind_eq .List size bv h (fun hk => by cases hk) hsz (by omega)
  have hst : s1.stack = [] := by simpa using hpos1.stack_eq
  refine ⟨{ s1 with stack := [size], kind := none, size := 0 }, ?_, ?_⟩
  · simp [Stream.List, hk, hst]
  · exact ⟨⟨hpos1.r_eq, hpos1.limited_eq, by simp [hlen], hpos1.le_remaining⟩, rfl⟩

/-- `List` fails on an item that is a single byte or a string. -/
theorem List_not_list {s : Stream} (k : Kind) (size : Nat) (bv : Byte) (rest : ByteSeq)
    (h : s.At (itemHeader k size bv ++ rest) false) (hk : k ≠ .List)
    (hbyte : k = .Byte → bv.val < 0x80 ∧ size = 0) (hsz : size < 2 ^ 64)
    (hle : size ≤ rest.length) (n : Nat) (s' : Stream) : s.List ≠ .ok (n, s') := by
  obtain ⟨s1, hk1, _, _, _⟩ := Kind_eq k size bv h hbyte hsz hle
  simp [Stream.List, hk1, hk]

/-- The content size that `Kind` returns fits the input limit. -/
theorem Kind_ok_fits {s : Stream} {input : ByteSeq} {inList : Bool}
    (h : s.At input inList) (k : Kind) (size : Nat) (s1 : Stream)
    (hr : s.Kind = .ok (k, size, s1)) :
    size ≤ s.remaining - (itemHeader k size s1.byteval).length := by
  unfold Stream.Kind at hr
  rw [h.kind_eq] at hr
  simp only at hr
  split_ifs at hr with hEOL
  cases hk : s.readKind with
  | error e => rw [hk] at hr; simp at hr
  | ok res =>
    obtain ⟨k', size', bv', s'⟩ := res
    rw [hk] at hr
    simp only at hr
    split_ifs at hr with c1 c2
    simp only [Except.ok.injEq, Prod.mk.injEq] at hr
    obtain ⟨rfl, rfl, rfl⟩ := hr
    obtain ⟨rest, hin, hs', _, _⟩ := readKind_ok h.pos k' size' bv' s' hk
    rw [hs'] at c2
    simp only [Stream.advance, h.pos.limited_eq, Bool.true_and, decide_eq_true_eq] at c2
    simpa using c2

/-- On a reader that holds a single byte, `List` succeeds only for the empty list. -/
theorem List_single (bv : Byte) (n : Nat) (s' : Stream)
    (hr : (NewStream [bv] 0).List = .ok (n, s')) : s'.At [] true := by
  have hat : (NewStream [bv] 0).At [bv] false :=
    ⟨⟨rfl, rfl, rfl, by simp [NewStream]⟩, rfl⟩
  unfold Stream.List at hr
  cases hk : (NewStream [bv] 0).Kind with
  | error e => rw [hk] at hr; simp at hr
  | ok res =>
    obtain ⟨k, size, s1⟩ := res
    rw [hk] at hr
    obtain ⟨rest, hin, hpos1, _, _, _⟩ := Kind_ok hat k size s1 hk
    have hfit := Kind_ok_fits hat k size s1 hk
    have hpos := itemHeader_length_pos k size s1.byteval
    have hlen := congrArg List.length hin
    simp only [List.length_singleton, List.length_append] at hlen
    have hrest : rest = [] := List.eq_nil_of_length_eq_zero (by omega)
    have hsize : size = 0 := by
      simp only [NewStream, List.length_singleton, Nat.lt_irrefl, if_false] at hfit
      omega
    subst hrest hsize
    have hst : s1.stack = [] := by simpa using hpos1.stack_eq
    simp only at hr
    split_ifs at hr with hkl
    rw [hst] at hr
    simp only [Except.ok.injEq, Prod.mk.injEq] at hr
    rw [← hr.2]
    exact ⟨⟨hpos1.r_eq, hpos1.limited_eq, rfl, hpos1.le_remaining⟩, rfl⟩

end rlp

namespace rlp

theorem wrapStreamError_EOL (e : Error) (typ : String) (h : wrapStreamError e typ = .EOL) :
    e = .EOL := by
  cases e <;> simp [wrapStreamError] at h ⊢

theorem decodeString_ok (s : Stream) (k : GoString) (s' : Stream)
    (h : decodeString s = .ok (k, s')) : s.Bytes = .ok (k, s') := by
  unfold decodeString at h
  cases hb : s.Bytes with
  | error e => rw [hb] at h; simp at h
  | ok r => rw [hb] at h; simpa using h

theorem decodeByteSlice_ok (s : Stream) (b : ByteSeq) (s' : Stream)
    (h : decodeByteSlice s = .ok (b, s')) : s.Bytes = .ok (b, s') := by
  unfold decodeByteSlice at h
  cases hb : s.Bytes with
  | error e => rw [hb] at h; simp at h
  | ok r => rw [hb] at h; simpa using h

theorem decodeUint_ok (s : Stream) (v : Nat) (s' : Stream)
    (h : decodeUint s = .ok (v, s')) : s.uint = .ok (v, s') := by
  unfold decodeUint at h
  cases hb : s.uint with
  | error e => rw [hb] at h; simp at h
  | ok r => rw [hb] at h; simpa using h

/-- At the end of the list, decoding a string or a byte slice returns `EOL`. -/
theorem Bytes_EOL {s : Stream} (h : s.At [] true) : s.Bytes = .error .EOL := by
  simp [Stream.Bytes, Kind_EOL h]

theorem decodeString_EOL {s : Stream} (h : s.At [] true) : decodeString s = .error .EOL := by
  simp [decodeString, Bytes_EOL h, wrapStreamError]

theorem decodeByteSlice_EOL {s : Stream} (h : s.At [] true) :
    decodeByteSlice s = .error .EOL := by
  simp [decodeByteSlice, Bytes_EOL h, wrapStreamError]

theorem uint_EOL {s : Stream} (h : s.At [] true) : decodeUint s = .error .EOL := by
  simp [decodeUint, Stream.uint, Kind_EOL h, wrapStreamError]

theorem Raw_EOL {s : Stream} (h : s.At [] true) : decodeRawValue s = .error .EOL := by
  simp [decodeRawValue, Stream.Raw, Kind_EOL h]

end rlp

namespace enr

/-- The content that the pairs contribute to the encoding: each key as a string, each
value as it is. -/
theorem canonicalEncoding_eq (sig : Option ByteSeq) (seq : Nat) (pairs : List pair) :
    canonicalEncoding sig seq pairs
      = rlp.itemHeader .List
          (rlp.writeBytes (sig.getD []) ++ rlp.writeUint64 seq
            ++ pairs.flatMap fun p => rlp.writeBytes p.k ++ p.v).length 0
        ++ (rlp.writeBytes (sig.getD []) ++ rlp.writeUint64 seq
            ++ pairs.flatMap fun p => rlp.writeBytes p.k ++ p.v) := rfl

/-- When the loop of `decodeRecord` ends without an error, the pairs it appended are
those whose encodings, one after the other, were the rest of the list. -/
theorem decodePairs_sound (raw : ByteSeq) :
    ∀ (fuel i : Nat) (prevkey : GoString) (dec : Record) (s : rlp.Stream) (input : ByteSeq),
      s.At input true → (decodePairs raw fuel i prevkey dec s).err = none →
      ∃ pairs, (decodePairs raw fuel i prevkey dec s).dec.pairs = dec.pairs ++ pairs ∧
        input = pairs.flatMap fun p => rlp.writeBytes p.k ++ p.v := by
  intro fuel
  induction fuel with
  | zero => intro i prevkey dec s input _ h; simp [decodePairs] at h
  | succ fuel ih =>
    intro i prevkey dec s input hat h
    unfold decodePairs at h ⊢
    cases hk : rlp.decodeString s with
    | error err =>
      rw [hk] at h
      simp only [] at h ⊢
      by_cases hE : err = .EOL
      · rw [if_pos hE] at h ⊢
        cases hl : s.ListEnd with
        | error e => rw [hl] at h; simp at h
        | ok s' =>
          simp only []
          exact ⟨[], by simp, rlp.ListEnd_ok hat s' hl⟩
      · rw [if_neg hE] at h; simp at h
    | ok ks =>
      obtain ⟨k, s1⟩ := ks
      rw [hk] at h
      simp only [] at h ⊢
      obtain ⟨rest1, hin1, hat1⟩ := rlp.Bytes_ok hat k s1 (rlp.decodeString_ok s k s1 hk)
      cases hv : rlp.decodeRawValue s1 with
      | error err =>
        rw [hv] at h
        simp only [] at h
        split_ifs at h
      | ok vs =>
        obtain ⟨v, s2⟩ := vs
        rw [hv] at h
        simp only [] at h ⊢
        obtain ⟨rest2, hin2, hat2⟩ := rlp.Raw_ok hat1 v s2 hv
        by_cases hdup : i > 0 ∧ k = prevkey
        · rw [if_pos hdup] at h; simp at h
        · rw [if_neg hdup] at h ⊢
          by_cases hns : i > 0 ∧ k < prevkey
          · rw [if_pos hns] at h; simp at h
          · rw [if_neg hns] at h ⊢
            obtain ⟨ps, hps, hrest⟩ := ih (i + 1) k _ s2 rest2 hat2 h
            refine ⟨{ k := k, v := v } :: ps, ?_, ?_⟩
            · rw [hps]; simp
            · rw [hin1, hin2, hrest]; simp

/-- What `decodeRecord` has decoded when it returns no error: the raw item is the
canonical encoding of the signature, the sequence number and the pairs it returns. -/
theorem decodeRecord_sound (s : rlp.Stream) (h : (decodeRecord s).err = none) :
    ∃ raw sig, (decodeRecord s).raw = some raw ∧ (decodeRecord s).dec.signature = some sig ∧
      raw = canonicalEncoding (some sig) (decodeRecord s).dec.seq (decodeRecord s).dec.pairs ∧
      (decodeRecord s).dec.seq < 2 ^ 64 ∧ raw.length ≤ SizeLimit := by
  unfold decodeRecord at h ⊢
  cases hraw : s.Raw with
  | error err => rw [hraw] at h; simp at h
  | ok rs =>
    obtain ⟨raw, s0⟩ := rs
    rw [hraw] at h
    simp only [] at h ⊢
    by_cases hbig : raw.length > SizeLimit
    · rw [if_pos hbig] at h; simp at h
    · rw [if_neg hbig] at h ⊢
      have hs0 : (rlp.NewStream raw 0).At raw false :=
        ⟨⟨rfl, rfl, rfl, by simp [rlp.NewStream]⟩, rfl⟩
      cases hl : (rlp.NewStream raw 0).List with
      | error err => rw [hl] at h; simp at h
      | ok ls =>
        obtain ⟨n, s1⟩ := ls
        rw [hl] at h
        simp only [] at h ⊢
        cases hsig : rlp.decodeByteSlice s1 with
        | error err => rw [hsig] at h; simp at h
        | ok ss =>
          obtain ⟨sig, s2⟩ := ss
          rw [hsig] at h
          simp only [] at h ⊢
          cases hseq : rlp.decodeUint s2 with
          | error err => rw [hseq] at h; simp at h
          | ok qs =>
            obtain ⟨seq, s3⟩ := qs
            rw [hseq] at h
            simp only [] at h ⊢
            -- the position of the inner stream inside the list
            have hcontent : ∃ content, raw = rlp.itemHeader .List content.length 0 ++ content ∧
                s1.At content true := by
              obtain ⟨k, size, bv, content, hshape, hclen, hk0⟩ := rlp.Raw_shape s raw s0 hraw
              have hsz : size < 2 ^ 64 := by
                have := congrArg List.length hshape
                simp only [List.length_append, SizeLimit] at this hbig
                have : size ≤ 300 := by omega
                exact Nat.lt_of_le_of_lt this (by norm_num)
              cases k with
              | List =>
                rw [hshape] at hs0 hl
                obtain ⟨s', hl', hat'⟩ := rlp.List_eq size bv content hs0 hclen hsz
                rw [hl'] at hl
                simp only [Except.ok.injEq, Prod.mk.injEq] at hl
                rw [← hl.2]
                exact ⟨content, by rw [hshape, hclen]; rfl, hat'⟩
              | String =>
                rw [hshape] at hs0 hl
                exact absurd hl (rlp.List_not_list .String size bv content hs0 (by simp)
                  (fun hk => by cases hk) hsz (by omega) n s1)
              | Byte =>
                have hz := hk0 rfl
                subst hz
                have hc : content = [] := List.eq_nil_of_length_eq_zero hclen
                subst hc
                have hraw1 : raw = [bv] := by rw [hshape]; rfl
                rw [hraw1] at hl
                have hat1 := rlp.List_single bv n s1 hl
                rw [rlp.decodeByteSlice_EOL hat1] at hsig
                simp at hsig
            obtain ⟨content, hrawc, hat1⟩ := hcontent
            obtain ⟨rest1, hin1, hat2⟩ :=
              rlp.Bytes_ok hat1 sig s2 (rlp.decodeByteSlice_ok s1 sig s2 hsig)
            obtain ⟨rest2, hin2, hat3, hseqlt⟩ :=
              rlp.uint_ok hat2 seq s3 (rlp.decodeUint_ok s2 seq s3 hseq)
            obtain ⟨f1, f2, f3, _⟩ := decodePairs_frame raw (raw.length + 1) 0 []
              { Record.zero with signature := some sig, seq := seq } s3
            obtain ⟨ps, hps, hrest⟩ := decodePairs_sound raw (raw.length + 1) 0 []
              { Record.zero with signature := some sig, seq := seq } s3 rest2 hat3 h
            refine ⟨raw, sig, f1, f2, ?_, by rw [f3]; exact hseqlt, by omega⟩
            rw [f3, hps, canonicalEncoding_eq]
            simp only [Record.zero, List.nil_append, Option.getD_some]
            rw [← hrest, List.append_assoc, ← hin2, ← hin1]
            exact hrawc

end enr

namespace enr

/-- In every reachable record a cached encoding is the canonical encoding of the current
signature, sequence number and pairs, and is within the size limit. -/
theorem Reachable.cache_consistent {r : Record} (h : Reachable r) :
    ∀ raw, r.raw = some raw →
      raw = canonicalEncoding r.signature r.seq r.pairs ∧ raw.length ≤ SizeLimit := by
  induction h with
  | zero => intro raw hraw; simp [Record.zero] at hraw
  | Set r e _ ih =>
    intro raw hraw
    rcases Set_raw_signature r e with h | ⟨_, h2⟩
    · rw [h] at hraw ⊢; exact ih raw hraw
    · rw [h2] at hraw; simp at hraw
  | SetSeq r s _ _ ih => intro raw hraw; simp [Record.SetSeq] at hraw
  | SetSig r s sig _ ih =>
    intro raw hraw
    rcases SetSig_cases r s sig with h | h | ⟨sg, hle, h⟩
    · rw [h] at hraw ⊢; exact ih raw hraw
    · rw [h] at hraw; simp at hraw
    · rw [h] at hraw ⊢
      simp only [Option.some.injEq] at hraw
      rw [← hraw]
      exact ⟨rfl, hle⟩
  | DecodeRLP r s _ ih =>
    intro raw hraw
    rcases DecodeRLP_cases r s with ⟨_, h⟩ | ⟨herr, _, h⟩
    · rw [h] at hraw ⊢; exact ih raw hraw
    · obtain ⟨raw', sig, h1, h2, h3, _, h5⟩ := decodeRecord_sound s herr
      rw [h] at hraw ⊢
      simp only at hraw ⊢
      rw [h1] at hraw
      simp only [Option.some.injEq] at hraw
      rw [← hraw, h2]
      exact ⟨h3, h5⟩

/-- C7: for every record reachable from the zero record by `Set`, `SetSeq`, `SetSig` and
`DecodeRLP`, a cached encoding, when present, is the canonical RLP encoding of the list
`[signature, seq, k1, v1, ..., kn, vn]` of the record's current signature, sequence number
and pairs, with the values inserted as they are; it is what `encode` computes. -/
theorem Reachable_cache_consistent (r : Record) (h : Reachable r) (raw : ByteSeq)
    (hraw : r.raw = some raw) :
    rlp.EncodeToBytes (canonicalList r.signature r.seq r.pairs) = .ok raw ∧
      raw = canonicalEncoding r.signature r.seq r.pairs ∧
      r.encode r.signature = .ok raw := by
  obtain ⟨h1, h2⟩ := h.cache_consistent raw hraw
  refine ⟨by rw [EncodeToBytes_canonicalList, h1], h1, ?_⟩
  rw [encode_canonical, ← h1, if_neg (by omega)]

/-- The record decoded from the seven bytes `[sig "", seq 0, "a" 1, "b" 2]` caches these
bytes, and they are the encoding of its fields. -/
theorem Reachable_cache_consistent_witness :
    (Record.zero.DecodeRLP (rlp.NewStream [0xc6, 0x80, 0x80, 0x61, 0x01, 0x62, 0x02] 0)).1.raw
        = some [0xc6, 0x80, 0x80, 0x61, 0x01, 0x62, 0x02] ∧
      rlp.EncodeToBytes (canonicalList (some []) 0 [⟨[0x61], [0x01]⟩, ⟨[0x62], [0x02]⟩])
        = .ok [0xc6, 0x80, 0x80, 0x61, 0x01, 0x62, 0x02] :=
  ⟨by decide, (Reachable_cache_consistent
    (Record.zero.DecodeRLP (rlp.NewStream [0xc6, 0x80, 0x80, 0x61, 0x01, 0x62, 0x02] 0)).1
    (Reachable.DecodeRLP _ _ Reachable.zero) [0xc6, 0x80, 0x80, 0x61, 0x01, 0x62, 0x02]
    (by decide)).1⟩

end enr

namespace rlp

theorem itemHeader_length_le (k : Kind) (size : Nat) (bv : Byte) :
    (itemHeader k size bv).length ≤ 1 + (putint size).length := by
  cases k with
  | Byte => simp [itemHeader]
  | String =>
    by_cases h : size < 56
    · simp [itemHeader, puthead_small _ _ _ h]
    · simp [itemHeader, puthead_large _ _ _ h]; omega
  | List =>
    by_cases h : size < 56
    · simp [itemHeader, puthead_small _ _ _ h]
    · simp [itemHeader, puthead_large _ _ _ h]; omega

theorem writeBytes_length (b : ByteSeq) :
    1 ≤ (writeBytes b).length ∧ b.length ≤ (writeBytes b).length := by
  rcases writeBytes_cases b with ⟨x, hx, _, hw⟩ | ⟨_, hw⟩
  · rw [hw, hx]; simp [itemHeader]
  · rw [hw, List.length_append]
    have := itemHeader_length_pos .String b.length 0
    omega

/-- The encoding of an item of fewer than `2 ^ 64` bytes is one item. -/
theorem Item.encode_IsItem (item : Item) (h : item.encode.length < 2 ^ 64) :
    IsItem item.encode := by
  cases item with
  | string b =>
    simp only [Item.encode] at h ⊢
    have hb := (writeBytes_length b).2
    rcases writeBytes_cases b with ⟨x, _, hxlt, hw⟩ | ⟨_, hw⟩
    · exact ⟨.Byte, 0, x, [], by rw [hw]; simp, rfl, by norm_num, fun _ => ⟨hxlt, rfl⟩⟩
    · exact ⟨.String, b.length, 0, b, hw, rfl, by omega, (fun hk => by cases hk)⟩
  | list content =>
    simp only [Item.encode] at h ⊢
    refine ⟨.List, content.length, 0, content, rfl, rfl, ?_, (fun hk => by cases hk)⟩
    rw [List.length_append] at h
    omega

end rlp

namespace enr

theorem flatMap_pairs_length (pairs : List pair) :
    pairs.length ≤ (pairs.flatMap fun p => rlp.writeBytes p.k ++ p.v).length := by
  induction pairs with
  | nil => simp
  | cons p ps ih =>
    simp only [List.flatMap_cons, List.length_append, List.length_cons]
    have := (rlp.writeBytes_length p.k).1
    omega

/-- On the encodings of ascending pairs whose values are items, the loop of
`decodeRecord` appends exactly these pairs and ends without an error. -/
theorem decodePairs_complete (raw : ByteSeq) :
    ∀ (pairs : List pair) (fuel i : Nat) (prevkey : GoString) (dec : Record) (s : rlp.Stream),
      s.At (pairs.flatMap fun p => rlp.writeBytes p.k ++ p.v) true → pairs.length < fuel →
      Ascending pairs → (0 < i → ∀ p ∈ pairs, prevkey < p.k) →
      (∀ p ∈ pairs, rlp.IsItem p.v ∧ p.k.length < 2 ^ 64) →
      decodePairs raw fuel i prevkey dec s
        = { dec := { dec with pairs := dec.pairs ++ pairs }, raw := some raw, err := none } := by
  intro pairs
  induction pairs with
  | nil =>
    intro fuel i prevkey dec s hat hfuel _ _ _
    obtain ⟨f, rfl⟩ : ∃ f, fuel = f + 1 := ⟨fuel - 1, by simp at hfuel; omega⟩
    simp only [List.flatMap_nil] at hat
    unfold decodePairs
    simp [rlp.decodeString_EOL hat, rlp.ListEnd_eq hat]
  | cons p ps ih =>
    intro fuel i prevkey dec s hat hfuel hasc hprev hitems
    obtain ⟨f, rfl⟩ : ∃ f, fuel = f + 1 := ⟨fuel - 1, by simp at hfuel; omega⟩
    simp only [List.flatMap_cons, List.append_assoc] at hat
    obtain ⟨hitem, hklen⟩ := hitems p (List.mem_cons_self _ _)
    obtain ⟨s1, hb, hat1⟩ := rlp.Bytes_eq p.k hat hklen
    obtain ⟨s2, hr, hat2⟩ := rlp.Raw_eq p.v hat1 hitem
    have hasc' : (p.k :: keys ps).Pairwise (· < ·) := hasc
    rw [List.pairwise_cons] at hasc'
    have hdup : ¬ (i > 0 ∧ p.k = prevkey) := by
      rintro ⟨hi, heq⟩
      have := hprev hi p (List.mem_cons_self _ _)
      rw [heq] at this
      exact lt_irrefl _ this
    have hns : ¬ (i > 0 ∧ p.k < prevkey) := by
      rintro ⟨hi, hlt⟩
      exact lt_asymm hlt (hprev hi p (List.mem_cons_self _ _))
    unfold decodePairs
    simp only [rlp.decodeString, hb, rlp.decodeRawValue, hr, if_neg hdup, if_neg hns]
    rw [ih f (i + 1) p.k _ s2 hat2 (by simp at hfuel; omega) hasc'.2
      (fun _ q hq => hasc'.1 q.k (List.mem_map_of_mem _ hq))
      (fun q hq => hitems q (List.mem_cons_of_mem _ hq))]
    simp

/-- On a stream that is at the canonical encoding of a signature, a sequence number and
ascending pairs whose values are items, `decodeRecord` returns these and the encoding,
provided the encoding is within the size limit. -/
theorem decodeRecord_complete (sig : ByteSeq) (seq : Nat) (pairs : List pair)
    (s : rlp.Stream) (rest : ByteSeq) (inList : Bool)
    (hat : s.At (canonicalEncoding (some sig) seq pairs ++ rest) inList)
    (hlen : (canonicalEncoding (some sig) seq pairs).length ≤ SizeLimit)
    (hseq : seq < 2 ^ 64) (hasc : Ascending pairs) (hitems : ∀ p ∈ pairs, rlp.IsItem p.v) :
    decodeRecord s
      = { dec := { seq := seq, signature := some sig, raw := none, pairs := pairs },
          raw := some (canonicalEncoding (some sig) seq pairs), err := none } := by
  have hce := canonicalEncoding_eq (some sig) seq pairs
  simp only [Option.getD_some] at hce
  generalize hcontent : (rlp.writeBytes sig ++ rlp.writeUint64 seq
      ++ pairs.flatMap fun p => rlp.writeBytes p.k ++ p.v) = content at hce
  generalize hrawdef : canonicalEncoding (some sig) seq pairs = raw at hce hat hlen ⊢
  have hhd := rlp.itemHeader_length_pos .List content.length 0
  have hrawlen : raw.length = (rlp.itemHeader .List content.length 0).length + content.length := by
    rw [hce, List.length_append]
  simp only [SizeLimit] at hlen
  have hclen : content.length < 2 ^ 64 :=
    Nat.lt_of_le_of_lt (show content.length ≤ 300 by omega) (by norm_num)
  have hitem : rlp.IsItem raw :=
    ⟨.List, content.length, 0, content, hce, rfl, hclen, (fun hk => by cases hk)⟩
  obtain ⟨s0, hraw, _⟩ := rlp.Raw_eq raw hat hitem
  have hs0 : (rlp.NewStream raw 0).At (rlp.itemHeader .List content.length 0 ++ content) false := by
    rw [← hce]
    exact ⟨⟨rfl, rfl, rfl, by simp [rlp.NewStream]⟩, rfl⟩
  obtain ⟨s1, hl, hat1⟩ := rlp.List_eq content.length 0 content hs0 rfl hclen
  rw [← hcontent, List.append_assoc] at hat1
  have hcl : content.length = (rlp.writeBytes sig).length + (rlp.writeUint64 seq).length
      + (pairs.flatMap fun p => rlp.writeBytes p.k ++ p.v).length := by
    rw [← hcontent, List.length_append, List.length_append]
  have hsiglen : sig.length < 2 ^ 64 := by
    have := (rlp.writeBytes_length sig).2
    exact Nat.lt_of_le_of_lt (show sig.length ≤ 300 by omega) (by norm_num)
  obtain ⟨s2, hb, hat2⟩ := rlp.Bytes_eq sig hat1 hsiglen
  obtain ⟨s3, hu, hat3⟩ := rlp.uint_eq seq hat2 hseq
  have hfuel : pairs.length < raw.length + 1 := by
    have := flatMap_pairs_length pairs
    omega
  have hkeys : ∀ p ∈ pairs, rlp.IsItem p.v ∧ p.k.length < 2 ^ 64 := by
    intro p hp
    refine ⟨hitems p hp, ?_⟩
    have h1 := (rlp.writeBytes_length p.k).2
    have h2 : (rlp.writeBytes p.k ++ p.v).length
        ≤ (pairs.flatMap fun p => rlp.writeBytes p.k ++ p.v).length := by
      obtain ⟨l1, l2, hsplit⟩ := List.append_of_mem hp
      rw [hsplit]
      simp only [List.flatMap_append, List.flatMap_cons, List.length_append]
      omega
    rw [List.length_append] at h2
    exact Nat.lt_of_le_of_lt (show p.k.length ≤ 300 by omega) (by norm_num)
  have hpairs := decodePairs_complete raw pairs (raw.length + 1) 0 []
    { Record.zero with signature := some sig, seq := seq } s3 hat3 hfuel hasc
    (fun h0 => absurd h0 (Nat.lt_irrefl 0)) hkeys
  unfold decodeRecord
  rw [hraw]
  simp only []
  rw [if_neg (by simp only [SizeLimit]; omega), hl]
  simp only [rlp.decodeByteSlice, hb, rlp.decodeUint, hu]
  rw [hpairs]
  simp [Record.zero]

end enr

namespace enr

theorem Built.reachable {r : Record} (h : Built r) : Reachable r := by
  induction h with
  | zero => exact Reachable.zero
  | Set r e _ ih => exact Reachable.Set r e ih
  | SetSeq r s _ hs ih => exact Reachable.SetSeq r s ih hs

theorem invalidate_seq_lt (r : Record) (h : r.seq < 2 ^ 64) : r.invalidate.seq < 2 ^ 64 := by
  by_cases hs : r.signature = none
  · rw [invalidate_seq_unsigned r hs]
    exact h
  · rw [invalidate_seq_signed r hs]
    exact Nat.mod_lt _ (by norm_num)

theorem Set_seq_lt (r : Record) (e : Entry) (h : r.seq < 2 ^ 64) : (r.Set e).1.seq < 2 ^ 64 := by
  cases henc : e.EncodeToBytes with
  | error err => simpa [Record.Set, henc] using h
  | ok blob =>
    rw [(Set_frame r e blob henc).2.1]
    exact invalidate_seq_lt r h

/-- `Set` stores the encoding of an item, and keeps the values that it does not replace. -/
theorem Set_ValuesEncoded (r : Record) (e : Entry) (h : ValuesEncoded r.pairs) :
    ValuesEncoded (r.Set e).1.pairs := by
  unfold Record.Set
  cases henc : e.EncodeToBytes with
  | error err => exact h
  | ok blob =>
    have hblob : ∃ item : rlp.Item, blob = item.encode := by
      unfold Entry.EncodeToBytes at henc
      cases hi : e.EncodeRLP with
      | error err => rw [hi] at henc; simp at henc
      | ok item =>
        rw [hi] at henc
        simp only [Except.ok.injEq] at henc
        exact ⟨item, henc.symm⟩
    simp only [invalidate_pairs]
    split_ifs
    · intro p hp
      rcases List.mem_or_eq_of_mem_set hp with hp | rfl
      · exact h p hp
      · exact hblob
    · intro p hp
      simp only [List.mem_append, List.mem_singleton] at hp
      rcases hp with (hp | rfl) | hp
      · exact h p (List.mem_of_mem_take hp)
      · exact hblob
      · exact h p (List.mem_of_mem_drop hp)
    · intro p hp
      simp only [List.mem_append, List.mem_singleton] at hp
      rcases hp with hp | rfl
      · exact h p hp
      · exact hblob

theorem Built.values_encoded {r : Record} (h : Built r) : ValuesEncoded r.pairs := by
  induction h with
  | zero => intro p hp; simp [Record.zero] at hp
  | Set r e _ ih => exact Set_ValuesEncoded r e ih
  | SetSeq r s _ _ ih => exact ih

theorem Built.seq_lt {r : Record} (h : Built r) : r.seq < 2 ^ 64 := by
  induction h with
  | zero => simp [Record.zero]
  | Set r e _ ih => exact Set_seq_lt r e ih
  | SetSeq r s _ hs _ => exact hs

/-- The encoding of each pair is part of the canonical encoding. -/
theorem pair_length_le (sig : Option ByteSeq) (seq : Nat) (pairs : List pair) (p : pair)
    (hp : p ∈ pairs) : p.v.length ≤ (canonicalEncoding sig seq pairs).length := by
  obtain ⟨l1, l2, hsplit⟩ := List.append_of_mem hp
  rw [canonicalEncoding_eq, hsplit]
  simp only [List.flatMap_append, List.flatMap_cons, List.length_append]
  omega

/-- A record with ascending pairs whose values are encodings of items, signed with a
canonical encoding within the size limit, is what `DecodeRLP` makes of the bytes that
`EncodeRLP` writes. -/
theorem DecodeRLP_EncodeRLP (r : Record) (sig : ByteSeq) (target : Record)
    (hsig : r.signature = some sig)
    (hraw : r.raw = some (canonicalEncoding (some sig) r.seq r.pairs))
    (hlen : (canonicalEncoding (some sig) r.seq r.pairs).length ≤ SizeLimit)
    (hseq : r.seq < 2 ^ 64) (hasc : Ascending r.pairs) (hval : ValuesEncoded r.pairs) :
    r.EncodeRLP = (none, canonicalEncoding (some sig) r.seq r.pairs) ∧
      target.DecodeRLP (rlp.NewStream r.EncodeRLP.2 r.EncodeRLP.2.length) = (r, none) := by
  have henc : r.EncodeRLP = (none, canonicalEncoding (some sig) r.seq r.pairs) := by
    simp [Record.EncodeRLP, hsig, hraw]
  refine ⟨henc, ?_⟩
  rw [henc]
  simp only
  have hat : (rlp.NewStream (canonicalEncoding (some sig) r.seq r.pairs)
      (canonicalEncoding (some sig) r.seq r.pairs).length).At
      (canonicalEncoding (some sig) r.seq r.pairs ++ []) false := by
    rw [List.append_nil]
    exact ⟨⟨rfl, rfl, rfl, by simp [rlp.NewStream]⟩, rfl⟩
  have hitems : ∀ p ∈ r.pairs, rlp.IsItem p.v := by
    intro p hp
    obtain ⟨item, hitem⟩ := hval p hp
    rw [hitem]
    apply rlp.Item.encode_IsItem
    rw [← hitem]
    have := pair_length_le (some sig) r.seq r.pairs p hp
    simp only [SizeLimit] at hlen
    exact Nat.lt_of_le_of_lt (show p.v.length ≤ 300 by omega) (by norm_num)
  have hd := decodeRecord_complete sig r.seq r.pairs _ [] false hat hlen hseq hasc hitems
  unfold Record.DecodeRLP
  rw [hd]
  simp only
  congr 1
  cases r
  simp only at hsig hraw
  simp [hsig, hraw]

/-- What a successful `SetSig` with a scheme and a signature has done. -/
theorem SetSig_ok_inv (r : Record) (s : IdentityScheme) (sig : ByteSeq)
    (h : (r.SetSig (some s) (some sig)).2 = .value none) :
    (canonicalEncoding (some sig) r.seq r.pairs).length ≤ SizeLimit ∧
      (r.SetSig (some s) (some sig)).1
        = { r with signature := some sig,
                   raw := some (canonicalEncoding (some sig) r.seq r.pairs) } := by
  simp only [Record.SetSig] at h ⊢
  cases hv : s.Verify r (some sig) with
  | some err => rw [hv] at h; simp at h
  | none =>
    rw [hv] at h
    simp only [encode_canonical] at h ⊢
    by_cases hbig : (canonicalEncoding (some sig) r.seq r.pairs).length > SizeLimit
    · rw [if_pos hbig] at h; simp at h
    · rw [if_neg hbig]
      exact ⟨by omega, rfl⟩

/-- C1: round trip.  For every record built from the zero record by `Set` and `SetSeq` and
then signed by a successful `SetSig`, `EncodeRLP` returns no error, and `DecodeRLP` on the
bytes it wrote succeeds, whatever the target held before, and yields a record with the
same `Seq()`, the same `Signature()`, the same pairs in the same order and the same
`Size()`: the signed record itself. -/
theorem roundtrip (r : Record) (hb : Built r) (s : IdentityScheme) (sig : ByteSeq)
    (hsig : (r.SetSig (some s) (some sig)).2 = .value none) (target : Record) :
    (r.SetSig (some s) (some sig)).1.EncodeRLP.1 = none ∧
      (target.DecodeRLP (rlp.NewStream (r.SetSig (some s) (some sig)).1.EncodeRLP.2
        (r.SetSig (some s) (some sig)).1.EncodeRLP.2.length)).2 = none ∧
      (target.DecodeRLP (rlp.NewStream (r.SetSig (some s) (some sig)).1.EncodeRLP.2
        (r.SetSig (some s) (some sig)).1.EncodeRLP.2.length)).1.Seq
          = (r.SetSig (some s) (some sig)).1.Seq ∧
      (target.DecodeRLP (rlp.NewStream (r.SetSig (some s) (some sig)).1.EncodeRLP.2
        (r.SetSig (some s) (some sig)).1.EncodeRLP.2.length)).1.Signature
          = (r.SetSig (some s) (some sig)).1.Signature ∧
      (target.DecodeRLP (rlp.NewStream (r.SetSig (some s) (some sig)).1.EncodeRLP.2
        (r.SetSig (some s) (some sig)).1.EncodeRLP.2.length)).1.pairs
          = (r.SetSig (some s) (some sig)).1.pairs ∧
      (target.DecodeRLP (rlp.NewStream (r.SetSig (some s) (some sig)).1.EncodeRLP.2
        (r.SetSig (some s) (some sig)).1.EncodeRLP.2.length)).1.Size
          = (r.SetSig (some s) (some sig)).1.Size ∧
      (target.DecodeRLP (rlp.NewStream (r.SetSig (some s) (some sig)).1.EncodeRLP.2
        (r.SetSig (some s) (some sig)).1.EncodeRLP.2.length)).1
          = (r.SetSig (some s) (some sig)).1 := by
  obtain ⟨hlen, hset⟩ := SetSig_ok_inv r s sig hsig
  have h := DecodeRLP_EncodeRLP (r.SetSig (some s) (some sig)).1 sig target
    (by rw [hset]) (by rw [hset]) (by rw [hset]; exact hlen) (by rw [hset]; exact hb.seq_lt)
    (by rw [hset]; exact hb.reachable.ascending) (by rw [hset]; exact hb.values_encoded)
  obtain ⟨h1, h2⟩ := h
  rw [h2]
  refine ⟨by rw [h1], rfl, rfl, rfl, rfl, rfl, rfl⟩

/-- The record holding "udp" and "ip", signed with "S1", comes back from its twenty
bytes, into a target that held something else. -/
theorem roundtrip_witness :
    (((Record.zero.Set udpEntry).1.Set ipEntry).1.SetSig (some schemeS1) (some [0x53, 0x31])).2
        = .value none ∧
      (signedMaxSeq.DecodeRLP (rlp.NewStream
        [0xd3, 0x82, 0x53, 0x31, 0x80, 0x82, 0x69, 0x70, 0x84, 127, 0, 0, 1,
          0x83, 0x75, 0x64, 0x70, 0x82, 0x76, 0x5f] 20)).1
        = (((Record.zero.Set udpEntry).1.Set ipEntry).1.SetSig
            (some schemeS1) (some [0x53, 0x31])).1 :=
  ⟨by decide,
    (roundtrip ((Record.zero.Set udpEntry).1.Set ipEntry).1
      (Built.Set _ ipEntry (Built.Set _ udpEntry Built.zero)) schemeS1 [0x53, 0x31]
      (by decide) signedMaxSeq).2.2.2.2.2.2⟩

end enr

namespace enr

/-- C11: `SetSig(nil, nil)` returns nil, clears the signature and the cached encoding, and
leaves the sequence number (no increment) and the pairs as they were. -/
theorem SetSig_nil_nil (r : Record) :
    (r.SetSig none none).2 = .value none ∧ (r.SetSig none none).1.signature = none ∧
      (r.SetSig none none).1.Signature = none ∧ (r.SetSig none none).1.raw = none ∧
      (r.SetSig none none).1.seq = r.seq ∧ (r.SetSig none none).1.Seq = r.Seq ∧
      (r.SetSig none none).1.pairs = r.pairs :=
  ⟨rfl, rfl, rfl, rfl, rfl, rfl, rfl⟩

/-- C12: `SetSig` panics if and only if exactly one of the scheme and the signature is nil.
In that case the record is as before the call, and the outcome is the same whatever the
scheme is: its `Verify` plays no part. -/
theorem SetSig_panics_iff (r : Record) (s : Option IdentityScheme) (sig : Option ByteSeq) :
    ((r.SetSig s sig).2 = .panic ↔ (s = none ∧ sig ≠ none) ∨ (s ≠ none ∧ sig = none)) ∧
      ((r.SetSig s sig).2 = .panic → (r.SetSig s sig).1 = r) ∧
      (∀ s1 s2 : IdentityScheme, r.SetSig (some s1) none = r.SetSig (some s2) none) ∧
      (∀ s1 : IdentityScheme, r.SetSig (some s1) none = (r, .panic)) ∧
      (∀ sg : ByteSeq, r.SetSig none (some sg) = (r, .panic)) := by
  refine ⟨?_, ?_, fun _ _ => rfl, fun _ => rfl, fun _ => rfl⟩
  · cases s with
    | none =>
      cases sig with
      | none => simp [Record.SetSig]
      | some sg => simp [Record.SetSig]
    | some sch =>
      cases sig with
      | none => simp [Record.SetSig]
      | some sg =>
        simp only [Record.SetSig]
        cases sch.Verify r (some sg) with
        | some err => simp
        | none =>
          cases r.encode (some sg) with
          | error err => simp
          | ok raw => simp
  · intro hp
    rcases SetSig_cases r s sig with h | h | ⟨sg, _, h⟩
    · exact h
    · cases s with
      | none =>
        cases sig with
        | none => simp [Record.SetSig] at hp
        | some sg => rfl
      | some sch =>
        cases sig with
        | none => rfl
        | some sg =>
          exfalso
          simp only [Record.SetSig] at hp
          cases hv : sch.Verify r (some sg) with
          | some err => rw [hv] at hp; simp at hp
          | none =>
            rw [hv] at hp
            cases he : r.encode (some sg) with
            | error err => rw [he] at hp; simp at hp
            | ok raw => rw [he] at hp; simp at hp
    · cases s with
      | none =>
        cases sig with
        | none => simp [Record.SetSig] at hp
        | some sg => rfl
      | some sch =>
        cases sig with
        | none => rfl
        | some sg2 =>
          exfalso
          simp only [Record.SetSig] at hp
          cases hv : sch.Verify r (some sg2) with
          | some err => rw [hv] at hp; simp at hp
          | none =>
            rw [hv] at hp
            cases he : r.encode (some sg2) with
            | error err => rw [he] at hp; simp at hp
            | ok raw => rw [he] at hp; simp at hp

/-- C17: `DecodeRLP` is atomic.  Whenever it returns an error, whatever the error, the
target record (sequence number, signature, cached encoding, pairs) is as before the call. -/
theorem DecodeRLP_atomic (r : Record) (s : rlp.Stream) (h : (r.DecodeRLP s).2 ≠ none) :
    (r.DecodeRLP s).1 = r ∧ (r.DecodeRLP s).1.seq = r.seq ∧
      (r.DecodeRLP s).1.signature = r.signature ∧ (r.DecodeRLP s).1.raw = r.raw ∧
      (r.DecodeRLP s).1.pairs = r.pairs := by
  have hr : (r.DecodeRLP s).1 = r := by
    rcases DecodeRLP_cases r s with ⟨_, h1⟩ | ⟨_, h2, _⟩
    · exact h1
    · exact absurd h2 h
  rw [hr]
  exact ⟨rfl, rfl, rfl, rfl, rfl⟩

/-- The record signed with "S1" is untouched by a decode that fails on unsorted keys. -/
theorem DecodeRLP_atomic_witness :
    (signedIp.DecodeRLP (rlp.NewStream [0xc6, 0x80, 0x80, 0x62, 0x01, 0x61, 0x02] 0)).2
        = some .errNotSorted ∧
      (signedIp.DecodeRLP (rlp.NewStream [0xc6, 0x80, 0x80, 0x62, 0x01, 0x61, 0x02] 0)).1
        = signedIp :=
  ⟨by decide, (DecodeRLP_atomic signedIp
    (rlp.NewStream [0xc6, 0x80, 0x80, 0x62, 0x01, 0x61, 0x02] 0) (by decide)).1⟩

/-- When `decodeRecord` returns no error, the raw item it returns is what `Raw` read from
the stream. -/
theorem decodeRecord_raw (s : rlp.Stream) (h : (decodeRecord s).err = none) :
    ∃ raw s', s.Raw = .ok (raw, s') ∧ (decodeRecord s).raw = some raw := by
  obtain ⟨raw, hraw⟩ := (decodeRecord_ok s h).1
  unfold decodeRecord at h hraw
  cases hr : s.Raw with
  | error err => rw [hr] at h; simp at h
  | ok rs =>
    obtain ⟨raw0, s0⟩ := rs
    rw [hr] at h hraw
    simp only [] at h hraw
    refine ⟨raw0, s0, rfl, ?_⟩
    unfold decodeRecord
    rw [hr]
    simp only []
    by_cases hbig : raw0.length > SizeLimit
    · rw [if_pos hbig] at h; simp at h
    · rw [if_neg hbig] at h hraw ⊢
      rw [hraw]
      cases hl : (rlp.NewStream raw0 0).List with
      | error err => rw [hl] at h; simp at h
      | ok ls =>
        rw [hl] at hraw
        simp only [] at hraw
        cases hsig : rlp.decodeByteSlice ls.2 with
        | error err => rw [hl] at h; simp only [] at h; rw [hsig] at h; simp at h
        | ok ss =>
          rw [hsig] at hraw
          simp only [] at hraw
          cases hseq : rlp.decodeUint ss.2 with
          | error err =>
            rw [hl] at h; simp only [] at h; rw [hsig] at h; simp only [] at h
            rw [hseq] at h; simp at h
          | ok qs =>
            rw [hseq] at hraw
            simp only [] at hraw
            rw [(decodePairs_frame raw0 _ _ _ _ _).1] at hraw
            exact hraw.symm ▸ rfl

end enr

namespace enr

/-- C18: re-encoding reproduces the input.  When `DecodeRLP` succeeds, the stream held a
raw item `b`, the resulting record is signed, `EncodeRLP` returns no error and writes
exactly `b`, `Size()` is the length of `b`, and the result is the same for every target
record. -/
theorem DecodeRLP_reencode (r : Record) (s : rlp.Stream) (h : (r.DecodeRLP s).2 = none) :
    ∃ b s', s.Raw = .ok (b, s') ∧
      (r.DecodeRLP s).1.signature ≠ none ∧
      (r.DecodeRLP s).1.EncodeRLP.1 ≠ some .errEncodeUnsigned ∧
      (r.DecodeRLP s).1.EncodeRLP = (none, b) ∧
      (r.DecodeRLP s).1.Size = b.length ∧
      ∀ r2 : Record, r2.DecodeRLP s = r.DecodeRLP s := by
  have herr : (decodeRecord s).err = none := by
    rcases DecodeRLP_cases r s with ⟨h1, _⟩ | ⟨h2, _, _⟩
    · exact absurd h h1
    · exact h2
  obtain ⟨b, s', hraw, hb⟩ := decodeRecord_raw s herr
  obtain ⟨_, ⟨sig, hsig⟩, _, _⟩ := decodeRecord_ok s herr
  have hdec : ∀ r2 : Record, r2.DecodeRLP s
      = ({ (decodeRecord s).dec with raw := (decodeRecord s).raw }, none) := by
    intro r2
    unfold Record.DecodeRLP
    simp only [herr]
  refine ⟨b, s', hraw, ?_, ?_, ?_, ?_, fun r2 => by rw [hdec r2, hdec r]⟩
  · rw [hdec r]; simp [hsig]
  · rw [hdec r]; simp [Record.EncodeRLP, hsig]
  · rw [hdec r]; simp [Record.EncodeRLP, hsig, hb]
  · rw [hdec r]; simp [Record.Size, hb]

/-- The seven bytes `[sig "", seq 0, "a" 1, "b" 2]` come back from the record decoded
from them. -/
theorem DecodeRLP_reencode_witness :
    (Record.zero.DecodeRLP (rlp.NewStream [0xc6, 0x80, 0x80, 0x61, 0x01, 0x62, 0x02] 0)).2 = none ∧
      ∃ b s', (rlp.NewStream [0xc6, 0x80, 0x80, 0x61, 0x01, 0x62, 0x02] 0).Raw = .ok (b, s') ∧
        (Record.zero.DecodeRLP
          (rlp.NewStream [0xc6, 0x80, 0x80, 0x61, 0x01, 0x62, 0x02] 0)).1.EncodeRLP = (none, b) ∧
        (Record.zero.DecodeRLP
          (rlp.NewStream [0xc6, 0x80, 0x80, 0x61, 0x01, 0x62, 0x02] 0)).1.Size = b.length := by
  have h := DecodeRLP_reencode Record.zero
    (rlp.NewStream [0xc6, 0x80, 0x80, 0x61, 0x01, 0x62, 0x02] 0) (by decide)
  obtain ⟨b, s', h1, _, _, h4, h5, _⟩ := h
  exact ⟨by decide, b, s', h1, h4, h5⟩

/-- C19: `EncodeRLP` fails with `errEncodeUnsigned` if and only if the signature is nil, and
then writes nothing; otherwise it returns no error and writes exactly the cached encoding
(on a writer that accepts what it is given). -/
theorem EncodeRLP_spec (r : Record) :
    (r.EncodeRLP.1 = some .errEncodeUnsigned ↔ r.signature = none) ∧
      (r.signature = none → r.EncodeRLP = (some .errEncodeUnsigned, [])) ∧
      (r.signature ≠ none → r.EncodeRLP = (none, r.raw.getD [])) ∧
      (∀ raw, r.signature ≠ none → r.raw = some raw → r.EncodeRLP = (none, raw)) := by
  cases hs : r.signature with
  | none => simp [Record.EncodeRLP, hs]
  | some sig =>
    refine ⟨by simp [Record.EncodeRLP, hs], by simp, by simp [Record.EncodeRLP, hs], ?_⟩
    intro raw _ hraw
    simp [Record.EncodeRLP, hs, hraw]

end enr

namespace enr

/-- The search of `Load` and `Set` on ascending pairs finds the pair that has the key. -/
theorem search_finds (pairs : List pair) (key : GoString) (ha : Ascending pairs) (p : pair)
    (hp : p ∈ pairs) (hk : p.k = key) :
    sort.Search pairs.length (fun i => decide (keyAt pairs i ≥ key)) < pairs.length ∧
      keyAt pairs (sort.Search pairs.length (fun i => decide (keyAt pairs i ≥ key))) = key ∧
      valueAt pairs (sort.Search pairs.length (fun i => decide (keyAt pairs i ≥ key))) = p.v := by
  obtain ⟨_, hlo, hhi⟩ := search_pairs pairs key ha
  generalize sort.Search pairs.length (fun i => decide (keyAt pairs i ≥ key)) = i at hlo hhi ⊢
  obtain ⟨j, hj, hpj⟩ := List.getElem_of_mem hp
  have hjk : j < (keys pairs).length := by rw [keys_length]; exact hj
  have hkj : keyAt pairs j = key := by
    rw [keyAt_eq pairs j hjk]
    simp [keys, hpj, hk]
  have hij : i ≤ j := by
    by_contra hlt
    have := hlo j (by omega)
    rw [hkj] at this
    exact lt_irrefl _ this
  have hin : i < pairs.length := by omega
  have hik : i < (keys pairs).length := by rw [keys_length]; exact hin
  have hge := hhi i (Nat.le_refl _) hin
  have heq : i = j := by
    rcases Nat.eq_or_lt_of_le hij with h | h
    · exact h
    · exfalso
      have hlt := (List.pairwise_iff_getElem.mp ha) i j hik hjk h
      rw [← keyAt_eq pairs i hik, ← keyAt_eq pairs j hjk, hkj] at hlt
      exact lt_irrefl _ (lt_of_le_of_lt hge hlt)
  subst heq
  refine ⟨hin, hkj, ?_⟩
  simp [valueAt, List.get?_eq_getElem?, List.getElem?_eq_getElem hin, hpj]

/-- `Load` of a key that a pair of the ascending record has: the stored value is decoded
into the entry. -/
theorem Load_found (r : Record) (e : Entry) (ha : Ascending r.pairs) (p : pair)
    (hp : p ∈ r.pairs) (hk : p.k = e.ENRKey) :
    r.Load e =
      match e.DecodeRLP p.v with
      | .error err => { record := r, err := some (.KeyError e.ENRKey err), entry := e }
      | .ok item => { record := r, err := none, entry := { e with EncodeRLP := .ok item } } := by
  obtain ⟨h1, h2, h3⟩ := search_finds r.pairs e.ENRKey ha p hp hk
  unfold Record.Load
  simp only [h1, h2, h3, and_self, if_true]

/-- `Load` of a key that no pair has. -/
theorem Load_missing (r : Record) (e : Entry) (h : ∀ p ∈ r.pairs, p.k ≠ e.ENRKey) :
    r.Load e = { record := r, err := some (.KeyError e.ENRKey .errNotFound), entry := e } := by
  unfold Record.Load
  simp only
  rw [if_neg]
  rintro ⟨hi, hk⟩
  have hik : sort.Search r.pairs.length (fun i => decide (keyAt r.pairs i ≥ e.ENRKey))
      < (keys r.pairs).length := by rw [keys_length]; exact hi
  rw [keyAt_eq r.pairs _ hik] at hk
  have hmem : (keys r.pairs)[sort.Search r.pairs.length
      (fun i => decide (keyAt r.pairs i ≥ e.ENRKey))] ∈ keys r.pairs := List.getElem_mem _
  rw [hk] at hmem
  simp only [keys, List.mem_map] at hmem
  obtain ⟨p, hp, hpk⟩ := hmem
  exact h p hp hpk

/-- C20: `Load` on a record with strictly ascending pairs.  If no pair has the key of the
entry, it returns a `KeyError` with that key and the cause `errNotFound`; if a pair has
the key and its stored bytes fail to decode into the entry, it returns a `KeyError` with
that key whose cause is the decode error of the codec; if they decode, it returns nil.
With a codec whose decode errors are its own (never `errNotFound`), the cause is
`errNotFound` if and only if no pair has the key.  The record is as before the call. -/
theorem Load_classification (r : Record) (e : Entry) (ha : Ascending r.pairs) :
    (r.Load e).record = r ∧
      ((∀ p ∈ r.pairs, p.k ≠ e.ENRKey) →
        (r.Load e).err = some (.KeyError e.ENRKey .errNotFound)) ∧
      (∀ p ∈ r.pairs, p.k = e.ENRKey → ∀ err, e.DecodeRLP p.v = .error err →
        (r.Load e).err = some (.KeyError e.ENRKey err)) ∧
      (∀ p ∈ r.pairs, p.k = e.ENRKey → ∀ item, e.DecodeRLP p.v = .ok item →
        (r.Load e).err = none ∧ (r.Load e).entry.EncodeRLP = .ok item) ∧
      ((∀ b, e.DecodeRLP b ≠ .error .errNotFound) →
        ((r.Load e).err = some (.KeyError e.ENRKey .errNotFound) ↔
          ∀ p ∈ r.pairs, p.k ≠ e.ENRKey)) := by
  have hfound : ∀ p ∈ r.pairs, p.k = e.ENRKey → ∀ err, e.DecodeRLP p.v = .error err →
      (r.Load e).err = some (.KeyError e.ENRKey err) := by
    intro p hp hk err hd
    rw [Load_found r e ha p hp hk, hd]
  have hok : ∀ p ∈ r.pairs, p.k = e.ENRKey → ∀ item, e.DecodeRLP p.v = .ok item →
      (r.Load e).err = none ∧ (r.Load e).entry.EncodeRLP = .ok item := by
    intro p hp hk item hd
    rw [Load_found r e ha p hp hk, hd]
    exact ⟨rfl, rfl⟩
  refine ⟨?_, fun h => by rw [Load_missing r e h], hfound, hok, ?_⟩
  · unfold Record.Load
    simp only
    split_ifs
    · split <;> rfl
    · rfl
  · intro hcodec
    constructor
    · intro herr p hp hk
      cases hd : e.DecodeRLP p.v with
      | error err =>
        have := hfound p hp hk err hd
        rw [this] at herr
        simp only [Option.some.injEq, Error.KeyError.injEq, true_and] at herr
        rw [herr] at hd
        exact hcodec p.v hd
      | ok item =>
        have := (hok p hp hk item hd).1
        rw [this] at herr
        simp at herr
    · intro h
      rw [Load_missing r e h]

/-- On the record that holds "ip" with four bytes and "udp": `Load` of "udp" with an entry
that accepts only four bytes fails to decode, `Load` of "ip" decodes, and the record that
holds only "ip" has no "udp". -/
theorem Load_classification_witness :
    ((signedIp.Set udpEntry).1.Load ip4Entry).err = none ∧
      ((signedIp.Set udpEntry).1.Load { ip4Entry with ENRKey := [0x75, 0x64, 0x70] }).err
        = some (.KeyError [0x75, 0x64, 0x70] (.decodeError "wrong size" "enr.IPv4")) ∧
      (signedIp.Load udpEntry).err = some (.KeyError [0x75, 0x64, 0x70] .errNotFound) ∧
      (signedIp.Load udpEntry).record = signedIp :=
  ⟨by decide, by decide,
    (Load_classification signedIp udpEntry
      (Reachable.SetSig _ _ _ (Reachable.Set _ ipEntry Reachable.zero)).ascending).2.1
      (by decide),
    (Load_classification signedIp udpEntry
      (Reachable.SetSig _ _ _ (Reachable.Set _ ipEntry Reachable.zero)).ascending).1⟩

end enr

namespace rlp

theorem willRead_isRlp (s : Stream) (n : Nat) (e : Error) (h : s.willRead n = .error e) :
    e.isRlp = true := by
  rcases willRead_err s n e h with h' | h' <;> rw [h'] <;> rfl

theorem readByte_isRlp (s : Stream) (e : Error) (h : s.readByte = .error e) :
    e.isRlp = true := by
  unfold Stream.readByte at h
  cases hw : s.willRead 1 with
  | error e' =>
    rw [hw] at h
    simp only [Except.error.injEq] at h
    rw [← h]
    exact willRead_isRlp s 1 e' hw
  | ok s' =>
    rw [hw] at h
    simp only at h
    split at h
    · simp only [Except.error.injEq] at h
      rw [← h]; rfl
    · simp at h

theorem readFull_isRlp (s : Stream) (n : Nat) (e : Error) (h : s.readFull n = .error e) :
    e.isRlp = true := by
  unfold Stream.readFull at h
  cases hw : s.willRead n with
  | error e' =>
    rw [hw] at h
    simp only [Except.error.injEq] at h
    rw [← h]
    exact willRead_isRlp s n e' hw
  | ok s' =>
    rw [hw] at h
    simp only at h
    split_ifs at h
    simp only [Except.error.injEq] at h
    rw [← h]; rfl

theorem readUint_isRlp (s : Stream) (n : Nat) (e : Error) (h : s.readUint n = .error e) :
    e.isRlp = true := by
  match n with
  | 0 => simp [Stream.readUint] at h
  | 1 =>
    simp only [Stream.readUint] at h
    cases hb : s.readByte with
    | error e' =>
      rw [hb] at h
      simp only [Except.error.injEq] at h
      rw [← h]
      exact readByte_isRlp s e' hb
    | ok bs => rw [hb] at h; simp at h
  | n + 2 =>
    simp only [Stream.readUint] at h
    cases hb : s.readFull (n + 2) with
    | error e' =>
      rw [hb] at h
      simp only [Except.error.injEq] at h
      rw [← h]
      exact readFull_isRlp s (n + 2) e' hb
    | ok bs =>
      rw [hb] at h
      simp only at h
      split_ifs at h
      simp only [Except.error.injEq] at h
      rw [← h]; rfl

theorem readKind_isRlp (s : Stream) (e : Error) (h : s.readKind = .error e) :
    e.isRlp = true := by
  unfold Stream.readKind at h
  cases hb : s.readByte with
  | error e' =>
    rw [hb] at h
    simp only at h
    have he' := readByte_isRlp s e' hb
    split_ifs at h <;> simp only [Except.error.injEq] at h <;> rw [← h] <;> first | rfl | exact he'
  | ok bs =>
    obtain ⟨b, s'⟩ := bs
    rw [hb] at h
    simp only at h
    split_ifs at h
    · cases hu : s'.readUint (b.val - 0xB7) with
      | error e' =>
        rw [hu] at h
        simp only [Except.error.injEq] at h
        rw [← h]
        exact readUint_isRlp s' _ e' hu
      | ok us =>
        rw [hu] at h
        simp only at h
        split_ifs at h
        simp only [Except.error.injEq] at h
        rw [← h]; rfl
    · cases hu : s'.readUint (b.val - 0xF7) with
      | error e' =>
        rw [hu] at h
        simp only [Except.error.injEq] at h
        rw [← h]
        exact readUint_isRlp s' _ e' hu
      | ok us =>
        rw [hu] at h
        simp only at h
        split_ifs at h
        simp only [Except.error.injEq] at h
        rw [← h]; rfl

/-- With no result cached, `Kind` fails only with an error of package rlp. -/
theorem Kind_isRlp (s : Stream) (hk : s.kind = none) (e : Error) (h : s.Kind = .error e) :
    e.isRlp = true := by
  unfold Stream.Kind at h
  rw [hk] at h
  simp only at h
  split_ifs at h with hEOL
  · simp only [Except.error.injEq] at h
    rw [← h]; rfl
  · cases hr : s.readKind with
    | error e' =>
      rw [hr] at h
      simp only [Except.error.injEq] at h
      rw [← h]
      exact readKind_isRlp s e' hr
    | ok res =>
      rw [hr] at h
      simp only at h
      split_ifs at h <;> simp only [Except.error.injEq] at h <;> rw [← h] <;> rfl

theorem Bytes_isRlp (s : Stream) (hk : s.kind = none) (e : Error) (h : s.Bytes = .error e) :
    e.isRlp = true := by
  unfold Stream.Bytes at h
  cases hkd : s.Kind with
  | error e' =>
    rw [hkd] at h
    simp only [Except.error.injEq] at h
    rw [← h]
    exact Kind_isRlp s hk e' hkd
  | ok res =>
    obtain ⟨k, size, s1⟩ := res
    rw [hkd] at h
    cases k with
    | Byte => simp at h
    | String =>
      simp only at h
      cases hf : s1.readFull size with
      | error e' =>
        rw [hf] at h
        simp only [Except.error.injEq] at h
        rw [← h]
        exact readFull_isRlp s1 size e' hf
      | ok fs =>
        rw [hf] at h
        simp only at h
        split_ifs at h
        simp only [Except.error.injEq] at h
        rw [← h]; rfl
    | List =>
      simp only [Except.error.injEq] at h
      rw [← h]; rfl

theorem uint_isRlp (s : Stream) (hk : s.kind = none) (e : Error) (h : s.uint = .error e) :
    e.isRlp = true := by
  unfold Stream.uint at h
  cases hkd : s.Kind with
  | error e' =>
    rw [hkd] at h
    simp only [Except.error.injEq] at h
    rw [← h]
    exact Kind_isRlp s hk e' hkd
  | ok res =>
    obtain ⟨k, size, s1⟩ := res
    rw [hkd] at h
    cases k with
    | Byte =>
      simp only at h
      split_ifs at h
      simp only [Except.error.injEq] at h
      rw [← h]; rfl
    | String =>
      simp only at h
      split_ifs at h with h8
      · simp only [Except.error.injEq] at h
        rw [← h]; rfl
      · cases hu : s1.readUint size with
        | error e' =>
          rw [hu] at h
          simp only at h
          have he' := readUint_isRlp s1 size e' hu
          split_ifs at h <;> simp only [Except.error.injEq] at h <;> rw [← h] <;>
            first | rfl | exact he'
        | ok us =>
          rw [hu] at h
          simp only at h
          split_ifs at h
          simp only [Except.error.injEq] at h
          rw [← h]; rfl
    | List =>
      simp only [Except.error.injEq] at h
      rw [← h]; rfl

theorem Raw_isRlp (s : Stream) (hk : s.kind = none) (e : Error) (h : s.Raw = .error e) :
    e.isRlp = true := by
  unfold Stream.Raw at h
  cases hkd : s.Kind with
  | error e' =>
    rw [hkd] at h
    simp only [Except.error.injEq] at h
    rw [← h]
    exact Kind_isRlp s hk e' hkd
  | ok res =>
    obtain ⟨k, size, s1⟩ := res
    rw [hkd] at h
    simp only at h
    by_cases hkb : k = .Byte
    · rw [if_pos hkb] at h; simp at h
    · rw [if_neg hkb] at h
      cases hf : s1.readFull size with
      | error e' =>
        rw [hf] at h
        simp only [Except.error.injEq] at h
        rw [← h]
        exact readFull_isRlp s1 size e' hf
      | ok fs =>
        rw [hf] at h
        simp only at h
        split_ifs at h

theorem List_isRlp (s : Stream) (hk : s.kind = none) (e : Error) (h : s.List = .error e) :
    e.isRlp = true := by
  unfold Stream.List at h
  cases hkd : s.Kind with
  | error e' =>
    rw [hkd] at h
    simp only [Except.error.injEq] at h
    rw [← h]
    exact Kind_isRlp s hk e' hkd
  | ok res =>
    obtain ⟨k, size, s1⟩ := res
    rw [hkd] at h
    simp only at h
    split_ifs at h
    · simp only [Except.error.injEq] at h
      rw [← h]; rfl
    · split at h <;> simp at h

theorem ListEnd_isRlp (s : Stream) (e : Error) (h : s.ListEnd = .error e) :
    e.isRlp = true := by
  unfold Stream.ListEnd at h
  split at h
  · simp only [Except.error.injEq] at h
    rw [← h]; rfl
  · split_ifs at h
    simp only [Except.error.injEq] at h
    rw [← h]; rfl

theorem wrapStreamError_isRlp (e : Error) (typ : String) (h : e.isRlp = true) :
    (wrapStreamError e typ).isRlp = true := by
  cases e <;> simp [wrapStreamError, Error.isRlp] at h ⊢

theorem decodeString_isRlp (s : Stream) (hk : s.kind = none) (e : Error)
    (h : decodeString s = .error e) : e.isRlp = true := by
  unfold decodeString at h
  cases hb : s.Bytes with
  | error e' =>
    rw [hb] at h
    simp only [Except.error.injEq] at h
    rw [← h]
    exact wrapStreamError_isRlp e' _ (Bytes_isRlp s hk e' hb)
  | ok r => rw [hb] at h; simp at h

theorem decodeByteSlice_isRlp (s : Stream) (hk : s.kind = none) (e : Error)
    (h : decodeByteSlice s = .error e) : e.isRlp = true := by
  unfold decodeByteSlice at h
  cases hb : s.Bytes with
  | error e' =>
    rw [hb] at h
    simp only [Except.error.injEq] at h
    rw [← h]
    exact wrapStreamError_isRlp e' _ (Bytes_isRlp s hk e' hb)
  | ok r => rw [hb] at h; simp at h

theorem decodeUint_isRlp (s : Stream) (hk : s.kind = none) (e : Error)
    (h : decodeUint s = .error e) : e.isRlp = true := by
  unfold decodeUint at h
  cases hb : s.uint with
  | error e' =>
    rw [hb] at h
    simp only [Except.error.injEq] at h
    rw [← h]
    exact wrapStreamError_isRlp e' _ (uint_isRlp s hk e' hb)
  | ok r => rw [hb] at h; simp at h

end rlp

namespace enr

/-- The inner stream of `decodeRecord`, made from what `Raw` returned, is inside the list
after `List` succeeded: what is left to read is the content of the list. -/
theorem inner_List_At (s : rlp.Stream) (raw : ByteSeq) (s0 : rlp.Stream)
    (hraw : s.Raw = .ok (raw, s0)) (hlen : raw.length ≤ SizeLimit) (n : Nat) (s1 : rlp.Stream)
    (hl : (rlp.NewStream raw 0).List = .ok (n, s1)) :
    ∃ content, s1.At content true := by
  have hs0 : (rlp.NewStream raw 0).At raw false :=
    ⟨⟨rfl, rfl, rfl, by simp [rlp.NewStream]⟩, rfl⟩
  obtain ⟨k, size, bv, content, hshape, hclen, hk0⟩ := rlp.Raw_shape s raw s0 hraw
  have hsz : size < 2 ^ 64 := by
    have := congrArg List.length hshape
    simp only [List.length_append, SizeLimit] at this hlen
    have : size ≤ 300 := by omega
    exact Nat.lt_of_le_of_lt this (by norm_num)
  cases k with
  | List =>
    rw [hshape] at hs0 hl
    obtain ⟨s', hl', hat'⟩ := rlp.List_eq size bv content hs0 hclen hsz
    rw [hl'] at hl
    simp only [Except.ok.injEq, Prod.mk.injEq] at hl
    rw [← hl.2]
    exact ⟨content, hat'⟩
  | String =>
    rw [hshape] at hs0 hl
    exact absurd hl (rlp.List_not_list .String size bv content hs0 (by simp)
      (fun hk => by cases hk) hsz (by omega) n s1)
  | Byte =>
    have hz := hk0 rfl
    subst hz
    have hc : content = [] := List.eq_nil_of_length_eq_zero hclen
    subst hc
    have hraw1 : raw = [bv] := by rw [hshape]; rfl
    rw [hraw1] at hl
    exact ⟨[], rlp.List_single bv n s1 hl⟩

/-- The errors of the loop of `decodeRecord`: those of the codec and the three of the
pairs. -/
theorem decodePairs_err (raw : ByteSeq) :
    ∀ (fuel i : Nat) (prevkey : GoString) (dec : Record) (s : rlp.Stream) (input : ByteSeq),
      s.At input true → ∀ e, (decodePairs raw fuel i prevkey dec s).err = some e →
      e.isRlp = true ∨ e = .errIncompletePair ∨ e = .errDuplicateKey ∨ e = .errNotSorted := by
  intro fuel
  induction fuel with
  | zero =>
    intro i prevkey dec s input _ e h
    simp only [decodePairs, Option.some.injEq] at h
    left; rw [← h]; rfl
  | succ fuel ih =>
    intro i prevkey dec s input hat e h
    unfold decodePairs at h
    cases hk : rlp.decodeString s with
    | error err =>
      rw [hk] at h
      simp only [] at h
      have herr := rlp.decodeString_isRlp s hat.kind_eq err hk
      by_cases hE : err = .EOL
      · rw [if_pos hE] at h
        cases hl : s.ListEnd with
        | error e' =>
          rw [hl] at h
          simp only [Option.some.injEq] at h
          left; rw [← h]
          exact rlp.ListEnd_isRlp s e' hl
        | ok s' => rw [hl] at h; simp at h
      · rw [if_neg hE] at h
        simp only [Option.some.injEq] at h
        left; rw [← h]; exact herr
    | ok ks =>
      obtain ⟨k, s1⟩ := ks
      rw [hk] at h
      simp only [] at h
      obtain ⟨rest1, _, hat1⟩ := rlp.Bytes_ok hat k s1 (rlp.decodeString_ok s k s1 hk)
      cases hv : rlp.decodeRawValue s1 with
      | error err =>
        rw [hv] at h
        simp only [] at h
        have herr := rlp.Raw_isRlp s1 hat1.kind_eq err hv
        split_ifs at h
        · simp only [Option.some.injEq] at h
          right; left; exact h.symm
        · simp only [Option.some.injEq] at h
          left; rw [← h]; exact herr
      | ok vs =>
        obtain ⟨v, s2⟩ := vs
        rw [hv] at h
        simp only [] at h
        obtain ⟨rest2, _, hat2⟩ := rlp.Raw_ok hat1 v s2 hv
        split_ifs at h
        · simp only [Option.some.injEq] at h
          right; right; left; exact h.symm
        · simp only [Option.some.injEq] at h
          right; right; right; exact h.symm
        · exact ih (i + 1) k _ s2 rest2 hat2 e h

/-- The errors of `decodeRecord` on a raw item within the size limit: those of the codec,
`errIncompleteList` and the three of the pairs, never `errTooBig`. -/
theorem decodeRecord_err_kinds (s : rlp.Stream) (raw : ByteSeq) (s0 : rlp.Stream)
    (hraw : s.Raw = .ok (raw, s0)) (hlen : raw.length ≤ SizeLimit) (e : Error)
    (h : (decodeRecord s).err = some e) :
    e.isRlp = true ∨ e = .errIncompleteList ∨ e = .errIncompletePair ∨
      e = .errDuplicateKey ∨ e = .errNotSorted := by
  unfold decodeRecord at h
  rw [hraw] at h
  simp only [] at h
  rw [if_neg (by omega)] at h
  cases hl : (rlp.NewStream raw 0).List with
  | error err =>
    rw [hl] at h
    simp only [Option.some.injEq] at h
    left; rw [← h]
    exact rlp.List_isRlp _ rfl err hl
  | ok ls =>
    obtain ⟨n, s1⟩ := ls
    rw [hl] at h
    simp only [] at h
    obtain ⟨content, hat1⟩ := inner_List_At s raw s0 hraw hlen n s1 hl
    cases hsig : rlp.decodeByteSlice s1 with
    | error err =>
      rw [hsig] at h
      simp only [Option.some.injEq] at h
      have herr := rlp.decodeByteSlice_isRlp s1 hat1.kind_eq err hsig
      split_ifs at h
      · right; left; exact h.symm
      · left; rw [← h]; exact herr
    | ok ss =>
      obtain ⟨sig, s2⟩ := ss
      rw [hsig] at h
      simp only [] at h
      obtain ⟨rest1, _, hat2⟩ :=
        rlp.Bytes_ok hat1 sig s2 (rlp.decodeByteSlice_ok s1 sig s2 hsig)
      cases hseq : rlp.decodeUint s2 with
      | error err =>
        rw [hseq] at h
        simp only [Option.some.injEq] at h
        have herr := rlp.decodeUint_isRlp s2 hat2.kind_eq err hseq
        split_ifs at h
        · right; left; exact h.symm
        · left; rw [← h]; exact herr
      | ok qs =>
        obtain ⟨seq, s3⟩ := qs
        rw [hseq] at h
        simp only [] at h
        obtain ⟨rest2, _, hat3, _⟩ :=
          rlp.uint_ok hat2 seq s3 (rlp.decodeUint_ok s2 seq s3 hseq)
        rcases decodePairs_err raw _ _ _ _ s3 rest2 hat3 e h with h' | h' | h' | h'
        · exact Or.inl h'
        · exact Or.inr (Or.inr (Or.inl h'))
        · exact Or.inr (Or.inr (Or.inr (Or.inl h')))
        · exact Or.inr (Or.inr (Or.inr (Or.inr h')))

/-- The error that `DecodeRLP` returns is the one of `decodeRecord`. -/
theorem DecodeRLP_err (r : Record) (s : rlp.Stream) :
    (r.DecodeRLP s).2 = (decodeRecord s).err := by
  unfold Record.DecodeRLP
  cases h : (decodeRecord s).err with
  | none => simp [h]
  | some e => simp [h]

/-- Whatever `Raw` reads from the stream, a raw item longer than the size limit makes
`DecodeRLP` fail with `errTooBig`, and a raw item within the limit never does. -/
theorem DecodeRLP_Raw_size (r : Record) (s : rlp.Stream) (raw : ByteSeq) (s0 : rlp.Stream)
    (hraw : s.Raw = .ok (raw, s0)) :
    (SizeLimit < raw.length → r.DecodeRLP s = (r, some .errTooBig)) ∧
      (raw.length ≤ SizeLimit → (r.DecodeRLP s).2 ≠ some .errTooBig) := by
  constructor
  · intro hbig
    simp only [Record.DecodeRLP, decodeRecord, hraw]
    rw [if_pos hbig]
  · intro hle herr
    have hd : (decodeRecord s).err = some .errTooBig := by
      rw [← DecodeRLP_err r s]; exact herr
    rcases decodeRecord_err_kinds s raw s0 hraw hle _ hd with h | h | h | h | h
    · simp [Error.isRlp] at h
    all_goals cases h

/-- C13: the size ceiling at decode.  For every raw item longer than 300 bytes, whatever its
kind and its content, `DecodeRLP` fails with `errTooBig` and leaves the target as it was;
an item of at most 300 bytes, so one of exactly 300 bytes, is never refused with
`errTooBig`. -/
theorem DecodeRLP_size_ceiling (r : Record) (s : rlp.Stream) (item rest : ByteSeq)
    (inList : Bool) (hat : s.At (item ++ rest) inList) (hitem : rlp.IsItem item) :
    (300 < item.length → r.DecodeRLP s = (r, some .errTooBig)) ∧
      (item.length ≤ 300 → (r.DecodeRLP s).2 ≠ some .errTooBig) ∧
      (item.length = 300 → (r.DecodeRLP s).2 ≠ some .errTooBig) := by
  obtain ⟨s0, hraw, _⟩ := rlp.Raw_eq item hat hitem
  obtain ⟨h1, h2⟩ := DecodeRLP_Raw_size r s item s0 hraw
  exact ⟨h1, h2, fun h => h2 (by simp only [SizeLimit]; omega)⟩

end enr

namespace enr

set_option maxRecDepth 100000 in
/-- A string item of 301 bytes is refused for its size, into a target that stays as it
was; a string item of 300 bytes fails too, but not for its size. -/
theorem DecodeRLP_size_ceiling_witness :
    item301.length = 301 ∧
      signedIp.DecodeRLP (rlp.NewStream item301 0) = (signedIp, some .errTooBig) ∧
      item300.length = 300 ∧
      (signedIp.DecodeRLP (rlp.NewStream item300 0)).2 ≠ some .errTooBig :=
  ⟨by decide,
    (DecodeRLP_size_ceiling signedIp (rlp.NewStream item301 0) item301 [] false
      ⟨⟨(List.append_nil _).symm, rfl, rfl, by decide⟩, rfl⟩
      ⟨.String, 298, 0, List.replicate 298 0, by decide, by decide, by norm_num,
        (fun hk => by cases hk)⟩).1 (by decide),
    by decide,
    (DecodeRLP_size_ceiling signedIp (rlp.NewStream item300 0) item300 [] false
      ⟨⟨(List.append_nil _).symm, rfl, rfl, by decide⟩, rfl⟩
      ⟨.String, 297, 0, List.replicate 297 0, by decide, by decide, by norm_num,
        (fun hk => by cases hk)⟩).2.1 (by decide)⟩

end enr

namespace enr

/-- On a stream that is at a list item within the size limit, `decodeRecord` reads the
item with `Raw` and enters the list in the inner stream, which then is at the content. -/
theorem decodeRecord_enter (s : rlp.Stream) (content rest : ByteSeq) (inList : Bool)
    (hat : s.At (rlp.itemHeader .List content.length 0 ++ content ++ rest) inList)
    (hlen : (rlp.itemHeader .List content.length 0 ++ content).length ≤ SizeLimit) :
    ∃ s0 s1, s.Raw = .ok (rlp.itemHeader .List content.length 0 ++ content, s0) ∧
      (rlp.NewStream (rlp.itemHeader .List content.length 0 ++ content) 0).List
        = .ok (content.length, s1) ∧ s1.At content true := by
  have hclen : content.length < 2 ^ 64 := by
    simp only [List.length_append, SizeLimit] at hlen
    exact Nat.lt_of_le_of_lt (show content.length ≤ 300 by omega) (by norm_num)
  have hitem : rlp.IsItem (rlp.itemHeader .List content.length 0 ++ content) :=
    ⟨.List, content.length, 0, content, rfl, rfl, hclen, (fun hk => by cases hk)⟩
  obtain ⟨s0, hraw, _⟩ := rlp.Raw_eq _ hat hitem
  have hs0 : (rlp.NewStream (rlp.itemHeader .List content.length 0 ++ content) 0).At
      (rlp.itemHeader .List content.length 0 ++ content) false :=
    ⟨⟨rfl, rfl, rfl, by simp [rlp.NewStream]⟩, rfl⟩
  obtain ⟨s1, hl, hat1⟩ := rlp.List_eq content.length 0 content hs0 rfl hclen
  exact ⟨s0, s1, hraw, hl, hat1⟩

/-- The loop of `decodeRecord` on the encodings of ascending pairs followed by more
input: it appends the pairs and goes on behind them, at the iteration after theirs and
with the last of their keys as the previous key. -/
theorem decodePairs_prefix (raw : ByteSeq) :
    ∀ (pairs : List pair) (fuel i : Nat) (prevkey : GoString) (dec : Record) (s : rlp.Stream)
      (tail : ByteSeq),
      s.At ((pairs.flatMap fun p => rlp.writeBytes p.k ++ p.v) ++ tail) true →
      Ascending pairs → (0 < i → ∀ p ∈ pairs, prevkey < p.k) →
      (∀ p ∈ pairs, rlp.IsItem p.v ∧ p.k.length < 2 ^ 64) →
      ∃ s', s'.At tail true ∧
        decodePairs raw (fuel + pairs.length) i prevkey dec s
          = decodePairs raw fuel (i + pairs.length) (pairs.foldl (fun _ p => p.k) prevkey)
              { dec with pairs := dec.pairs ++ pairs } s' := by
  intro pairs
  induction pairs with
  | nil =>
    intro fuel i prevkey dec s tail hat _ _ _
    refine ⟨s, by simpa using hat, ?_⟩
    simp
  | cons p ps ih =>
    intro fuel i prevkey dec s tail hat hasc hprev hitems
    simp only [List.flatMap_cons, List.append_assoc] at hat
    obtain ⟨hitem, hklen⟩ := hitems p (List.mem_cons_self _ _)
    obtain ⟨s1, hb, hat1⟩ := rlp.Bytes_eq p.k hat hklen
    obtain ⟨s2, hr, hat2⟩ := rlp.Raw_eq p.v hat1 hitem
    have hasc' : (p.k :: keys ps).Pairwise (· < ·) := hasc
    rw [List.pairwise_cons] at hasc'
    have hdup : ¬ (i > 0 ∧ p.k = prevkey) := by
      rintro ⟨hi, heq⟩
      have := hprev hi p (List.mem_cons_self _ _)
      rw [heq] at this
      exact lt_irrefl _ this
    have hns : ¬ (i > 0 ∧ p.k < prevkey) := by
      rintro ⟨hi, hlt⟩
      exact lt_asymm hlt (hprev hi p (List.mem_cons_self _ _))
    obtain ⟨s', hat', hrec⟩ := ih fuel (i + 1) p.k
      { dec with pairs := dec.pairs ++ [{ k := p.k, v := p.v }] } s2 tail hat2 hasc'.2
      (fun _ q hq => hasc'.1 q.k (List.mem_map_of_mem _ hq))
      (fun q hq => hitems q (List.mem_cons_of_mem _ hq))
    refine ⟨s', hat', ?_⟩
    have hfuel : fuel + (p :: ps).length = (fuel + ps.length) + 1 := by
      simp only [List.length_cons]; omega
    rw [hfuel]
    conv_lhs => unfold decodePairs
    simp only [rlp.decodeString, hb, rlp.decodeRawValue, hr, if_neg hdup, if_neg hns]
    rw [hrec]
    have hi : i + 1 + ps.length = i + (p :: ps).length := by
      simp only [List.length_cons]; omega
    rw [hi]
    have hp : ({ k := p.k, v := p.v } : pair) = p := by cases p; rfl
    simp only [hp, List.append_assoc, List.singleton_append, List.foldl_cons]

/-- One iteration of the loop on a pair whose key is not greater than the previous one:
`errDuplicateKey` for an equal key, `errNotSorted` for a smaller one. -/
theorem decodePairs_violation (raw : ByteSeq) (fuel i : Nat) (prevkey : GoString)
    (dec : Record) (s : rlp.Stream) (q : pair) (rest : ByteSeq)
    (hat : s.At (rlp.writeBytes q.k ++ (q.v ++ rest)) true) (hi : 0 < i)
    (hitem : rlp.IsItem q.v) (hklen : q.k.length < 2 ^ 64) (hviol : ¬ prevkey < q.k) :
    decodePairs raw (fuel + 1) i prevkey dec s
      = { dec := dec, raw := some raw,
          err := some (if q.k = prevkey then .errDuplicateKey else .errNotSorted) } := by
  obtain ⟨s1, hb, hat1⟩ := rlp.Bytes_eq q.k hat hklen
  obtain ⟨s2, hr, _⟩ := rlp.Raw_eq q.v hat1 hitem
  unfold decodePairs
  simp only [rlp.decodeString, hb, rlp.decodeRawValue, hr]
  by_cases heq : q.k = prevkey
  · rw [if_pos ⟨hi, heq⟩, if_pos heq]
  · have hlt : q.k < prevkey := lt_of_le_of_ne (not_lt.mp hviol) heq
    rw [if_neg (fun h => heq h.2), if_pos ⟨hi, hlt⟩, if_neg heq]

/-- One iteration of the loop on a key that ends the list: `errIncompletePair`. -/
theorem decodePairs_dangling (raw : ByteSeq) (fuel i : Nat) (prevkey : GoString)
    (dec : Record) (s : rlp.Stream) (k : GoString)
    (hat : s.At (rlp.writeBytes k ++ []) true) (hklen : k.length < 2 ^ 64) :
    decodePairs raw (fuel + 1) i prevkey dec s
      = { dec := dec, raw := some raw, err := some .errIncompletePair } := by
  obtain ⟨s1, hb, hat1⟩ := rlp.Bytes_eq k hat hklen
  unfold decodePairs
  simp only [rlp.decodeString, hb, rlp.Raw_EOL hat1, if_true]

end enr

namespace enr

/-- On a list item within the size limit whose content begins with a signature and a
sequence number, `decodeRecord` reaches its loop with these two decoded, the inner stream
at what follows them. -/
theorem decodeRecord_to_pairs (s : rlp.Stream) (sig : ByteSeq) (seq : Nat)
    (tail content rest : ByteSeq) (inList : Bool)
    (hcontent : content = rlp.writeBytes sig ++ (rlp.writeUint64 seq ++ tail))
    (hat : s.At (rlp.itemHeader .List content.length 0 ++ content ++ rest) inList)
    (hlen : (rlp.itemHeader .List content.length 0 ++ content).length ≤ SizeLimit)
    (hseq : seq < 2 ^ 64) :
    ∃ s3, s3.At tail true ∧
      decodeRecord s
        = decodePairs (rlp.itemHeader .List content.length 0 ++ content)
            ((rlp.itemHeader .List content.length 0 ++ content).length + 1) 0 []
            { Record.zero with signature := some sig, seq := seq } s3 := by
  obtain ⟨s0, s1, hraw, hl, hat1⟩ := decodeRecord_enter s content rest inList hat hlen
  have hsiglen : sig.length < 2 ^ 64 := by
    have h1 := (rlp.writeBytes_length sig).2
    have h2 := congrArg List.length hcontent
    simp only [List.length_append, SizeLimit] at h2 hlen
    exact Nat.lt_of_le_of_lt (show sig.length ≤ 300 by omega) (by norm_num)
  rw [hcontent] at hat1
  obtain ⟨s2, hb, hat2⟩ := rlp.Bytes_eq sig hat1 hsiglen
  obtain ⟨s3, hu, hat3⟩ := rlp.uint_eq seq hat2 hseq
  refine ⟨s3, hat3, ?_⟩
  unfold decodeRecord
  rw [hraw]
  simp only []
  rw [if_neg (by omega), hl]
  simp only [rlp.decodeByteSlice, hb, rlp.decodeUint, hu]

theorem encodeVals_append (a b : List rlp.Val) :
    rlp.encodeVals (a ++ b) = rlp.encodeVals a ++ rlp.encodeVals b := by
  simp [rlp.encodeVals]

/-- The error of `DecodeRLP` when `decodeRecord` ends with a given result. -/
theorem DecodeRLP_of_err (target : Record) (s : rlp.Stream) (d : Decoded) (e : Error)
    (hd : decodeRecord s = d) (he : d.err = some e) : target.DecodeRLP s = (target, some e) := by
  unfold Record.DecodeRLP
  rw [hd]
  simp only [he]

theorem foldl_last_key (front : List pair) (p : pair) (prevkey : GoString) :
    (front ++ [p]).foldl (fun _ q => q.k) prevkey = p.k := by
  simp [List.foldl_append]

/-- The encoding of every pair is part of the content, so keys and values are short. -/
theorem pair_key_length_le (pairs : List pair) (p : pair) (hp : p ∈ pairs) :
    p.k.length + p.v.length ≤ (pairs.flatMap fun p => rlp.writeBytes p.k ++ p.v).length := by
  obtain ⟨l1, l2, hsplit⟩ := List.append_of_mem hp
  rw [hsplit]
  simp only [List.flatMap_append, List.flatMap_cons, List.length_append]
  have := (rlp.writeBytes_length p.k).2
  omega

/-- C14: key-order validation at decode.  The input is the canonical encoding of the list
`[sig, seq, k1, v1, ..., kn, vn]`, of at most 300 bytes, the values being items.  If the
keys are strictly ascending, `DecodeRLP` succeeds with these fields.  Otherwise, at the
first key `q.k` that is not greater than the key `p.k` before it, `DecodeRLP` fails with
`errDuplicateKey` when the two are equal and with `errNotSorted` when `q.k` is smaller,
and the target is as before. -/
theorem DecodeRLP_key_order (target : Record) (s : rlp.Stream) (rest : ByteSeq)
    (inList : Bool) (sig : ByteSeq) (seq : Nat) (pairs : List pair)
    (hat : s.At (canonicalEncoding (some sig) seq pairs ++ rest) inList)
    (hlen : (canonicalEncoding (some sig) seq pairs).length ≤ 300)
    (hseq : seq < 2 ^ 64) (hitems : ∀ p ∈ pairs, rlp.IsItem p.v) :
    (Ascending pairs →
        target.DecodeRLP s
          = ({ seq := seq, signature := some sig,
               raw := some (canonicalEncoding (some sig) seq pairs), pairs := pairs }, none)) ∧
      (∀ front p q back, pairs = front ++ p :: q :: back → Ascending (front ++ [p]) →
        ¬ p.k < q.k →
        (q.k = p.k → target.DecodeRLP s = (target, some .errDuplicateKey)) ∧
          (q.k < p.k → target.DecodeRLP s = (target, some .errNotSorted))) := by
  constructor
  · intro hasc
    have hd := decodeRecord_complete sig seq pairs s rest inList hat hlen hseq hasc hitems
    unfold Record.DecodeRLP
    rw [hd]
  · intro front p q back hpairs hasc hviol
    have hce := canonicalEncoding_eq (some sig) seq pairs
    simp only [Option.getD_some] at hce
    have hsplit : (pairs.flatMap fun p => rlp.writeBytes p.k ++ p.v)
        = ((front ++ [p]).flatMap fun p => rlp.writeBytes p.k ++ p.v)
          ++ (rlp.writeBytes q.k ++ (q.v ++ back.flatMap fun p => rlp.writeBytes p.k ++ p.v)) := by
      rw [hpairs]
      simp [List.flatMap_append, List.flatMap_cons]
    generalize hcontent : (rlp.writeBytes sig ++ rlp.writeUint64 seq
      ++ pairs.flatMap fun p => rlp.writeBytes p.k ++ p.v) = content at hce
    rw [hce] at hat hlen
    have hc2 : content = rlp.writeBytes sig ++ (rlp.writeUint64 seq ++
        (((front ++ [p]).flatMap fun p => rlp.writeBytes p.k ++ p.v)
          ++ (rlp.writeBytes q.k ++ (q.v ++ back.flatMap fun p => rlp.writeBytes p.k ++ p.v)))) := by
      rw [← hcontent, hsplit, List.append_assoc]
    obtain ⟨s3, hat3, hdec⟩ := decodeRecord_to_pairs s sig seq _ content rest inList hc2 hat
      (by simpa [SizeLimit] using hlen) hseq
    have hkeys : ∀ x ∈ pairs, rlp.IsItem x.v ∧ x.k.length < 2 ^ 64 := by
      intro x hx
      refine ⟨hitems x hx, ?_⟩
      have h1 := pair_key_length_le pairs x hx
      have h2 := congrArg List.length hcontent
      simp only [List.length_append] at h2 hlen
      exact Nat.lt_of_le_of_lt (show x.k.length ≤ 300 by omega) (by norm_num)
    have hfront : ∀ x ∈ front ++ [p], x ∈ pairs := by
      intro x hx
      rw [hpairs]
      rcases List.mem_append.mp hx with hx | hx
      · exact List.mem_append_left _ hx
      · rw [List.mem_singleton] at hx
        subst hx
        exact List.mem_append_right _ (List.mem_cons_self _ _)
    have hq : q ∈ pairs := by rw [hpairs]; simp
    have hcount : (front ++ [p]).length + 1 ≤
        (rlp.itemHeader .List content.length 0 ++ content).length := by
      have h1 := flatMap_pairs_length (front ++ [p])
      have h2 := congrArg List.length hc2
      have h3 := (rlp.writeBytes_length q.k).1
      simp only [List.length_append] at h2 h1 ⊢
      omega
    obtain ⟨fuel, hfuel⟩ : ∃ fuel, (rlp.itemHeader .List content.length 0 ++ content).length + 1
        = (fuel + 1) + (front ++ [p]).length :=
      ⟨(rlp.itemHeader .List content.length 0 ++ content).length - (front ++ [p]).length,
        by omega⟩
    obtain ⟨s4, hat4, hpre⟩ := decodePairs_prefix
      (rlp.itemHeader .List content.length 0 ++ content) (front ++ [p]) (fuel + 1) 0 []
      { Record.zero with signature := some sig, seq := seq } s3 _ hat3 hasc
      (fun h0 => absurd h0 (Nat.lt_irrefl 0)) (fun x hx => hkeys x (hfront x hx))
    have hviol' := decodePairs_violation (rlp.itemHeader .List content.length 0 ++ content)
      fuel (0 + (front ++ [p]).length) ((front ++ [p]).foldl (fun _ q => q.k) [])
      { Record.zero with signature := some sig, seq := seq,
                         pairs := Record.zero.pairs ++ (front ++ [p]) } s4 q _ hat4
      (by simp) (hkeys q hq).1 (hkeys q hq).2 (by rw [foldl_last_key]; exact hviol)
    rw [hfuel, hpre] at hdec
    constructor
    · intro heq
      exact DecodeRLP_of_err target s _ _ (hdec.trans hviol')
        (by simp only [foldl_last_key, heq, if_true])
    · intro hlt
      have hne : ¬ q.k = p.k := ne_of_lt hlt
      exact DecodeRLP_of_err target s _ _ (hdec.trans hviol')
        (by simp only [foldl_last_key, hne, if_false])

end enr

namespace enr

/-- A single byte below 0x80 is an RLP item. -/
theorem IsItem_byte (x : Byte) (h : x.val < 0x80) : rlp.IsItem [x] :=
  ⟨.Byte, 0, x, [], rfl, rfl, by norm_num, fun _ => ⟨h, rfl⟩⟩

/-- The keys "b", "a" give `errNotSorted`, the keys "a", "a" give `errDuplicateKey`, and
the keys "a", "b" decode. -/
theorem DecodeRLP_key_order_witness :
    signedIp.DecodeRLP (rlp.NewStream [0xc6, 0x80, 0x80, 0x62, 0x01, 0x61, 0x02] 0)
        = (signedIp, some .errNotSorted) ∧
      signedIp.DecodeRLP (rlp.NewStream [0xc6, 0x80, 0x80, 0x61, 0x01, 0x61, 0x02] 0)
        = (signedIp, some .errDuplicateKey) ∧
      signedIp.DecodeRLP (rlp.NewStream [0xc6, 0x80, 0x80, 0x61, 0x01, 0x62, 0x02] 0)
        = ({ seq := 0, signature := some [],
             raw := some [0xc6, 0x80, 0x80, 0x61, 0x01, 0x62, 0x02],
             pairs := [⟨[0x61], [0x01]⟩, ⟨[0x62], [0x02]⟩] }, none) :=
  ⟨((DecodeRLP_key_order signedIp (rlp.NewStream [0xc6, 0x80, 0x80, 0x62, 0x01, 0x61, 0x02] 0)
      [] false [] 0 [⟨[0x62], [0x01]⟩, ⟨[0x61], [0x02]⟩]
      ⟨⟨by decide, rfl, rfl, by decide⟩, rfl⟩ (by decide) (by norm_num)
      (fun p hp => by
        simp only [List.mem_cons, List.mem_singleton, List.not_mem_nil, or_false] at hp
        rcases hp with rfl | rfl <;> exact IsItem_byte _ (by decide))).2
      [] ⟨[0x62], [0x01]⟩ ⟨[0x61], [0x02]⟩ [] rfl (by simp [Ascending, keys])
      (by decide)).2 (by decide),
    ((DecodeRLP_key_order signedIp (rlp.NewStream [0xc6, 0x80, 0x80, 0x61, 0x01, 0x61, 0x02] 0)
      [] false [] 0 [⟨[0x61], [0x01]⟩, ⟨[0x61], [0x02]⟩]
      ⟨⟨by decide, rfl, rfl, by decide⟩, rfl⟩ (by decide) (by norm_num)
      (fun p hp => by
        simp only [List.mem_cons, List.mem_singleton, List.not_mem_nil, or_false] at hp
        rcases hp with rfl | rfl <;> exact IsItem_byte _ (by decide))).2
      [] ⟨[0x61], [0x01]⟩ ⟨[0x61], [0x02]⟩ [] rfl (by simp [Ascending, keys])
      (by decide)).1 rfl,
    (DecodeRLP_key_order signedIp (rlp.NewStream [0xc6, 0x80, 0x80, 0x61, 0x01, 0x62, 0x02] 0)
      [] false [] 0 [⟨[0x61], [0x01]⟩, ⟨[0x62], [0x02]⟩]
      ⟨⟨by decide, rfl, rfl, by decide⟩, rfl⟩ (by decide) (by norm_num)
      (fun p hp => by
        simp only [List.mem_cons, List.mem_singleton, List.not_mem_nil, or_false] at hp
        rcases hp with rfl | rfl <;> exact IsItem_byte _ (by decide))).1
      (by simp only [Ascending, keys, List.map_cons, List.map_nil, List.pairwise_cons,
            List.mem_singleton, forall_eq, List.not_mem_nil, false_implies, implies_true,
            List.Pairwise.nil, and_true]; decide)⟩

/-- C15: a final key without a value.  The input is the encoding of the list
`[sig, seq, k1, v1, ..., kn, vn, k]`, of at most 300 bytes, with the keys `k1 .. kn`
strictly ascending and the values items: `DecodeRLP` fails with `errIncompletePair` and
the target is as before. -/
theorem DecodeRLP_incomplete_pair (target : Record) (s : rlp.Stream) (rest : ByteSeq)
    (inList : Bool) (sig : ByteSeq) (seq : Nat) (pairs : List pair) (k : GoString)
    (raw : ByteSeq)
    (hraw : rlp.EncodeToBytes (canonicalList (some sig) seq pairs ++ [.string k]) = .ok raw)
    (hat : s.At (raw ++ rest) inList) (hlen : raw.length ≤ 300) (hseq : seq < 2 ^ 64)
    (hasc : Ascending pairs) (hitems : ∀ p ∈ pairs, rlp.IsItem p.v) :
    target.DecodeRLP s = (target, some .errIncompletePair) := by
  simp only [rlp.EncodeToBytes, Except.ok.injEq] at hraw
  have hvals : rlp.encodeVals (canonicalList (some sig) seq pairs ++ [.string k])
      = rlp.writeBytes sig ++ (rlp.writeUint64 seq ++
          ((pairs.flatMap fun p => rlp.writeBytes p.k ++ p.v) ++ (rlp.writeBytes k ++ []))) := by
    rw [encodeVals_append, encodeVals_canonicalList]
    simp [rlp.encodeVals, rlp.encodeVal]
  generalize hcontent : rlp.encodeVals (canonicalList (some sig) seq pairs ++ [.string k])
    = content at hraw hvals
  have hrawc : raw = rlp.itemHeader .List content.length 0 ++ content := hraw.symm
  rw [hrawc] at hat hlen
  obtain ⟨s3, hat3, hdec⟩ := decodeRecord_to_pairs s sig seq _ content rest inList hvals hat
    (by simpa [SizeLimit] using hlen) hseq
  have hcl := congrArg List.length hvals
  simp only [List.length_append, List.length_nil] at hcl hlen
  have hkeys : ∀ x ∈ pairs, rlp.IsItem x.v ∧ x.k.length < 2 ^ 64 := by
    intro x hx
    refine ⟨hitems x hx, ?_⟩
    have h1 := pair_key_length_le pairs x hx
    exact Nat.lt_of_le_of_lt (show x.k.length ≤ 300 by omega) (by norm_num)
  have hklen : k.length < 2 ^ 64 := by
    have h1 := (rlp.writeBytes_length k).2
    exact Nat.lt_of_le_of_lt (show k.length ≤ 300 by omega) (by norm_num)
  have hcount := flatMap_pairs_length pairs
  have hk1 := (rlp.writeBytes_length k).1
  obtain ⟨fuel, hfuel⟩ : ∃ fuel, (rlp.itemHeader .List content.length 0 ++ content).length + 1
      = (fuel + 1) + pairs.length :=
    ⟨(rlp.itemHeader .List content.length 0 ++ content).length - pairs.length, by
      simp only [List.length_append]; omega⟩
  obtain ⟨s4, hat4, hpre⟩ := decodePairs_prefix
    (rlp.itemHeader .List content.length 0 ++ content) pairs (fuel + 1) 0 []
    { Record.zero with signature := some sig, seq := seq } s3 _ hat3 hasc
    (fun h0 => absurd h0 (Nat.lt_irrefl 0)) hkeys
  have hdang := decodePairs_dangling (rlp.itemHeader .List content.length 0 ++ content)
    fuel (0 + pairs.length) (pairs.foldl (fun _ q => q.k) [])
    { Record.zero with signature := some sig, seq := seq,
                       pairs := Record.zero.pairs ++ pairs } s4 k hat4 hklen
  rw [hfuel, hpre] at hdec
  exact DecodeRLP_of_err target s _ _ (hdec.trans hdang) rfl

/-- The list `[sig "", seq 0, "a"]` has a key without a value. -/
theorem DecodeRLP_incomplete_pair_witness :
    rlp.EncodeToBytes (canonicalList (some []) 0 [] ++ [.string [0x61]])
        = .ok [0xc3, 0x80, 0x80, 0x61] ∧
      signedIp.DecodeRLP (rlp.NewStream [0xc3, 0x80, 0x80, 0x61] 0)
        = (signedIp, some .errIncompletePair) :=
  ⟨rfl, DecodeRLP_incomplete_pair signedIp (rlp.NewStream [0xc3, 0x80, 0x80, 0x61] 0) [] false
    [] 0 [] [0x61] [0xc3, 0x80, 0x80, 0x61] rfl ⟨⟨rfl, rfl, rfl, by decide⟩, rfl⟩ (by decide)
    (by norm_num) List.Pairwise.nil (fun p hp => absurd hp (List.not_mem_nil p))⟩

set_option maxRecDepth 100000 in
/-- C16 (as stated, refuted): the list that holds only a signature of 300 bytes is an RLP
list with fewer than two elements, and `DecodeRLP` fails on it with `errTooBig`, not with
`errIncompleteList`. -/
theorem DecodeRLP_incomplete_list_counterexample :
    rlp.EncodeToBytes [.bytes (some longSig)] = .ok longSigList ∧
      Record.zero.DecodeRLP (rlp.NewStream longSigList 0) = (Record.zero, some .errTooBig) ∧
      (Record.zero.DecodeRLP (rlp.NewStream longSigList 0)).2 ≠ some .errIncompleteList :=
  ⟨rfl, by decide, by decide⟩

/-- C16 (amended): for every input of at most 300 bytes that is an RLP list with fewer
than two elements, the empty list or a list that holds only a signature byte string,
`DecodeRLP` fails with `errIncompleteList` and the target is as before. -/
theorem DecodeRLP_incomplete_list (target : Record) (s : rlp.Stream) (raw rest : ByteSeq)
    (inList : Bool) (hat : s.At (raw ++ rest) inList) (hlen : raw.length ≤ 300) :
    (rlp.EncodeToBytes [] = .ok raw → target.DecodeRLP s = (target, some .errIncompleteList)) ∧
      (∀ sig : ByteSeq, rlp.EncodeToBytes [.bytes (some sig)] = .ok raw →
        target.DecodeRLP s = (target, some .errIncompleteList)) := by
  constructor
  · intro hraw
    simp only [rlp.EncodeToBytes, Except.ok.injEq] at hraw
    have hrawc : raw = rlp.itemHeader .List ([] : ByteSeq).length 0 ++ [] := by
      rw [← hraw]; rfl
    rw [hrawc] at hat hlen
    obtain ⟨s0, s1, hr, hl, hat1⟩ := decodeRecord_enter s [] rest inList hat
      (by simpa [SizeLimit] using hlen)
    apply DecodeRLP_of_err target s (decodeRecord s) _ rfl
    unfold decodeRecord
    rw [hr]
    simp only []
    rw [if_neg (by simpa [SizeLimit] using hlen), hl]
    simp only [rlp.decodeByteSlice_EOL hat1, if_true]
  · intro sig hraw
    simp only [rlp.EncodeToBytes, Except.ok.injEq] at hraw
    have hv : rlp.encodeVals [.bytes (some sig)] = rlp.writeBytes sig ++ [] := by
      simp [rlp.encodeVals, rlp.encodeVal]
    rw [hv] at hraw
    have hrawc : raw = rlp.itemHeader .List (rlp.writeBytes sig ++ []).length 0
        ++ (rlp.writeBytes sig ++ []) := by
      rw [← hraw]; rfl
    rw [hrawc] at hat hlen
    obtain ⟨s0, s1, hr, hl, hat1⟩ := decodeRecord_enter s _ rest inList hat
      (by simpa [SizeLimit] using hlen)
    have hsiglen : sig.length < 2 ^ 64 := by
      have h1 := (rlp.writeBytes_length sig).2
      simp only [List.length_append, List.length_nil] at hlen
      exact Nat.lt_of_le_of_lt (show sig.length ≤ 300 by omega) (by norm_num)
    obtain ⟨s2, hb, hat2⟩ := rlp.Bytes_eq sig hat1 hsiglen
    apply DecodeRLP_of_err target s (decodeRecord s) _ rfl
    unfold decodeRecord
    rw [hr]
    simp only []
    rw [if_neg (by simpa [SizeLimit] using hlen), hl]
    simp only [rlp.decodeByteSlice, hb, rlp.uint_EOL hat2, if_true]

/-- The empty list and the list that holds only the signature "S1" are incomplete. -/
theorem DecodeRLP_incomplete_list_witness :
    signedIp.DecodeRLP (rlp.NewStream [0xc0] 0) = (signedIp, some .errIncompleteList) ∧
      signedIp.DecodeRLP (rlp.NewStream [0xc3, 0x82, 0x53, 0x31] 0)
        = (signedIp, some .errIncompleteList) :=
  ⟨(DecodeRLP_incomplete_list signedIp (rlp.NewStream [0xc0] 0) [0xc0] [] false
      ⟨⟨rfl, rfl, rfl, by decide⟩, rfl⟩ (by decide)).1 rfl,
    (DecodeRLP_incomplete_list signedIp (rlp.NewStream [0xc3, 0x82, 0x53, 0x31] 0)
      [0xc3, 0x82, 0x53, 0x31] [] false ⟨⟨rfl, rfl, rfl, by decide⟩, rfl⟩ (by decide)).2
      [0x53, 0x31] rfl⟩

end enr

namespace enr

/-- A signed record with a scheme and no signature: the call panics and the record stays. -/
theorem SetSig_panics_iff_witness :
    (signedIp.SetSig (some schemeS1) none).2 = .panic ∧
      (signedIp.SetSig (some schemeS1) none).1 = signedIp :=
  ⟨rfl, (SetSig_panics_iff signedIp (some schemeS1) none).2.1 rfl⟩

/-- The signed record writes its cached encoding; the zero record writes nothing. -/
theorem EncodeRLP_spec_witness :
    signedIp.signature ≠ none ∧ signedIp.EncodeRLP = (none, signedIp.raw.getD []) ∧
      Record.zero.EncodeRLP = (some .errEncodeUnsigned, []) :=
  ⟨by decide, (EncodeRLP_spec signedIp).2.2.1 (by decide), (EncodeRLP_spec Record.zero).2.1 rfl⟩

end enr

namespace misc

/-- A `uint64` below `2 ^ 63` converts to the same number as an `int64`. -/
theorem int64_of_lt (x : Nat) (h : x < 2 ^ 63) : int64 x = x := by
  unfold int64
  have h0 : (0 : Int) ≤ x := Int.ofNat_nonneg x
  have h1 : ((x : Int) + 2 ^ 63) % 2 ^ 64 = x + 2 ^ 63 := by
    apply Int.emod_eq_of_lt <;> omega
  omega

/-- On gas limits below `2 ^ 63` the difference that `VerifyGaslimit` compares with the
limit is the exact absolute difference. -/
theorem VerifyGaslimit_diff (p h : Nat) (hp : p < 2 ^ 63) (hh : h < 2 ^ 63) :
    uint64 (if int64 (int64 p - int64 h) < 0 then int64 (int64 (int64 p - int64 h) * -1)
      else int64 (int64 p - int64 h)) = absDiff p h := by
  rw [int64_of_lt p hp, int64_of_lt h hh]
  have hd : int64 ((p : Int) - h) = (p : Int) - h := by
    unfold int64
    have : ((p : Int) - h + 2 ^ 63) % 2 ^ 64 = p - h + 2 ^ 63 := by
      apply Int.emod_eq_of_lt <;> omega
    omega
  rw [hd]
  unfold absDiff
  by_cases hle : p ≤ h
  · rw [if_pos hle]
    by_cases hlt : (p : Int) - h < 0
    · rw [if_pos hlt]
      have : int64 (((p : Int) - h) * -1) = (h : Int) - p := by
        unfold int64
        have e : ((p : Int) - h) * -1 = (h : Int) - p := by ring
        rw [e]
        have : ((h : Int) - p + 2 ^ 63) % 2 ^ 64 = (h : Int) - p + 2 ^ 63 := by
          apply Int.emod_eq_of_lt <;> omega
        omega
      rw [this]
      unfold uint64
      rw [Int.emod_eq_of_lt (by omega) (by omega)]
      omega
    · rw [if_neg hlt]
      unfold uint64
      rw [Int.emod_eq_of_lt (by omega) (by omega)]
      omega
  · rw [if_neg hle, if_neg (by omega)]
    unfold uint64
    rw [Int.emod_eq_of_lt (by omega) (by omega)]
    omega

/-- On gas limits below `2 ^ 63`, `VerifyGaslimit` returns nil exactly when the absolute
difference is below the parent limit divided by the bound divisor and the header limit
is at least the minimum. -/
theorem VerifyGaslimit_of_lt (p h : Nat) (hp : p < 2 ^ 63) (hh : h < 2 ^ 63) :
    VerifyGaslimit p h = none ↔
      absDiff p h < p / params.GasLimitBoundDivisor ∧ params.MinGasLimit ≤ h := by
  unfold VerifyGaslimit
  simp only [VerifyGaslimit_diff p h hp hh]
  by_cases h1 : absDiff p h ≥ p / params.GasLimitBoundDivisor
  · rw [if_pos h1]
    constructor
    · intro hc; cases hc
    · intro hc; omega
  · rw [if_neg h1]
    by_cases h2 : h < params.MinGasLimit
    · rw [if_pos h2]
      constructor
      · intro hc; cases hc
      · intro hc; omega
    · rw [if_neg h2]
      constructor
      · intro _; omega
      · intro _; rfl

/-- C28: the parent limit `2 ^ 64 - 1` with the header limit 5000.  The exact absolute
difference, `2 ^ 64 - 5001`, is not below the limit `(2 ^ 64 - 1) / 1024`, yet
`VerifyGaslimit` returns nil: the conversions to `int64` turn the difference into 5001.
With the parent limit 10000 and the header limit 9990 it returns the error that a
difference of 10 against the limit 9 calls for. -/
theorem VerifyGaslimit_wraps :
    VerifyGaslimit (2 ^ 64 - 1) 5000 = none ∧
      ¬ (absDiff (2 ^ 64 - 1) 5000 < (2 ^ 64 - 1) / params.GasLimitBoundDivisor) ∧
      int64 (int64 (2 ^ 64 - 1 : Nat) - int64 (5000 : Nat)) = -5001 ∧
      VerifyGaslimit 10000 9990 = some (.invalid 9990 10000 8) := by
  refine ⟨by decide, by decide, by decide, by decide⟩

end misc

namespace lru

/-- The total byte length of the values of a list of items. -/
theorem held_eq {K : Type} (c : SizeConstrainedCache K) :
    c.held = (c.lru.items.map fun it => it.2.length).sum := rfl

/-- Once an eviction is noted, the loop of `Add` returns it. -/
theorem evictLoop_true {K : Type} (maxSize : Nat) :
    ∀ (fuel t : Nat) (l : BasicLRU K), (evictLoop maxSize fuel t l true).2.2 = true := by
  intro fuel
  induction fuel with
  | zero => intro t l; rfl
  | succ fuel ih =>
    intro t l
    unfold evictLoop
    split_ifs with ht
    · cases hr : l.RemoveOldest with
      | mk l2 o =>
        cases o with
        | none => rfl
        | some it => exact ih _ _
    · rfl

/-- The loop of `Add` notes an eviction exactly when it is entered with a target size
above the maximum, whether or not there is an item to remove. -/
theorem evictLoop_flag {K : Type} (maxSize fuel t : Nat) (l : BasicLRU K) :
    (evictLoop maxSize (fuel + 1) t l false).2.2 = decide (t > maxSize) := by
  unfold evictLoop
  by_cases ht : t > maxSize
  · rw [if_pos ht]
    cases hr : l.RemoveOldest with
    | mk l2 o =>
      cases o with
      | none => simp [ht]
      | some it => simp only [evictLoop_true, ht, decide_True]
  · rw [if_neg ht]
    simp [ht]

/-- `RemoveOldest` on a cache that has items splits off the last one. -/
theorem RemoveOldest_some {K : Type} (l l2 : BasicLRU K) (it : K × ByteSeq)
    (h : l.RemoveOldest = (l2, some it)) :
    l.items = l2.items ++ [it] ∧ l2.cap = l.cap := by
  unfold BasicLRU.RemoveOldest at h
  cases hg : l.items.getLast? with
  | none => rw [hg] at h; cases h
  | some x =>
    rw [hg] at h
    simp only [Prod.mk.injEq, Option.some.injEq] at h
    obtain ⟨h1, h2⟩ := h
    subst h1 h2
    refine ⟨?_, rfl⟩
    simp only
    have hne : l.items ≠ [] := by
      intro hnil; rw [hnil] at hg; cases hg
    have := List.dropLast_append_getLast hne
    rw [List.getLast?_eq_getLast _ hne] at hg
    simp only [Option.some.injEq] at hg
    rw [hg] at this
    exact this.symm

/-- `RemoveOldest` finds nothing exactly on an empty cache, which it leaves alone. -/
theorem RemoveOldest_none {K : Type} (l l2 : BasicLRU K) (h : l.RemoveOldest = (l2, none)) :
    l.items = [] ∧ l2 = l := by
  unfold BasicLRU.RemoveOldest at h
  cases hg : l.items.getLast? with
  | none =>
    rw [hg] at h
    simp only [Prod.mk.injEq, and_true] at h
    exact ⟨List.getLast?_eq_none_iff.mp hg, h.symm⟩
  | some x => rw [hg] at h; simp at h

/-- The loop of `Add` with enough turns: the items left are a front part of the items,
the target size has fallen by the lengths of the items removed (when it covered the
lengths of all items and fits a `uint64`), and it ends below the maximum or on an empty
cache. -/
theorem evictLoop_spec {K : Type} (maxSize : Nat) :
    ∀ (fuel t : Nat) (l : BasicLRU K) (ev : Bool), l.items.length < fuel →
      ∃ removed, l.items = (evictLoop maxSize fuel t l ev).2.1.items ++ removed ∧
        (evictLoop maxSize fuel t l ev).2.1.cap = l.cap ∧
        ((evictLoop maxSize fuel t l ev).1 ≤ maxSize ∨
          (evictLoop maxSize fuel t l ev).2.1.items = []) ∧
        (t > maxSize → l.items ≠ [] → removed ≠ []) ∧
        (t ≤ maxSize → removed = []) ∧
        ((l.items.map fun it => it.2.length).sum ≤ t → t < 2 ^ 64 →
          (evictLoop maxSize fuel t l ev).1 + (removed.map fun it => it.2.length).sum = t) := by
  intro fuel
  induction fuel with
  | zero => intro t l ev h; omega
  | succ fuel ih =>
    intro t l ev hlen
    unfold evictLoop
    by_cases ht : t > maxSize
    · rw [if_pos ht]
      cases hr : l.RemoveOldest with
      | mk l2 o =>
        cases o with
        | none =>
          obtain ⟨h1, h2⟩ := RemoveOldest_none l l2 hr
          subst h2
          refine ⟨[], by simp, rfl, Or.inr h1, fun _ hne => absurd h1 hne, fun _ => rfl, ?_⟩
          intro _ _; simp
        | some it =>
          obtain ⟨h1, h2⟩ := RemoveOldest_some l l2 it hr
          have hlen2 : l2.items.length < fuel := by
            have := congrArg List.length h1
            simp only [List.length_append, List.length_singleton] at this
            omega
          obtain ⟨removed, p1, p2, p3, _, _, p6⟩ :=
            ih ((t + 2 ^ 64 - it.2.length % 2 ^ 64) % 2 ^ 64) l2 true hlen2
          refine ⟨removed ++ [it], ?_, ?_, p3, ?_, ?_, ?_⟩
          · rw [h1]
            simp only []
            rw [← List.append_assoc, ← p1]
          · simp only []; rw [p2, h2]
          · intro _ _; simp
          · intro hle; omega
          · intro hsum hlt
            rw [h1] at hsum
            simp only [List.map_append, List.sum_append, List.map_cons, List.map_nil,
              List.sum_cons, List.sum_nil, Nat.add_zero] at hsum ⊢
            have hv : it.2.length % 2 ^ 64 = it.2.length := Nat.mod_eq_of_lt (by omega)
            have ht2 : (t + 2 ^ 64 - it.2.length % 2 ^ 64) % 2 ^ 64 = t - it.2.length := by
              rw [hv]
              have : t + 2 ^ 64 - it.2.length = (t - it.2.length) + 2 ^ 64 := by omega
              rw [this, Nat.add_mod_right]
              exact Nat.mod_eq_of_lt (by omega)
            have := p6 (by rw [ht2]; omega) (by rw [ht2]; omega)
            simp only [] at this
            rw [ht2] at this
            omega
    · rw [if_neg ht]
      refine ⟨[], by simp, rfl, Or.inl (by simp only []; omega), fun h => absurd h ht,
        fun _ => rfl, ?_⟩
      intro _ _; simp

end lru

namespace lru

/-- A key is in the cache exactly when an item has it. -/
theorem Contains_iff {K : Type} [DecidableEq K] (c : BasicLRU K) (key : K) :
    c.Contains key = true ↔ ∃ it ∈ c.items, it.1 = key := by
  simp [BasicLRU.Contains]

/-- In a list of items with distinct keys, the value under a key counts once. -/
theorem sum_filter_key {K : Type} [DecidableEq K] (key : K) (value : ByteSeq) :
    ∀ items : List (K × ByteSeq), (items.map Prod.fst).Nodup → (key, value) ∈ items →
      (items.map fun it => it.2.length).sum
        = value.length
          + ((items.filter fun it => decide (it.1 ≠ key)).map fun it => it.2.length).sum := by
  intro items
  induction items with
  | nil => intro _ h; cases h
  | cons x xs ih =>
    intro hnd hmem
    simp only [List.map_cons, List.nodup_cons] at hnd
    obtain ⟨hx, hnd⟩ := hnd
    rcases List.mem_cons.mp hmem with heq | hin
    · subst heq
      have hf : (xs.filter fun it => decide (it.1 ≠ key)) = xs := by
        apply List.filter_eq_self.mpr
        intro a ha
        simp only [ne_eq, decide_not, Bool.not_eq_eq_eq_not, Bool.not_true, decide_eq_false_iff_not]
        intro hk
        exact hx (List.mem_map.mpr ⟨a, ha, hk⟩)
      simp only [List.filter_cons, ne_eq, not_true_eq_false, decide_False, List.map_cons,
        List.sum_cons]
      simp only [ne_eq] at hf
      rw [if_neg (by simp), hf]
    · have hne : x.1 ≠ key := by
        intro hk
        exact hx (List.mem_map.mpr ⟨(key, value), hin, hk.symm⟩)
      simp only [List.filter_cons, hne, ne_eq, not_false_eq_true, decide_True, if_true,
        List.map_cons, List.sum_cons]
      have := ih hnd hin
      simp only [ne_eq] at this
      omega

/-- One `Add` keeps the cache consistent: when the size field is the total length of the
values held, that total is within the maximum, the keys are distinct, the key comes with
the value it has in the cache if it is there, and the value fits the maximum, then the
same holds after the call, and every item held was held before or is the one added. -/
theorem Add_inv {K : Type} [DecidableEq K] (c : SizeConstrainedCache K) (key : K)
    (value : ByteSeq) (hmax : c.maxSize < 2 ^ 63) (hsize : c.size = c.held)
    (hheld : c.held ≤ c.maxSize) (hnd : (c.lru.items.map Prod.fst).Nodup)
    (hcap : c.lru.items.length < c.lru.cap) (hval : value.length ≤ c.maxSize)
    (hca : ∀ it ∈ c.lru.items, it.1 = key → it.2 = value) :
    (c.Add key value).1.size = (c.Add key value).1.held ∧
      (c.Add key value).1.held ≤ c.maxSize ∧
      ((c.Add key value).1.lru.items.map Prod.fst).Nodup ∧
      (c.Add key value).1.lru.items.length ≤ c.lru.items.length + 1 ∧
      (c.Add key value).1.lru.cap = c.lru.cap ∧
      (c.Add key value).1.maxSize = c.maxSize ∧
      (∀ it ∈ (c.Add key value).1.lru.items, it ∈ c.lru.items ∨ it = (key, value)) := by
  unfold SizeConstrainedCache.Add
  by_cases hc : c.lru.Contains key = true
  · rw [if_neg (by simp [hc])]
    simp only [BasicLRU.Add, hc, if_true, SizeConstrainedCache.held]
    obtain ⟨it, hit, hk⟩ := (Contains_iff c.lru key).mp hc
    have hv := hca it hit hk
    have hmem : (key, value) ∈ c.lru.items := by
      have : it = (key, value) := Prod.ext hk hv
      rw [← this]; exact hit
    have hsum := sum_filter_key key value c.lru.items hnd hmem
    simp only [SizeConstrainedCache.held] at hsize hheld
    refine ⟨?_, ?_, ?_, ?_, by first | rfl | trivial, by first | rfl | trivial, ?_⟩
    · simp only [List.map_cons, List.sum_cons]; omega
    · simp only [List.map_cons, List.sum_cons]; omega
    · simp only [List.map_cons, List.nodup_cons]
      refine ⟨?_, (hnd.sublist (List.Sublist.map _ (List.filter_sublist _)))⟩
      intro hin
      obtain ⟨a, ha, hak⟩ := List.mem_map.mp hin
      have := (List.mem_filter.mp ha).2
      simp only [ne_eq, decide_not, Bool.not_eq_eq_eq_not, Bool.not_true,
        decide_eq_false_iff_not] at this
      exact this hak
    · simp only [List.length_cons]
      have := List.length_filter_le (fun it : K × ByteSeq => decide (it.1 ≠ key)) c.lru.items
      omega
    · intro a ha
      rcases List.mem_cons.mp ha with h | h
      · exact Or.inr h
      · exact Or.inl (List.mem_filter.mp h).1
  · rw [if_pos (by simp [hc])]
    simp only [SizeConstrainedCache.held] at hsize hheld
    have hvl : value.length % 2 ^ 64 = value.length := Nat.mod_eq_of_lt (by omega)
    have ht : (c.size + value.length % 2 ^ 64) % 2 ^ 64 = c.size + value.length := by
      rw [hvl]; exact Nat.mod_eq_of_lt (by omega)
    rw [ht]
    have hspec := evictLoop_spec c.maxSize
      (c.lru.items.length + 1) (c.size + value.length) c.lru false (Nat.lt_succ_self _)
    simp only []
    cases hres : evictLoop c.maxSize (c.lru.items.length + 1) (c.size + value.length) c.lru
      false with
    | mk t rest =>
    obtain ⟨l, ev⟩ := rest
    rw [hres] at hspec
    obtain ⟨removed, p1, p2, p3, _, _, p6⟩ := hspec
    simp only [] at p1 p2 p3 p6 ⊢
    have hsum := p6 (by omega) (by omega)
    have hitems := congrArg (fun xs : List (K × ByteSeq) => (xs.map fun it => it.2.length).sum) p1
    simp only [List.map_append, List.sum_append] at hitems
    have hlen := congrArg List.length p1
    simp only [List.length_append] at hlen
    have hcl : l.Contains key = false := by
      cases hlc : l.Contains key with
      | false => rfl
      | true =>
        obtain ⟨it, hit, hk⟩ := (Contains_iff l key).mp hlc
        exact absurd ((Contains_iff c.lru key).mpr
          ⟨it, by rw [p1]; exact List.mem_append_left _ hit, hk⟩) hc
    have hfull : ¬ l.items.length ≥ l.cap := by omega
    simp only [BasicLRU.Add, hcl, Bool.false_eq_true, if_false, hfull, SizeConstrainedCache.held,
      List.map_cons, List.sum_cons, List.length_cons, List.nodup_cons]
    have htl : t = value.length + (l.items.map fun it => it.2.length).sum := by omega
    refine ⟨htl, ?_, ⟨?_, ?_⟩, by omega, p2, by first | rfl | trivial, ?_⟩
    · rcases p3 with h | h
      · omega
      · rw [h]; simp only [List.map_nil, List.sum_nil]; omega
    · intro hin
      obtain ⟨a, ha, hak⟩ := List.mem_map.mp hin
      have : c.lru.Contains key = true :=
        (Contains_iff c.lru key).mpr ⟨a, by rw [p1]; exact List.mem_append_left _ ha, hak⟩
      exact hc this
    · rw [p1, List.map_append] at hnd
      exact (List.nodup_append.mp hnd).1
    · intro a ha
      rcases List.mem_cons.mp ha with h | h
      · exact Or.inr h
      · exact Or.inl (by rw [p1]; exact List.mem_append_left _ h)

/-- A new cache and a cache after one more `Add`. -/
theorem run_append {K : Type} [DecidableEq K] (maxSize : Nat) (adds : List (K × ByteSeq))
    (a : K × ByteSeq) : run maxSize (adds ++ [a]) = ((run maxSize adds).Add a.1 a.2).1 := by
  simp [run, List.foldl_append]

/-- The cache stays consistent over a sequence of `Add` calls in which a key always
comes with the same value and no value is longer than the maximum. -/
theorem run_inv {K : Type} [DecidableEq K] (maxSize : Nat) (hmax : maxSize < 2 ^ 63) :
    ∀ adds : List (K × ByteSeq), adds.length < MaxInt →
      (∀ a ∈ adds, a.2.length ≤ maxSize) →
      (∀ a ∈ adds, ∀ b ∈ adds, a.1 = b.1 → a.2 = b.2) →
      (run maxSize adds).size = (run maxSize adds).held ∧
        (run maxSize adds).held ≤ maxSize ∧
        ((run maxSize adds).lru.items.map Prod.fst).Nodup ∧
        (run maxSize adds).lru.items.length ≤ adds.length ∧
        (run maxSize adds).lru.cap = MaxInt ∧
        (run maxSize adds).maxSize = maxSize ∧
        (∀ it ∈ (run maxSize adds).lru.items, it ∈ adds) := by
  intro adds
  induction adds using List.reverseRecOn with
  | nil =>
    intro _ _ _
    refine ⟨rfl, Nat.zero_le _, List.nodup_nil, Nat.le_refl _, ?_, rfl, ?_⟩
    · simp [run, NewSizeConstrainedCache, NewBasicLRU, MaxInt]
    · intro it hit; cases hit
  | append_singleton adds a ih =>
    intro hcount hval hca
    simp only [List.length_append, List.length_singleton] at hcount
    obtain ⟨i1, i2, i3, i4, i5, i6, i7⟩ := ih (by omega)
      (fun x hx => hval x (List.mem_append_left _ hx))
      (fun x hx y hy => hca x (List.mem_append_left _ hx) y (List.mem_append_left _ hy))
    rw [run_append]
    have hstep := Add_inv (run maxSize adds) a.1 a.2 (by rw [i6]; exact hmax) i1
      (by rw [i6]; exact i2) i3 (by rw [i5]; omega)
      (by rw [i6]; exact hval a (List.mem_append_right _ (List.mem_singleton.mpr rfl)))
      (fun it hit hk => hca it (List.mem_append_left _ (i7 it hit)) a
        (List.mem_append_right _ (List.mem_singleton.mpr rfl)) hk)
    obtain ⟨s1, s2, s3, s4, s5, s6, s7⟩ := hstep
    refine ⟨s1, by rw [i6] at s2; exact s2, s3, ?_, by rw [s5, i5], by rw [s6, i6], ?_⟩
    · simp only [List.length_append, List.length_singleton]; omega
    · intro it hit
      rcases s7 it hit with h | h
      · exact List.mem_append_left _ (i7 it h)
      · rw [h]; exact List.mem_append_right _ (List.mem_singleton.mpr rfl)

end lru

namespace lru

/-- C29 (as stated, refuted): on a new cache with a maximum of 10 bytes, one `Add` of a
value of 11 bytes leaves 11 bytes held; and the calls `Add(1, six bytes)`,
`Add(2, one byte)`, `Add(2, six bytes)`, none with a value above the maximum but the key
2 with two values, leave 12 bytes held. -/
theorem Add_size_bounded_counterexample :
    (run 10 [((1 : Nat), List.replicate 11 (0 : Byte))]).held = 11 ∧
      ¬ (run 10 [((1 : Nat), List.replicate 11 (0 : Byte))]).held ≤ 10 ∧
      (run 10 [((1 : Nat), List.replicate 6 (0 : Byte)), (2, [0]),
        (2, List.replicate 6 0)]).held = 12 ∧
      ¬ (run 10 [((1 : Nat), List.replicate 6 (0 : Byte)), (2, [0]),
        (2, List.replicate 6 0)]).held ≤ 10 := by
  refine ⟨by decide, by decide, by decide, by decide⟩

/-- C29 (amended): for every cache made by `NewSizeConstrainedCache(maxSize)` and every
sequence of `Add` calls in which a key always comes with the same value and no value is
longer than `maxSize`, after each `Add` the total byte length of the values held is at
most `maxSize`, and it is what the field `size` says.  (`maxSize` below `2 ^ 63` and fewer
than `math.MaxInt` calls keep the `uint64` sums and the item count from running over.) -/
theorem Add_size_bounded {K : Type} [DecidableEq K] (maxSize : Nat)
    (adds : List (K × ByteSeq)) (hmax : maxSize < 2 ^ 63) (hcount : adds.length < MaxInt)
    (hval : ∀ a ∈ adds, a.2.length ≤ maxSize)
    (hca : ∀ a ∈ adds, ∀ b ∈ adds, a.1 = b.1 → a.2 = b.2) (n : Nat) :
    (run maxSize (adds.take n)).held ≤ maxSize ∧
      (run maxSize (adds.take n)).size = (run maxSize (adds.take n)).held := by
  have h := run_inv maxSize hmax (adds.take n)
    (Nat.lt_of_le_of_lt (by rw [List.length_take]; exact Nat.min_le_right _ _) hcount)
    (fun a ha => hval a (List.mem_of_mem_take ha))
    (fun a ha b hb => hca a (List.mem_of_mem_take ha) b (List.mem_of_mem_take hb))
  exact ⟨h.2.1, h.1⟩

/-- Three values of four bytes into a cache of ten: the oldest is evicted and eight
bytes are held. -/
theorem Add_size_bounded_witness :
    (run 10 [((1 : Nat), List.replicate 4 (0 : Byte)), (2, List.replicate 4 0),
        (3, List.replicate 4 0)]).held = 8 ∧
      (run 10 ([((1 : Nat), List.replicate 4 (0 : Byte)), (2, List.replicate 4 0),
        (3, List.replicate 4 0)].take 3)).held ≤ 10 :=
  ⟨by decide, (Add_size_bounded 10 [((1 : Nat), List.replicate 4 (0 : Byte)),
    (2, List.replicate 4 0), (3, List.replicate 4 0)] (by norm_num) (by norm_num [MaxInt])
    (by decide) (by decide) 3).1⟩

/-- `Add` returns true exactly when the key is new and the size with the value, as a
`uint64`, exceeds the maximum; whether an item was there to remove plays no part. -/
theorem Add_flag {K : Type} [DecidableEq K] (c : SizeConstrainedCache K) (key : K)
    (value : ByteSeq) :
    (c.Add key value).2
      = (!c.lru.Contains key && decide ((c.size + value.length % 2 ^ 64) % 2 ^ 64 > c.maxSize)) := by
  unfold SizeConstrainedCache.Add
  by_cases hc : c.lru.Contains key = true
  · rw [if_neg (by simp [hc])]
    simp [hc]
  · rw [if_pos (by simp [hc])]
    simp only [evictLoop_flag]
    simp [hc]

/-- Adding a key that is present returns false and leaves the same keys in the cache. -/
theorem Add_present {K : Type} [DecidableEq K] (c : SizeConstrainedCache K) (key : K)
    (value : ByteSeq) (hc : c.lru.Contains key = true) :
    (c.Add key value).2 = false ∧
      ∀ k, (c.Add key value).1.lru.Contains k = c.lru.Contains k := by
  refine ⟨by rw [Add_flag]; simp [hc], ?_⟩
  intro k
  unfold SizeConstrainedCache.Add
  rw [if_neg (by simp [hc])]
  simp only [BasicLRU.Add, hc, if_true]
  by_cases hk : k = key
  · subst hk
    rw [hc]
    simp [BasicLRU.Contains]
  · have h1 : ∀ it : K × ByteSeq, it.1 = k → it.1 ≠ key := by
      intro it h; rw [h]; exact hk
    simp only [BasicLRU.Contains, List.any_cons, List.any_filter]
    have : decide (key = k) = false := by simp; exact fun h => hk h.symm
    rw [this, Bool.false_or]
    congr 1
    funext it
    by_cases hi : it.1 = k
    · simp [hi, hk]
    · simp [hi]

/-- C30: a new cache with a maximum of 10 bytes holds no item, and `Add` of a value of 11
bytes under a new key returns true: the loop notes the eviction before it finds that
there is nothing to remove.  The call removed no item, and the cache then holds the
value alone. -/
theorem Add_true_without_eviction :
    (NewSizeConstrainedCache 10 : SizeConstrainedCache Nat).lru.items = [] ∧
      ((NewSizeConstrainedCache 10 : SizeConstrainedCache Nat).Add 1
        (List.replicate 11 0)).2 = true ∧
      ((NewSizeConstrainedCache 10 : SizeConstrainedCache Nat).Add 1
        (List.replicate 11 0)).1.lru.items = [(1, List.replicate 11 0)] := by
  refine ⟨by decide, by decide, by decide⟩

end lru

namespace enr

/-- The key at an index in range is the key of the pair there. -/
theorem keyAt_getElem (pairs : List pair) (j : Nat) (hj : j < pairs.length) :
    keyAt pairs j = pairs[j].k := by
  simp [keyAt, List.get?_eq_getElem?, List.getElem?_eq_getElem hj]

/-- A filter that holds below an index and fails from it on keeps the front part. -/
theorem filter_eq_take (pairs : List pair) (P : pair → Bool) (i : Nat)
    (hlo : ∀ j (hj : j < pairs.length), j < i → P pairs[j] = true)
    (hhi : ∀ j (hj : j < pairs.length), i ≤ j → P pairs[j] = false) :
    pairs.filter P = pairs.take i := by
  conv_lhs => rw [← List.take_append_drop i pairs]
  rw [List.filter_append]
  have h1 : (pairs.take i).filter P = pairs.take i := by
    apply List.filter_eq_self.mpr
    intro a ha
    obtain ⟨j, hm, hja⟩ := List.mem_take_iff_getElem.mp ha
    have hj : j < pairs.length := by omega
    rw [← hja]
    exact hlo j hj (by omega)
  have h2 : (pairs.drop i).filter P = [] := by
    apply List.filter_eq_nil_iff.mpr
    intro a ha
    obtain ⟨j, hm, hja⟩ := List.mem_drop_iff_getElem.mp ha
    rw [← hja, hhi (i + j) (by omega) (by omega)]
    simp
  rw [h1, h2, List.append_nil]

/-- A filter that fails below an index and holds from it on keeps the back part. -/
theorem filter_eq_drop (pairs : List pair) (P : pair → Bool) (i : Nat)
    (hlo : ∀ j (hj : j < pairs.length), j < i → P pairs[j] = false)
    (hhi : ∀ j (hj : j < pairs.length), i ≤ j → P pairs[j] = true) :
    pairs.filter P = pairs.drop i := by
  conv_lhs => rw [← List.take_append_drop i pairs]
  rw [List.filter_append]
  have h1 : (pairs.take i).filter P = [] := by
    apply List.filter_eq_nil_iff.mpr
    intro a ha
    obtain ⟨j, hm, hja⟩ := List.mem_take_iff_getElem.mp ha
    have hj : j < pairs.length := by omega
    rw [← hja, hlo j hj (by omega)]
    simp
  have h2 : (pairs.drop i).filter P = pairs.drop i := by
    apply List.filter_eq_self.mpr
    intro a ha
    obtain ⟨j, hm, hja⟩ := List.mem_drop_iff_getElem.mp ha
    rw [← hja]
    exact hhi (i + j) (by omega) (by omega)
  rw [h1, h2, List.nil_append]

/-- What `Set` does to the pairs of a record with ascending pairs, at the index `i` that
the search returns: with the key at `i` it replaces the value there, and the pairs before
`i` are those with a smaller key and the pairs after `i` those with a greater key; without
it the pair is put in before `i`, and the pairs before `i` are those with a smaller key
and the pairs from `i` on those with a greater key. -/
theorem Set_pairs_cases (r : Record) (e : Entry) (blob : ByteSeq) (ha : Ascending r.pairs)
    (h : e.EncodeToBytes = .ok blob) :
    ∃ i, i ≤ r.pairs.length ∧
      r.pairs.filter (fun q => decide (q.k < e.ENRKey)) = r.pairs.take i ∧
      (((∃ p ∈ r.pairs, p.k = e.ENRKey) ∧ i < r.pairs.length ∧
          r.pairs.filter (fun q => decide (e.ENRKey < q.k)) = r.pairs.drop (i + 1) ∧
          (r.Set e).1.pairs = r.pairs.take i ++ [⟨e.ENRKey, blob⟩] ++ r.pairs.drop (i + 1)) ∨
        ((∀ p ∈ r.pairs, p.k ≠ e.ENRKey) ∧
          r.pairs.filter (fun q => decide (e.ENRKey < q.k)) = r.pairs.drop i ∧
          (r.Set e).1.pairs = r.pairs.take i ++ [⟨e.ENRKey, blob⟩] ++ r.pairs.drop i)) := by
  obtain ⟨h1, h2, h3⟩ := search_pairs r.pairs e.ENRKey ha
  generalize hi : sort.Search r.pairs.length (fun i => decide (keyAt r.pairs i ≥ e.ENRKey)) = i
    at h1 h2 h3
  have hmono : ∀ a b (hb : b < r.pairs.length), a < b →
      keyAt r.pairs a < keyAt r.pairs b := by
    intro a b hb hab
    have hbk : b < (keys r.pairs).length := by rw [keys_length]; exact hb
    have := (List.pairwise_iff_getElem.mp ha) a b (by omega) hbk hab
    rw [keyAt_eq r.pairs a (by omega), keyAt_eq r.pairs b hbk]
    exact this
  have hlt : r.pairs.filter (fun q => decide (q.k < e.ENRKey)) = r.pairs.take i := by
    apply filter_eq_take
    · intro j hj hji
      have := h2 j hji
      rw [keyAt_getElem r.pairs j hj] at this
      simpa using this
    · intro j hj hji
      have := h3 j hji hj
      rw [keyAt_getElem r.pairs j hj] at this
      simpa using this
  refine ⟨i, h1, hlt, ?_⟩
  by_cases hit : i < r.pairs.length ∧ keyAt r.pairs i = e.ENRKey
  · left
    obtain ⟨hil, hik⟩ := hit
    refine ⟨⟨r.pairs[i], List.getElem_mem _, by rw [← keyAt_getElem r.pairs i hil]; exact hik⟩,
      hil, ?_, ?_⟩
    · apply filter_eq_drop
      · intro j hj hji
        have : keyAt r.pairs j ≤ e.ENRKey := by
          rcases Nat.eq_or_lt_of_le (Nat.le_of_lt_succ hji) with heq | hlt2
          · rw [heq, hik]
          · exact le_of_lt (h2 j hlt2)
        rw [keyAt_getElem r.pairs j hj] at this
        simpa using this
      · intro j hj hji
        have := hmono i j hj (by omega)
        rw [hik, keyAt_getElem r.pairs j hj] at this
        simpa using this
    · unfold Record.Set
      rw [h]
      simp only [invalidate_pairs, hi]
      rw [if_pos ⟨hil, hik⟩]
      simp only [hik]
      rw [List.set_eq_take_append_cons_drop, if_pos hil]
      simp
  · right
    have hgt : ∀ j, i ≤ j → j < r.pairs.length → e.ENRKey < keyAt r.pairs j := by
      intro j hij hj
      have hil : i < r.pairs.length := by omega
      have hne : keyAt r.pairs i ≠ e.ENRKey := fun heq => hit ⟨hil, heq⟩
      have hgi := lt_of_le_of_ne (h3 i (Nat.le_refl _) hil) (Ne.symm hne)
      rcases Nat.eq_or_lt_of_le hij with heq | hlt2
      · rw [← heq]; exact hgi
      · exact lt_trans hgi (hmono i j hj hlt2)
    refine ⟨?_, ?_, ?_⟩
    · intro p hp hpk
      obtain ⟨j, hj, hjp⟩ := List.getElem_of_mem hp
      have hkj : keyAt r.pairs j = e.ENRKey := by
        rw [keyAt_getElem r.pairs j hj, hjp, hpk]
      rcases Nat.lt_or_ge j i with hlo | hhi
      · have := h2 j hlo
        rw [hkj] at this
        exact lt_irrefl _ this
      · have := hgt j hhi hj
        rw [hkj] at this
        exact lt_irrefl _ this
    · apply filter_eq_drop
      · intro j hj hji
        have := h2 j hji
        rw [keyAt_getElem r.pairs j hj] at this
        simpa using le_of_lt this
      · intro j hj hji
        have := hgt j hji hj
        rw [keyAt_getElem r.pairs j hj] at this
        simpa using this
    · unfold Record.Set
      rw [h]
      simp only [invalidate_pairs, hi]
      rw [if_neg hit]
      by_cases hil : i < r.pairs.length
      · rw [if_pos hil]
      · rw [if_neg hil]
        have : i = r.pairs.length := by omega
        rw [this]
        simp

/-- The pairs with another key than `key`, in a list with ascending keys, are those with a
smaller key followed by those with a greater key. -/
theorem filter_ne_key (key : GoString) :
    ∀ pairs : List pair, Ascending pairs →
      pairs.filter (fun q => decide (q.k ≠ key))
        = pairs.filter (fun q => decide (q.k < key)) ++ pairs.filter (fun q => decide (key < q.k)) := by
  intro pairs
  induction pairs with
  | nil => intro _; rfl
  | cons x xs ih =>
    intro ha
    unfold Ascending at ha
    simp only [keys, List.map_cons, List.pairwise_cons] at ha
    obtain ⟨hx, hxs⟩ := ha
    have ih := ih hxs
    rcases lt_trichotomy x.k key with hlt | heq | hgt
    · simp only [List.filter_cons, hlt, ne_of_lt hlt, ne_eq, not_false_eq_true, decide_True,
        if_true, not_lt_of_lt hlt, decide_False, Bool.false_eq_true, if_false, List.cons_append]
      simp only [ne_eq] at ih
      rw [ih]
    · simp only [List.filter_cons, heq, ne_eq, not_true_eq_false, decide_False,
        Bool.false_eq_true, if_false, lt_irrefl]
      simp only [ne_eq] at ih
      exact ih
    · have hnil : xs.filter (fun q => decide (q.k < key)) = [] := by
        apply List.filter_eq_nil_iff.mpr
        intro a ha2
        have := hx a.k (List.mem_map.mpr ⟨a, ha2, rfl⟩)
        simp only [decide_eq_true_eq, not_lt]
        exact le_of_lt (lt_trans hgt this)
      simp only [List.filter_cons, ne_of_gt hgt, ne_eq, not_false_eq_true, decide_True, if_true,
        not_lt_of_lt hgt, decide_False, Bool.false_eq_true, if_false, hgt]
      simp only [ne_eq] at ih
      rw [ih, hnil]
      rfl

/-- C21: `Set` is insert-or-replace at the sorted position.  On a record with strictly
ascending pairs and an entry that encodes to `blob` under the key `k`, the pairs after
`Set` are the pairs with a smaller key, then `(k, blob)`, then the pairs with a greater
key; they are strictly ascending; the pairs with another key are the same, in the same
order, as before; and the number of pairs grows by one when `k` was absent and stays
when `k` was present. -/
theorem Set_insert_or_replace (r : Record) (e : Entry) (blob : ByteSeq)
    (ha : Ascending r.pairs) (h : e.EncodeToBytes = .ok blob) :
    (r.Set e).2 = .value () ∧
      (r.Set e).1.pairs = insertOrReplace r.pairs ⟨e.ENRKey, blob⟩ ∧
      Ascending (r.Set e).1.pairs ∧
      (r.Set e).1.pairs.filter (fun q => decide (q.k ≠ e.ENRKey))
        = r.pairs.filter (fun q => decide (q.k ≠ e.ENRKey)) ∧
      ((r.Set e).1.pairs.filter (fun q => decide (q.k = e.ENRKey))) = [⟨e.ENRKey, blob⟩] ∧
      ((∀ p ∈ r.pairs, p.k ≠ e.ENRKey) → (r.Set e).1.pairs.length = r.pairs.length + 1) ∧
      ((∃ p ∈ r.pairs, p.k = e.ENRKey) → (r.Set e).1.pairs.length = r.pairs.length) := by
  have hasc := Set_Ascending r e ha
  obtain ⟨i, hil, hlt, hcase⟩ := Set_pairs_cases r e blob ha h
  have hshape : (r.Set e).1.pairs = insertOrReplace r.pairs ⟨e.ENRKey, blob⟩ := by
    unfold insertOrReplace
    rcases hcase with ⟨_, _, hgt, hset⟩ | ⟨_, hgt, hset⟩
    · rw [hset]; simp only [hlt, hgt]
    · rw [hset]; simp only [hlt, hgt]
  have hne : (r.Set e).1.pairs.filter (fun q => decide (q.k ≠ e.ENRKey))
      = r.pairs.filter (fun q => decide (q.k ≠ e.ENRKey)) := by
    rw [filter_ne_key e.ENRKey _ hasc, filter_ne_key e.ENRKey _ ha, hshape]
    unfold insertOrReplace
    simp only [List.filter_append, List.filter_filter, List.filter_cons, List.filter_nil,
      lt_irrefl, decide_False, Bool.false_eq_true, if_false, List.append_nil]
    have e1 : (r.pairs.filter fun q => decide (q.k < e.ENRKey) && decide (e.ENRKey < q.k)) = [] := by
      apply List.filter_eq_nil_iff.mpr
      intro a _
      simp only [Bool.and_eq_true, decide_eq_true_eq, not_and, not_lt]
      intro h1; exact le_of_lt h1
    have e2 : (r.pairs.filter fun q => decide (e.ENRKey < q.k) && decide (q.k < e.ENRKey)) = [] := by
      apply List.filter_eq_nil_iff.mpr
      intro a _
      simp only [Bool.and_eq_true, decide_eq_true_eq, not_and, not_lt]
      intro h1; exact le_of_lt h1
    simp only [Bool.and_self, e1, e2, List.append_nil, List.nil_append]
  refine ⟨(Set_frame r e blob h).1, hshape, hasc, hne, ?_, ?_, ?_⟩
  · rw [hshape]
    unfold insertOrReplace
    simp only [List.filter_append, List.filter_filter, List.filter_cons, List.filter_nil,
      decide_True, if_true]
    have e1 : (r.pairs.filter fun q => decide (q.k = e.ENRKey) && decide (q.k < e.ENRKey)) = [] := by
      apply List.filter_eq_nil_iff.mpr
      intro a _
      simp only [Bool.and_eq_true, decide_eq_true_eq, not_and, not_lt]
      intro h1; rw [h1]
    have e2 : (r.pairs.filter fun q => decide (q.k = e.ENRKey) && decide (e.ENRKey < q.k)) = [] := by
      apply List.filter_eq_nil_iff.mpr
      intro a _
      simp only [Bool.and_eq_true, decide_eq_true_eq, not_and, not_lt]
      intro h1; rw [h1]
    rw [e1, e2]
    rfl
  · intro habs
    rcases hcase with ⟨⟨p, hp, hpk⟩, _⟩ | ⟨_, _, hset⟩
    · exact absurd hpk (habs p hp)
    · rw [hset]
      have := congrArg List.length (List.take_append_drop i r.pairs)
      simp only [List.length_append, List.length_singleton] at this ⊢
      omega
  · intro hex
    rcases hcase with ⟨_, hi2, _, hset⟩ | ⟨habs, _⟩
    · rw [hset]
      simp only [List.length_append, List.length_singleton, List.length_take, List.length_drop]
      omega
    · obtain ⟨p, hp, hpk⟩ := hex
      exact absurd hpk (habs p hp)

/-- On the record signed with "S1" that holds "ip": `Set` of "udp" inserts after "ip",
and a second `Set` of "ip" replaces the value in place. -/
theorem Set_insert_or_replace_witness :
    (signedIp.Set udpEntry).1.pairs
        = [⟨[0x69, 0x70], [0x84, 127, 0, 0, 1]⟩, ⟨[0x75, 0x64, 0x70], [0x82, 0x76, 0x5f]⟩] ∧
      (signedIp.Set udpEntry).1.pairs
        = insertOrReplace signedIp.pairs ⟨[0x75, 0x64, 0x70], [0x82, 0x76, 0x5f]⟩ ∧
      ((signedIp.Set udpEntry).1.Set ip4Entry).1.pairs
        = [⟨[0x69, 0x70], [0x84, 0, 0, 0, 0]⟩, ⟨[0x75, 0x64, 0x70], [0x82, 0x76, 0x5f]⟩] :=
  ⟨by decide,
    (Set_insert_or_replace signedIp udpEntry [0x82, 0x76, 0x5f]
      (Reachable.SetSig _ _ _ (Reachable.Set _ ipEntry Reachable.zero)).ascending rfl).2.1,
    by decide⟩

end enr

namespace rlp

/-- The header that `puthead` writes has the length that `headsize` computes. -/
theorem puthead_length (a b size : Nat) : (puthead a b size).length = headsize size := by
  unfold puthead headsize
  split_ifs
  · rfl
  · simp only [List.length_cons, putint, bigEndian_length]; omega

/-- `IntSize` is the length of the encoding of a `uint64`. -/
theorem writeUint64_length (i : Nat) : (writeUint64 i).length = IntSize i := by
  unfold writeUint64 IntSize
  by_cases h0 : i = 0
  · subst h0; simp
  · rw [if_neg h0]
    by_cases h1 : i < 128
    · rw [if_pos h1, if_pos (by omega)]; rfl
    · rw [if_neg h1, if_neg (by omega)]
      simp [putint, bigEndian_length, Nat.add_comm]

/-- `BytesSize` is the length of the encoding of a byte string. -/
theorem writeBytes_BytesSize (b : ByteSeq) : (writeBytes b).length = BytesSize b := by
  match b with
  | [] => simp [writeBytes, BytesSize, puthead_length, headsize]
  | [x] =>
    simp only [writeBytes, BytesSize]
    split_ifs
    · rfl
    · simp [puthead_length, headsize]
  | x :: y :: rest => simp [writeBytes, BytesSize, puthead_length]

end rlp

namespace enr

/-- The loop of `computeSize` adds up the sizes of the keys and the lengths of the
values. -/
theorem computeSize_foldl (pairs : List pair) (size : Nat) :
    pairs.foldl (fun size p => size + rlp.StringSize p.k + p.v.length) size
      = size + (pairs.map fun p => rlp.StringSize p.k + p.v.length).sum := by
  induction pairs generalizing size with
  | nil => rfl
  | cons p ps ih =>
    simp only [List.foldl_cons, List.map_cons, List.sum_cons]
    rw [ih]
    omega

/-- The content of the canonical encoding of the pairs has the length that the loop of
`computeSize` adds up. -/
theorem flatMap_pairs_size (pairs : List pair) :
    (pairs.flatMap fun p => rlp.writeBytes p.k ++ p.v).length
      = (pairs.map fun p => rlp.StringSize p.k + p.v.length).sum := by
  induction pairs with
  | nil => rfl
  | cons p ps ih =>
    simp only [List.flatMap_cons, List.length_append, List.map_cons, List.sum_cons, ih,
      rlp.writeBytes_BytesSize, rlp.StringSize]

/-- `computeSize` is the length of the canonical encoding of the fields of the record. -/
theorem computeSize_eq (r : Record) :
    computeSize r = (canonicalEncoding r.signature r.seq r.pairs).length ∧
      computeSize r = rlp.ListSize (rlp.IntSize r.seq + rlp.BytesSize (r.signature.getD [])
        + (r.pairs.map fun p => rlp.StringSize p.k + p.v.length).sum) := by
  have h2 : computeSize r = rlp.ListSize (rlp.IntSize r.seq + rlp.BytesSize (r.signature.getD [])
      + (r.pairs.map fun p => rlp.StringSize p.k + p.v.length).sum) := by
    simp only [computeSize, computeSize_foldl]
  refine ⟨?_, h2⟩
  rw [h2]
  simp only [canonicalEncoding, rlp.ListSize, List.length_append, rlp.puthead_length,
    rlp.writeBytes_BytesSize, rlp.writeUint64_length, flatMap_pairs_size]
  have : rlp.BytesSize (r.signature.getD []) + rlp.IntSize r.seq
      = rlp.IntSize r.seq + rlp.BytesSize (r.signature.getD []) := Nat.add_comm _ _
  rw [this]

/-- C22: when the codec cannot encode the entry, `Set` panics, and the sequence number,
the signature, the cached encoding and the pairs of the record are as before the call: a
signed record stays signed at the same sequence number. -/
theorem Set_panics_atomic (r : Record) (e : Entry) (err : Error)
    (h : e.EncodeToBytes = .error err) :
    (r.Set e).2 = .panic ∧ (r.Set e).1 = r ∧ (r.Set e).1.seq = r.seq ∧
      (r.Set e).1.signature = r.signature ∧ (r.Set e).1.raw = r.raw ∧
      (r.Set e).1.pairs = r.pairs ∧ (r.Set e).1.Signature = r.Signature ∧
      (r.Set e).1.Seq = r.Seq := by
  have hs : r.Set e = (r, .panic) := by
    unfold Record.Set
    rw [h]
  rw [hs]
  exact ⟨rfl, rfl, rfl, rfl, rfl, rfl, rfl, rfl⟩

/-- The record signed with "S1" stays as it is when `Set` is given an entry that cannot
be encoded. -/
theorem Set_panics_atomic_witness :
    badEntry.EncodeToBytes = .error (.other 1) ∧ (signedIp.Set badEntry).2 = .panic ∧
      (signedIp.Set badEntry).1 = signedIp ∧ signedIp.signature = some [0x53, 0x31] :=
  ⟨rfl, (Set_panics_atomic signedIp badEntry (.other 1) rfl).1,
    (Set_panics_atomic signedIp badEntry (.other 1) rfl).2.1, by decide⟩

/-- C23: `Signature()` returns nil if and only if the record is unsigned, and otherwise a
byte sequence of the length and with the content of the stored signature.  It is a
function of the record: the call assigns no field. -/
theorem Signature_spec (r : Record) :
    (r.Signature = none ↔ r.signature = none) ∧
      (∀ sig, r.signature = some sig →
        ∃ cpy, r.Signature = some cpy ∧ cpy.length = sig.length ∧ cpy = sig) ∧
      r.Signature = r.signature := by
  cases hs : r.signature with
  | none => simp [Record.Signature, hs]
  | some sig => simp [Record.Signature, hs]

/-- The record signed with "S1" returns "S1"; the zero record returns nil. -/
theorem Signature_spec_witness :
    signedIp.Signature = some [0x53, 0x31] ∧ Record.zero.Signature = none :=
  ⟨by
    obtain ⟨cpy, h1, _, h3⟩ := (Signature_spec signedIp).2.1 [0x53, 0x31] (by decide)
    rw [h1, h3],
   (Signature_spec Record.zero).1.mpr rfl⟩

/-- The name of the identity scheme of a record without an "id" entry is the empty
string. -/
theorem IdentityScheme_absent (r : Record) (h : ∀ p ∈ r.pairs, p.k ≠ ID.ENRKey) :
    r.IdentityScheme = [] := by
  unfold Record.IdentityScheme Record.LoadID
  simp only
  split_ifs with hc
  · exfalso
    obtain ⟨hi, hk⟩ := hc
    rw [keyAt_getElem r.pairs _ hi] at hk
    exact h _ (List.getElem_mem _) hk
  · rfl

/-- C24: the registry is asymmetric on a name it does not know.  When the name that the
record declares (`IdentityScheme()`, the empty string for a record without an "id" entry)
has no scheme in the map, `Verify` returns `ErrInvalidSig` for every signature and
`NodeAddr` returns nil; when the name has a scheme, both return what that scheme
returns. -/
theorem SchemeMap_asymmetry (m : SchemeMap) (r : Record) :
    (m r.IdentityScheme = none →
        (∀ sig, m.Verify r sig = some .ErrInvalidSig) ∧ m.NodeAddr r = none) ∧
      (∀ s, m r.IdentityScheme = some s →
        (∀ sig, m.Verify r sig = s.Verify r sig) ∧ m.NodeAddr r = s.NodeAddr r) ∧
      ((∀ p ∈ r.pairs, p.k ≠ ID.ENRKey) → r.IdentityScheme = []) := by
  refine ⟨fun h => ?_, fun s h => ?_, IdentityScheme_absent r⟩
  · simp [SchemeMap.Verify, SchemeMap.NodeAddr, h]
  · simp [SchemeMap.Verify, SchemeMap.NodeAddr, h]

/-- A registry that knows "v4" only: the record without an "id" entry declares the empty
name, fails to verify and has no address; with the entry "id" = "v4" the scheme decides. -/
theorem SchemeMap_asymmetry_witness :
    signedIp.IdentityScheme = [] ∧
      v4Only.Verify signedIp (some [0x53, 0x31]) = some .ErrInvalidSig ∧
      v4Only.NodeAddr signedIp = none ∧
      (signedIp.Set idEntry).1.IdentityScheme = [0x76, 0x34] ∧
      v4Only.Verify (signedIp.Set idEntry).1 (some [0x53, 0x31]) = none ∧
      v4Only.NodeAddr (signedIp.Set idEntry).1 = some [0x41] :=
  ⟨(SchemeMap_asymmetry v4Only signedIp).2.2 (by decide),
    ((SchemeMap_asymmetry v4Only signedIp).1 rfl).1 _,
    ((SchemeMap_asymmetry v4Only signedIp).1 rfl).2,
    by decide, by decide, by decide⟩

/-- C25 (as stated, refuted): the zero record is unsigned, and `VerifySignature` with a
scheme that accepts every signature returns nil for it. -/
theorem VerifySignature_delegates_counterexample :
    Record.zero.signature = none ∧ Record.zero.VerifySignature schemeAny = none ∧
      Record.zero.VerifySignature schemeAny ≠ some .ErrInvalidSig := by
  refine ⟨rfl, rfl, by decide⟩

/-- C25 (amended): for every record and every identity scheme `s`, `VerifySignature(s)`
returns the result of `s.Verify(record, signature of the record)`, the signature being
nil for an unsigned record; so an unsigned record gets an invalid-signature error when
the scheme gives one for the nil signature. -/
theorem VerifySignature_delegates (r : Record) (s : IdentityScheme) :
    r.VerifySignature s = s.Verify r r.signature ∧
      (r.signature = none → r.VerifySignature s = s.Verify r none) ∧
      (∀ sig, r.signature = some sig → r.VerifySignature s = s.Verify r (some sig)) ∧
      (r.signature = none → s.Verify r none = some .ErrInvalidSig →
        r.VerifySignature s = some .ErrInvalidSig) := by
  refine ⟨rfl, fun h => ?_, fun sig h => ?_, fun h hv => ?_⟩
  · simp [Record.VerifySignature, h]
  · simp [Record.VerifySignature, h]
  · simp [Record.VerifySignature, h, hv]

/-- The scheme that accepts only "S1" refuses the unsigned zero record and accepts the
record signed with "S1". -/
theorem VerifySignature_delegates_witness :
    Record.zero.VerifySignature schemeS1 = some .ErrInvalidSig ∧
      signedIp.VerifySignature schemeS1 = none :=
  ⟨(VerifySignature_delegates Record.zero schemeS1).2.2.2 rfl (by decide),
    ((VerifySignature_delegates signedIp schemeS1).2.2.1 [0x53, 0x31] (by decide)).trans
      (by decide)⟩

/-- C26: `Size()` is the length of the canonical encoding.  For every record reachable
from the zero record, `Size()` is the byte length of the encoding of the list
`[signature, seq, k1, v1, ..., kn, vn]` of its fields; for an unsigned record it is
computed by `computeSize` with the empty signature, as `ListSize` of `IntSize(seq)` plus
`BytesSize(nil)` plus the sum of `StringSize(k)` and `len(v)` over the pairs; the zero
record has the size 3. -/
theorem Size_canonical (r : Record) (h : Reachable r) :
    r.Size = (canonicalEncoding r.signature r.seq r.pairs).length ∧
      (∀ raw, rlp.EncodeToBytes (canonicalList r.signature r.seq r.pairs) = .ok raw →
        r.Size = raw.length) ∧
      (r.signature = none →
        r.Size = computeSize r ∧
        r.Size = rlp.ListSize (rlp.IntSize r.seq + rlp.BytesSize []
          + (r.pairs.map fun p => rlp.StringSize p.k + p.v.length).sum)) ∧
      Record.zero.Size = 3 := by
  have hsize : r.Size = (canonicalEncoding r.signature r.seq r.pairs).length := by
    unfold Record.Size
    cases hraw : r.raw with
    | none => exact (computeSize_eq r).1
    | some raw => rw [(h.cache_consistent raw hraw).1]
  refine ⟨hsize, ?_, ?_, by decide⟩
  · intro raw hraw
    rw [EncodeToBytes_canonicalList] at hraw
    simp only [Except.ok.injEq] at hraw
    rw [hsize, hraw]
  · intro hsig
    have hraw : r.raw = none := by
      by_contra hne
      exact (h.raw_iff_signature.mp hne) hsig
    have h1 : r.Size = computeSize r := by
      unfold Record.Size; rw [hraw]
    refine ⟨h1, ?_⟩
    rw [h1, (computeSize_eq r).2, hsig]
    rfl

/-- The zero record has size 3; the record signed with "S1" that holds "ip" has the size
of its encoding, 13 bytes; after `Set` of "udp" it is unsigned and has size 18. -/
theorem Size_canonical_witness :
    Record.zero.Size = 3 ∧ signedIp.Size = 13 ∧
      (signedIp.Set udpEntry).1.Size
        = (canonicalEncoding none 1 (signedIp.Set udpEntry).1.pairs).length ∧
      (signedIp.Set udpEntry).1.Size = 18 :=
  ⟨by decide, by decide,
    (Size_canonical (signedIp.Set udpEntry).1 (Reachable.Set _ udpEntry
      (Reachable.SetSig _ _ _ (Reachable.Set _ ipEntry Reachable.zero)))).1,
    by decide⟩

/-- C27: `AppendElements(L)` returns `L` followed by the sequence number and then each
key and value in stored order, so `len(L) + 1 + 2n` elements for `n` pairs; the
signature and the cached encoding play no part in the result.  It is a function of the
record: the call assigns no field. -/
theorem AppendElements_spec (r : Record) (list : List rlp.Val) :
    r.AppendElements list
        = list ++ rlp.Val.uint64 r.seq ::
            r.pairs.flatMap (fun p => [rlp.Val.string p.k, rlp.Val.rawValue p.v]) ∧
      (r.AppendElements list).length = list.length + 1 + 2 * r.pairs.length ∧
      (∀ (sig raw : Option ByteSeq),
        ({ r with signature := sig, raw := raw } : Record).AppendElements list
          = r.AppendElements list) ∧
      (∀ sig, rlp.Val.bytes sig ∉ list → rlp.Val.bytes sig ∉ r.AppendElements list) := by
  have hlen : ∀ pairs : List pair,
      (pairs.flatMap fun p => [rlp.Val.string p.k, rlp.Val.rawValue p.v]).length
        = 2 * pairs.length := by
    intro pairs
    induction pairs with
    | nil => rfl
    | cons p ps ih =>
      simp only [List.flatMap_cons, List.length_append, List.length_cons, List.length_nil, ih]
      omega
  refine ⟨AppendElements_eq r list, ?_, fun sig raw => ?_, fun sig hsig => ?_⟩
  · rw [AppendElements_eq]
    simp only [List.length_append, List.length_cons, hlen]
    omega
  · rw [AppendElements_eq, AppendElements_eq]
  · rw [AppendElements_eq]
    intro hmem
    rcases List.mem_append.mp hmem with h1 | h1
    · exact hsig h1
    · rcases List.mem_cons.mp h1 with h2 | h2
      · cases h2
      · obtain ⟨p, _, hp⟩ := List.mem_flatMap.mp h2
        simp only [List.mem_cons, List.mem_singleton, List.not_mem_nil, or_false] at hp
        rcases hp with h3 | h3 <;> cases h3

/-- The record signed with "S1" that holds "ip" appends its sequence number, the key and
the value after the element given. -/
theorem AppendElements_spec_witness :
    signedIp.AppendElements [.string [0x78]]
        = [.string [0x78], .uint64 0, .string [0x69, 0x70], .rawValue [0x84, 127, 0, 0, 1]] ∧
      rlp.Val.bytes (some [0x53, 0x31]) ∉ signedIp.AppendElements [.string [0x78]] :=
  ⟨by decide, (AppendElements_spec signedIp [.string [0x78]]).2.2.2 (some [0x53, 0x31])
    (by decide)⟩

end enr

namespace common

/-- C32: `LeftPadBytes(s, l)` returns `s` as it is when `l <= len(s)`, and otherwise a
slice of length `l`: `l - len(s)` zero bytes and then the bytes of `s`.  The two calls of
the test give `[0,0,0,0,1,2,3,4]` and `[1,2,3,4]`. -/
theorem LeftPadBytes_spec (s : ByteSeq) (l : Int) :
    (l ≤ s.length → LeftPadBytes s l = s) ∧
      ((s.length : Int) < l →
        LeftPadBytes s l = List.replicate (l.toNat - s.length) 0 ++ s ∧
        ((LeftPadBytes s l).length : Int) = l) ∧
      LeftPadBytes [1, 2, 3, 4] 8 = [0, 0, 0, 0, 1, 2, 3, 4] ∧
      LeftPadBytes [1, 2, 3, 4] 2 = [1, 2, 3, 4] := by
  refine ⟨fun h => by rw [LeftPadBytes, if_pos h], fun h => ?_, by decide, by decide⟩
  have hl : s.length < l.toNat := by omega
  have h1 : LeftPadBytes s l = List.replicate (l.toNat - s.length) 0 ++ s := by
    rw [LeftPadBytes, if_neg (by omega)]
    simp only [copyAt, List.length_replicate, List.take_replicate, List.drop_replicate]
    have e1 : min (l.toNat - s.length) l.toNat = l.toNat - s.length := by omega
    have e2 : l.toNat - (l.toNat - s.length) = s.length := by omega
    have e3 : l.toNat - (l.toNat - s.length + s.length) = 0 := by omega
    rw [e1, e2, e3, List.take_length]
    simp
  refine ⟨h1, ?_⟩
  rw [h1]
  simp only [List.length_append, List.length_replicate]
  omega

/-- Four bytes padded to eight, and left alone when two are asked for. -/
theorem LeftPadBytes_spec_witness :
    LeftPadBytes [1, 2, 3, 4] 8 = List.replicate 4 0 ++ [1, 2, 3, 4] ∧
      LeftPadBytes [1, 2, 3, 4] 2 = [1, 2, 3, 4] :=
  ⟨((LeftPadBytes_spec [1, 2, 3, 4] 8).2.1 (by decide)).1,
    (LeftPadBytes_spec [1, 2, 3, 4] 2).1 (by decide)⟩

/-- The loop of `TrimRightZeroes` stops at an index that is zero or follows a byte that
is not zero, and every byte from there up to the start index is zero. -/
theorem trimIdx_spec (s : ByteSeq) :
    ∀ n, n ≤ s.length →
      trimIdx s n ≤ n ∧
      (∀ j, trimIdx s n ≤ j → j < n → s.getD j 0 = 0) ∧
      (0 < trimIdx s n → s.getD (trimIdx s n - 1) 0 ≠ 0) := by
  intro n
  induction n with
  | zero =>
    intro _
    refine ⟨Nat.le_refl _, fun j _ hj => absurd hj (Nat.not_lt_zero _), fun h => ?_⟩
    simp [trimIdx] at h
  | succ n ih =>
    intro hn
    obtain ⟨i1, i2, i3⟩ := ih (by omega)
    unfold trimIdx
    by_cases hb : s.getD n 0 ≠ 0
    · rw [if_pos hb]
      refine ⟨Nat.le_refl _, fun j h1 h2 => by omega, fun _ => ?_⟩
      simpa using hb
    · rw [if_neg hb]
      refine ⟨by omega, fun j h1 h2 => ?_, i3⟩
      rcases Nat.eq_or_lt_of_le (Nat.le_of_lt_succ h2) with heq | hlt
      · rw [heq]; simpa using hb
      · exact i2 j h1 hlt

/-- C33: `TrimRightZeroes(s)` is the longest prefix of `s` that is empty or ends in a
byte that is not zero: `s` is the result followed by zero bytes only, the result does not
end in a zero byte, no prefix of `s` that is empty or ends in a non-zero byte is longer,
an input of zero bytes only (or none) gives the empty slice, and trimming twice is
trimming once. -/
theorem TrimRightZeroes_spec (s : ByteSeq) :
    (∃ k, s = TrimRightZeroes s ++ List.replicate k 0) ∧
      (∀ b, (TrimRightZeroes s).getLast? = some b → b ≠ 0) ∧
      (∀ p : ByteSeq, p <+: s → (∀ b, p.getLast? = some b → b ≠ 0) →
        p.length ≤ (TrimRightZeroes s).length) ∧
      ((∀ b ∈ s, b = 0) → TrimRightZeroes s = []) ∧
      TrimRightZeroes (TrimRightZeroes s) = TrimRightZeroes s ∧
      TrimRightZeroes [0, 0xff, 0xff, 0, 0xff, 0, 0] = [0, 0xff, 0xff, 0, 0xff] := by
  obtain ⟨h1, h2, h3⟩ := trimIdx_spec s s.length (Nat.le_refl _)
  generalize hi : trimIdx s s.length = i at h1 h2 h3
  have hT : TrimRightZeroes s = s.take i := by rw [TrimRightZeroes, hi]
  have hlen : (s.take i).length = i := by rw [List.length_take]; omega
  have hlast : ∀ b, (s.take i).getLast? = some b → b ≠ 0 := by
    intro b hb
    by_cases h0 : i = 0
    · subst h0; simp at hb
    · have hpos : 0 < i := Nat.pos_of_ne_zero h0
      have hne := h3 hpos
      rw [List.getLast?_eq_getElem?, hlen] at hb
      have hlt : i - 1 < (s.take i).length := by omega
      rw [List.getElem?_eq_getElem hlt, List.getElem_take] at hb
      simp only [Option.some.injEq] at hb
      rw [List.getD_eq_getElem _ _ (by omega)] at hne
      rw [← hb]
      exact hne
  have hzero : s.drop i = List.replicate (s.length - i) 0 := by
    apply List.eq_replicate_iff.mpr
    refine ⟨by simp, fun b hb => ?_⟩
    obtain ⟨j, hj, hjb⟩ := List.mem_drop_iff_getElem.mp hb
    have := h2 (i + j) (by omega) (by omega)
    rw [List.getD_eq_getElem _ _ (by omega)] at this
    rw [← hjb]
    exact this
  have hlong : ∀ p : ByteSeq, p <+: s → (∀ b, p.getLast? = some b → b ≠ 0) →
      p.length ≤ i := by
    intro p hp hpl
    by_contra hcon
    have hgt : i < p.length := by omega
    have hpl2 : p.length ≤ s.length := hp.length_le
    have hpt : p = s.take p.length := (List.prefix_iff_eq_take.mp hp)
    have hlt : p.length - 1 < p.length := by omega
    have hb : p.getLast? = some p[p.length - 1] := by
      rw [List.getLast?_eq_getElem?, List.getElem?_eq_getElem hlt]
    have hne := hpl _ hb
    have hz := h2 (p.length - 1) (by omega) (by omega)
    rw [List.getD_eq_getElem _ _ (by omega)] at hz
    have hps : p[p.length - 1] = s[p.length - 1] := by
      have := List.IsPrefix.getElem hp hlt
      exact this
    rw [hps] at hne
    exact hne hz
  refine ⟨⟨s.length - i, ?_⟩, ?_, ?_, ?_, ?_, by decide⟩
  · rw [hT, ← hzero, List.take_append_drop]
  · rw [hT]; exact hlast
  · rw [hT, hlen]; exact hlong
  · intro hall
    rw [hT]
    by_cases h0 : i = 0
    · subst h0; rfl
    · exfalso
      have hne := h3 (Nat.pos_of_ne_zero h0)
      rw [List.getD_eq_getElem _ _ (by omega)] at hne
      exact hne (hall _ (List.getElem_mem _))
  · rw [hT]
    by_cases h0 : i = 0
    · subst h0; rfl
    · have hpos : 0 < i := Nat.pos_of_ne_zero h0
      have hstep : trimIdx (s.take i) (s.take i).length = i := by
        rw [hlen]
        obtain ⟨i', rfl⟩ : ∃ i', i = i' + 1 := ⟨i - 1, by omega⟩
        unfold trimIdx
        have hne := h3 hpos
        simp only [Nat.add_sub_cancel] at hne
        rw [List.getD_eq_getElem _ _ (by omega)] at hne
        rw [List.getD_eq_getElem _ _ (by omega), List.getElem_take, if_pos hne]
      rw [TrimRightZeroes, hstep, List.take_take, Nat.min_self]

/-- The slice 0x00ffff00ff0000 keeps 0x00ffff00ff, which is a prefix that ends in 0xff,
and nothing longer. -/
theorem TrimRightZeroes_spec_witness :
    ([0, 0xff, 0xff, 0, 0xff] : ByteSeq).length
        ≤ (TrimRightZeroes [0, 0xff, 0xff, 0, 0xff, 0, 0]).length ∧
      TrimRightZeroes [0, 0, 0] = [] :=
  ⟨(TrimRightZeroes_spec [0, 0xff, 0xff, 0, 0xff, 0, 0]).2.2.1 [0, 0xff, 0xff, 0, 0xff]
      ⟨[0, 0], rfl⟩ (fun b hb => by
        simp only [List.getLast?_cons_cons, List.getLast?_singleton, Option.some.injEq] at hb
        rw [← hb]; decide),
    (TrimRightZeroes_spec [0, 0, 0]).2.2.2.1 (fun b hb => by
      simp only [List.mem_cons, List.mem_singleton, List.not_mem_nil, or_false, or_self] at hb
      exact hb)⟩

end common

namespace mclock

/-- Scheduling an alarm at rest sets one timer for the deadline and leaves the time. -/
theorem Schedule_armed (w : World) (T : Int) (h : w.Idle) :
    (w.Schedule T).Armed T ∧ (w.Schedule T).clk.now = w.clk.now := by
  obtain ⟨h1, h2, h3⟩ := h
  have hcond : ¬ (w.a.timer ≠ none ∧ w.a.deadline > w.clk.now ∧ w.a.deadline ≤ T) := by
    intro hc
    have := h3 hc.1
    omega
  have hsched : (match w.a.timer with
      | none => w.clk.scheduled
      | some id => w.clk.scheduled.filter (fun t => decide (t.id ≠ id))) = [] := by
    cases w.a.timer with
    | none => exact h2
    | some id => simp [h2]
  unfold World.Schedule
  simp only [if_neg hcond, hsched, List.nil_append]
  refine ⟨⟨h1, by simp, (by trivial), _, (by trivial), ?_⟩, (by trivial)⟩
  intro x hx
  simp only at hx ⊢
  split_ifs with hlt
  · constructor <;> intro _ <;> omega
  · constructor <;> intro _ <;> omega

/-- A clock step that ends before the deadline leaves the alarm set and silent. -/
theorem Run_armed_before (w : World) (T : Int) (d : Nat) (h : w.Armed T)
    (hd : w.clk.now + d < T) : (w.Run d).Armed T ∧ (w.Run d).clk.now = w.clk.now + d := by
  obtain ⟨h1, h2, h3, t, h4, h5⟩ := h
  have hnot : ¬ t.due ≤ w.clk.now + d := by
    rw [h5 _ (by omega)]; omega
  unfold World.Run
  simp only [h4, List.filter_cons, List.filter_nil, hnot, decide_False, Bool.false_eq_true,
    if_false, List.foldl_nil, not_false_eq_true, decide_True, if_true]
  refine ⟨⟨h1, h2, h3, t, (by trivial), ?_⟩, (by trivial)⟩
  intro x hx
  exact h5 x (by simp only at hx; omega)

/-- Clock steps that together end before the deadline leave the alarm set and silent. -/
theorem Runs_armed_before (T : Int) :
    ∀ (ds : List Nat) (w : World), w.Armed T → w.clk.now + (ds.sum : Nat) < T →
      (w.Runs ds).Armed T ∧ (w.Runs ds).clk.now = w.clk.now + (ds.sum : Nat) := by
  intro ds
  induction ds with
  | nil => intro w h _; exact ⟨h, by simp [World.Runs]⟩
  | cons d ds ih =>
    intro w h hlt
    simp only [List.sum_cons, Nat.cast_add] at hlt
    obtain ⟨a1, a2⟩ := Run_armed_before w T d h (by omega)
    obtain ⟨b1, b2⟩ := ih (w.Run d) a1 (by rw [a2]; omega)
    refine ⟨b1, ?_⟩
    have : World.Runs w (d :: ds) = World.Runs (w.Run d) ds := rfl
    rw [this, b2, a2]
    simp only [List.sum_cons, Nat.cast_add]
    omega

/-- A clock step that reaches the deadline fires the timer: the channel gets its value
and the clock has no timer left. -/
theorem Run_armed_fire (w : World) (T : Int) (d : Nat) (h : w.Armed T)
    (hd : T ≤ w.clk.now + d) :
    (w.Run d).a.ch = true ∧ (w.Run d).clk.scheduled = [] ∧ (w.Run d).a.deadline = T ∧
      (w.Run d).clk.now = w.clk.now + d := by
  obtain ⟨h1, h2, h3, t, h4, h5⟩ := h
  have hdue : t.due ≤ w.clk.now + d := by
    rw [h5 _ (by omega)]; exact hd
  unfold World.Run
  simp only [h4, List.filter_cons, List.filter_nil, hdue, decide_True, if_true, List.foldl_cons,
    List.foldl_nil, not_true_eq_false, decide_False, Bool.false_eq_true, if_false]
  exact ⟨(by trivial), (by trivial), h3, (by trivial)⟩

/-- C34: an alarm at rest on a simulated clock is scheduled for the absolute time `T`.
After clock steps that end below `T` a receive finds nothing and the clock has one active
timer; the step that reaches `T` delivers: a receive finds the value, a second receive
finds nothing, the clock has no active timer, and the alarm is at rest again, so that
scheduling it once more goes the same way. -/
theorem Alarm_fires_once (w : World) (T : Int) (h : w.Idle) :
    (∀ ds : List Nat, w.clk.now + (ds.sum : Nat) < T →
        ((w.Schedule T).Runs ds).recv.2 = false ∧ ((w.Schedule T).Runs ds).ActiveTimers = 1) ∧
      (∀ (ds : List Nat) (d : Nat), (ds = [] ∨ w.clk.now + (ds.sum : Nat) < T) →
        T ≤ w.clk.now + (ds.sum : Nat) + d →
        (((w.Schedule T).Runs ds).Run d).recv.2 = true ∧
        (((w.Schedule T).Runs ds).Run d).recv.1.recv.2 = false ∧
        (((w.Schedule T).Runs ds).Run d).ActiveTimers = 0 ∧
        (((w.Schedule T).Runs ds).Run d).recv.1.Idle) := by
  obtain ⟨s1, s2⟩ := Schedule_armed w T h
  have hruns : ∀ ds : List Nat, (ds = [] ∨ w.clk.now + (ds.sum : Nat) < T) →
      ((w.Schedule T).Runs ds).Armed T ∧
        ((w.Schedule T).Runs ds).clk.now = w.clk.now + (ds.sum : Nat) := by
    intro ds hds
    rcases hds with hnil | hlt
    · subst hnil
      exact ⟨s1, by simp [World.Runs, s2]⟩
    · have := Runs_armed_before T ds (w.Schedule T) s1 (by rw [s2]; exact hlt)
      rw [s2] at this
      exact this
  constructor
  · intro ds hlt
    obtain ⟨⟨a1, _, _, t, a4, _⟩, _⟩ := hruns ds (Or.inr hlt)
    exact ⟨a1, by simp [World.ActiveTimers, a4]⟩
  · intro ds d hds hreach
    obtain ⟨a, hnow⟩ := hruns ds hds
    obtain ⟨f1, f2, f3, f4⟩ := Run_armed_fire _ T d a (by rw [hnow]; exact hreach)
    refine ⟨f1, rfl, by simp [World.ActiveTimers, f2], rfl, f2, fun _ => ?_⟩
    show (((w.Schedule T).Runs ds).Run d).a.deadline ≤ (((w.Schedule T).Runs ds).Run d).clk.now
    rw [f3, f4, hnow]
    exact hreach

/-- The steps of `TestAlarm`: the clock runs to 20, the alarm is scheduled for 30, is
silent with one active timer, is silent after 5, fires after 5 more, fires once, leaves no
timer; scheduled again for 35 it is silent, fires after 5 and fires once. -/
theorem Alarm_fires_once_witness :
    (World.new.Run 20).Idle ∧
      ((World.new.Run 20).Schedule 30).recv.2 = false ∧
      ((World.new.Run 20).Schedule 30).ActiveTimers = 1 ∧
      (((World.new.Run 20).Schedule 30).Runs [5]).recv.2 = false ∧
      ((((World.new.Run 20).Schedule 30).Runs [5]).Run 5).recv.2 = true ∧
      ((((World.new.Run 20).Schedule 30).Runs [5]).Run 5).recv.1.recv.2 = false ∧
      ((((World.new.Run 20).Schedule 30).Runs [5]).Run 5).ActiveTimers = 0 ∧
      ((((((World.new.Run 20).Schedule 30).Runs [5]).Run 5).recv.1.Schedule 35).Runs []).recv.2
        = false ∧
      (((((((World.new.Run 20).Schedule 30).Runs [5]).Run 5).recv.1.Schedule 35).Runs []).Run
        5).recv.2 = true ∧
      (((((((World.new.Run 20).Schedule 30).Runs [5]).Run 5).recv.1.Schedule 35).Runs []).Run
        5).recv.1.recv.2 = false :=
  have h0 : (World.new.Run 20).Idle := ⟨rfl, rfl, fun hne => absurd rfl hne⟩
  have h1 := Alarm_fires_once (World.new.Run 20) 30 h0
  have hfire := h1.2 [5] 5 (Or.inr (by decide)) (by decide)
  have h2 := Alarm_fires_once _ 35 hfire.2.2.2
  ⟨h0, (h1.1 [] (by decide)).1, (h1.1 [] (by decide)).2, (h1.1 [5] (by decide)).1,
    hfire.1, hfire.2.1, hfire.2.2.1, (h2.1 [] (by decide)).1,
    (h2.2 [] 5 (Or.inl rfl) (by decide)).1, (h2.2 [] 5 (Or.inl rfl) (by decide)).2.1⟩

end mclock

namespace misc

/-- C39: for gas limits below `2 ^ 63` the `int64` conversions, the subtraction and the
negation of `VerifyGaslimit` stay in range, the difference it computes is the exact
absolute difference, and it returns nil exactly when that difference is below
`parentGasLimit / params.GasLimitBoundDivisor` and the header limit is at least
`params.MinGasLimit`.  So with a parent limit below the divisor the limit is zero and
every header is refused, the one with the parent's own limit too. -/
theorem VerifyGaslimit_in_range (p h : Nat) (hp : p < 2 ^ 63) (hh : h < 2 ^ 63) :
    int64 p = p ∧ int64 h = h ∧ int64 (int64 p - int64 h) = (p : Int) - h ∧
      (int64 (int64 p - int64 h) < 0 →
        int64 (int64 (int64 p - int64 h) * -1) = (h : Int) - p) ∧
      uint64 (if int64 (int64 p - int64 h) < 0 then int64 (int64 (int64 p - int64 h) * -1)
        else int64 (int64 p - int64 h)) = absDiff p h ∧
      (VerifyGaslimit p h = none ↔
        absDiff p h < p / params.GasLimitBoundDivisor ∧ params.MinGasLimit ≤ h) ∧
      (p < params.GasLimitBoundDivisor →
        VerifyGaslimit p h ≠ none ∧ VerifyGaslimit p p ≠ none) := by
  have hd : int64 ((p : Int) - h) = (p : Int) - h := by
    unfold int64
    have : ((p : Int) - h + 2 ^ 63) % 2 ^ 64 = p - h + 2 ^ 63 := by
      apply Int.emod_eq_of_lt <;> omega
    omega
  refine ⟨int64_of_lt p hp, int64_of_lt h hh, ?_, ?_, VerifyGaslimit_diff p h hp hh,
    VerifyGaslimit_of_lt p h hp hh, ?_⟩
  · rw [int64_of_lt p hp, int64_of_lt h hh, hd]
  · rw [int64_of_lt p hp, int64_of_lt h hh, hd]
    intro hneg
    have e : ((p : Int) - h) * -1 = (h : Int) - p := by ring
    rw [e]
    unfold int64
    have : ((h : Int) - p + 2 ^ 63) % 2 ^ 64 = (h : Int) - p + 2 ^ 63 := by
      apply Int.emod_eq_of_lt <;> omega
    omega
  · intro hsmall
    have hz : p / params.GasLimitBoundDivisor = 0 := Nat.div_eq_of_lt hsmall
    constructor
    · intro hnil
      have := ((VerifyGaslimit_of_lt p h hp hh).mp hnil).1
      omega
    · intro hnil
      have := ((VerifyGaslimit_of_lt p p hp hp).mp hnil).1
      omega

/-- A parent limit of 1000 refuses the header limit 1000; the parent limit 10000 accepts
10005, which is five away with a limit of nine. -/
theorem VerifyGaslimit_in_range_witness :
    VerifyGaslimit 1000 1000 ≠ none ∧ VerifyGaslimit 10000 10005 = none :=
  ⟨((VerifyGaslimit_in_range 1000 1000 (by norm_num) (by norm_num)).2.2.2.2.2.2
      (by decide)).2,
    (VerifyGaslimit_in_range 10000 10005 (by norm_num) (by norm_num)).2.2.2.2.2.1.mpr
      (by decide)⟩

end misc

namespace enr

/-- Two records with the same four fields are the same record. -/
theorem Record.eq_of_fields (a b : Record) (h1 : a.seq = b.seq)
    (h2 : a.signature = b.signature) (h3 : a.raw = b.raw) (h4 : a.pairs = b.pairs) : a = b := by
  cases a; cases b
  simp only at h1 h2 h3 h4
  simp only [h1, h2, h3, h4]

/-- The pairs after `Set` on ascending pairs: those of another key and the pair set. -/
theorem mem_Set (r : Record) (e : Entry) (blob : ByteSeq) (ha : Ascending r.pairs)
    (h : e.EncodeToBytes = .ok blob) (x : pair) :
    x ∈ (r.Set e).1.pairs ↔ (x ∈ r.pairs ∧ x.k ≠ e.ENRKey) ∨ x = ⟨e.ENRKey, blob⟩ := by
  obtain ⟨i, _, hlt, hcase⟩ := Set_pairs_cases r e blob ha h
  have hshape : (r.Set e).1.pairs
      = r.pairs.filter (fun q => decide (q.k < e.ENRKey)) ++ [⟨e.ENRKey, blob⟩]
        ++ r.pairs.filter (fun q => decide (e.ENRKey < q.k)) := by
    rcases hcase with ⟨_, _, hgt, hset⟩ | ⟨_, hgt, hset⟩
    · rw [hset, hlt, hgt]
    · rw [hset, hlt, hgt]
  rw [hshape]
  simp only [List.mem_append, List.mem_filter, decide_eq_true_eq, List.mem_singleton]
  constructor
  · rintro ((⟨hm, hk⟩ | hx) | ⟨hm, hk⟩)
    · exact Or.inl ⟨hm, ne_of_lt hk⟩
    · exact Or.inr hx
    · exact Or.inl ⟨hm, ne_of_gt hk⟩
  · rintro (⟨hm, hk⟩ | hx)
    · rcases lt_or_gt_of_ne hk with h1 | h1
      · exact Or.inl (Or.inl ⟨hm, h1⟩)
      · exact Or.inr ⟨hm, h1⟩
    · exact Or.inl (Or.inr hx)

/-- Two lists of pairs with ascending keys and the same members are the same list. -/
theorem Ascending_ext (l1 l2 : List pair) (h1 : Ascending l1) (h2 : Ascending l2)
    (hm : ∀ x, x ∈ l1 ↔ x ∈ l2) : l1 = l2 := by
  haveI : IsAntisymm pair (fun p q => p.k < q.k) :=
    ⟨fun a b hab hba => absurd hba (not_lt_of_lt hab)⟩
  haveI : IsIrrefl pair (fun p q => p.k < q.k) := ⟨fun a => lt_irrefl a.k⟩
  have s1 : l1.Pairwise (fun p q => p.k < q.k) := by
    have := h1
    unfold Ascending keys at this
    exact List.pairwise_map.mp this
  have s2 : l2.Pairwise (fun p q => p.k < q.k) := by
    have := h2
    unfold Ascending keys at this
    exact List.pairwise_map.mp this
  have hperm : l1.Perm l2 := (List.perm_ext_iff_of_nodup s1.nodup s2.nodup).mpr hm
  exact List.eq_of_perm_of_sorted hperm s1 s2

/-- The sequence number after two calls of `Set` that return is that after the first. -/
theorem Set_Set_seq (r : Record) (e1 e2 : Entry) (b1 b2 : ByteSeq)
    (h1 : e1.EncodeToBytes = .ok b1) (h2 : e2.EncodeToBytes = .ok b2) :
    ((r.Set e1).1.Set e2).1.seq = r.invalidate.seq ∧
      ((r.Set e1).1.Set e2).1.signature = none ∧ ((r.Set e1).1.Set e2).1.raw = none := by
  obtain ⟨_, a2, a3, _⟩ := Set_frame r e1 b1 h1
  obtain ⟨_, c2, c3, c4⟩ := Set_frame (r.Set e1).1 e2 b2 h2
  refine ⟨?_, c3, c4⟩
  rw [c2, invalidate_seq_unsigned _ a3, a2]

/-- C35: `Set` then `Load`.  On a record with strictly ascending pairs, after `Set` of an
entry that encodes to an item, `Load` into an entry of the same key whose decoding reads
the encoding of that item back returns nil and leaves the entry holding the item; after a
later `Set` of another value under the same key `Load` yields the later value. -/
theorem Set_then_Load (r : Record) (e e' : Entry) (item : rlp.Item) (ha : Ascending r.pairs)
    (henc : e.EncodeRLP = .ok item) (hkey : e'.ENRKey = e.ENRKey)
    (hcodec : e'.DecodeRLP item.encode = .ok item) :
    ((r.Set e).1.Load e').err = none ∧ ((r.Set e).1.Load e').entry.EncodeRLP = .ok item ∧
      ((r.Set e).1.Load e').record = (r.Set e).1 ∧
      (∀ (e2 : Entry) (item2 : rlp.Item), e2.ENRKey = e.ENRKey → e2.EncodeRLP = .ok item2 →
        e'.DecodeRLP item2.encode = .ok item2 →
        (((r.Set e).1.Set e2).1.Load e').err = none ∧
        (((r.Set e).1.Set e2).1.Load e').entry.EncodeRLP = .ok item2) := by
  have key : ∀ (r0 : Record) (e0 : Entry) (it : rlp.Item), Ascending r0.pairs →
      e0.EncodeRLP = .ok it → e'.ENRKey = e0.ENRKey → e'.DecodeRLP it.encode = .ok it →
      (r0.Set e0).1.Load e'
        = { record := (r0.Set e0).1, err := none, entry := { e' with EncodeRLP := .ok it } } := by
    intro r0 e0 it ha0 henc0 hkey0 hcodec0
    have hb : e0.EncodeToBytes = .ok it.encode := by simp [Entry.EncodeToBytes, henc0]
    have hmem : (⟨e0.ENRKey, it.encode⟩ : pair) ∈ (r0.Set e0).1.pairs :=
      (mem_Set r0 e0 it.encode ha0 hb _).mpr (Or.inr rfl)
    rw [Load_found (r0.Set e0).1 e' (Set_Ascending r0 e0 ha0) _ hmem hkey0.symm]
    simp only [hcodec0]
  refine ⟨?_, ?_, ?_, ?_⟩
  · rw [key r e item ha henc hkey hcodec]
  · rw [key r e item ha henc hkey hcodec]
  · rw [key r e item ha henc hkey hcodec]
  · intro e2 item2 hk2 henc2 hcodec2
    have := key (r.Set e).1 e2 item2 (Set_Ascending r e ha) henc2 (hkey.trans hk2.symm) hcodec2
    rw [this]
    exact ⟨rfl, rfl⟩

/-- On the record signed with "S1": after `Set` of "ip" = 0.0.0.0 a `Load` yields
0.0.0.0, and after a later `Set` of "ip" = 127.0.0.1 it yields 127.0.0.1. -/
theorem Set_then_Load_witness :
    ((signedIp.Set ip4Entry).1.Load ip4Entry).entry.EncodeRLP = .ok (.string [0, 0, 0, 0]) ∧
      (((signedIp.Set ip4Entry).1.Set ip4Local).1.Load ip4Entry).entry.EncodeRLP
        = .ok (.string [127, 0, 0, 1]) :=
  ⟨(Set_then_Load signedIp ip4Entry ip4Entry (.string [0, 0, 0, 0])
      (Reachable.SetSig _ _ _ (Reachable.Set _ ipEntry Reachable.zero)).ascending
      rfl rfl rfl).2.1,
    ((Set_then_Load signedIp ip4Entry ip4Entry (.string [0, 0, 0, 0])
      (Reachable.SetSig _ _ _ (Reachable.Set _ ipEntry Reachable.zero)).ascending
      rfl rfl rfl).2.2.2 ip4Local (.string [127, 0, 0, 1]) rfl rfl rfl).2⟩

/-- C36: `Set` commutes on distinct keys and is idempotent.  On a record with strictly
ascending pairs and two entries that encode, under different keys, `Set` of the one and
then of the other leaves the same record (sequence number, nil signature, nil cached
encoding, pairs) as in the other order; and `Set` of an entry twice leaves the same record
as `Set` of it once. -/
theorem Set_commutes (r : Record) (e1 e2 : Entry) (b1 b2 : ByteSeq) (ha : Ascending r.pairs)
    (h1 : e1.EncodeToBytes = .ok b1) (h2 : e2.EncodeToBytes = .ok b2) :
    (e1.ENRKey ≠ e2.ENRKey → ((r.Set e1).1.Set e2).1 = ((r.Set e2).1.Set e1).1) ∧
      ((r.Set e1).1.Set e1).1 = (r.Set e1).1 ∧
      ((r.Set e1).1.Set e2).1.signature = none ∧ ((r.Set e1).1.Set e2).1.raw = none := by
  obtain ⟨s1, s2, s3⟩ := Set_Set_seq r e1 e2 b1 b2 h1 h2
  obtain ⟨t1, t2, t3⟩ := Set_Set_seq r e2 e1 b2 b1 h2 h1
  obtain ⟨u1, u2, u3⟩ := Set_Set_seq r e1 e1 b1 b1 h1 h1
  obtain ⟨_, f2, f3, f4⟩ := Set_frame r e1 b1 h1
  have a1 := Set_Ascending r e1 ha
  have a2 := Set_Ascending r e2 ha
  refine ⟨fun hk => ?_, ?_, s2, s3⟩
  · apply Record.eq_of_fields _ _ (by rw [s1, t1]) (by rw [s2, t2]) (by rw [s3, t3])
    apply Ascending_ext _ _ (Set_Ascending _ e2 a1) (Set_Ascending _ e1 a2)
    intro x
    rw [mem_Set _ e2 b2 a1 h2, mem_Set _ e1 b1 ha h1, mem_Set _ e1 b1 a2 h1,
      mem_Set _ e2 b2 ha h2]
    constructor
    · rintro (⟨⟨hm, hk1⟩ | hx, hk2⟩ | hx)
      · exact Or.inl ⟨Or.inl ⟨hm, hk2⟩, hk1⟩
      · exact Or.inr hx
      · exact Or.inl ⟨Or.inr hx, by rw [hx]; exact fun h => hk h.symm⟩
    · rintro (⟨⟨hm, hk2⟩ | hx, hk1⟩ | hx)
      · exact Or.inl ⟨Or.inl ⟨hm, hk1⟩, hk2⟩
      · exact Or.inr hx
      · exact Or.inl ⟨Or.inr hx, by rw [hx]; exact hk⟩
  · apply Record.eq_of_fields _ _ (by rw [u1, f2]) (by rw [u2, f3]) (by rw [u3, f4])
    apply Ascending_ext _ _ (Set_Ascending _ e1 a1) a1
    intro x
    rw [mem_Set _ e1 b1 a1 h1, mem_Set _ e1 b1 ha h1]
    constructor
    · rintro (⟨⟨hm, hk1⟩ | hx, _⟩ | hx)
      · exact Or.inl ⟨hm, hk1⟩
      · exact Or.inr hx
      · exact Or.inr hx
    · rintro (⟨hm, hk1⟩ | hx)
      · exact Or.inl ⟨Or.inl ⟨hm, hk1⟩, hk1⟩
      · exact Or.inr hx

/-- On the record signed with "S1" that holds "ip": `Set` of "udp" and of "id" in either
order leave the same unsigned record at sequence number 1. -/
theorem Set_commutes_witness :
    ((signedIp.Set udpEntry).1.Set idEntry).1 = ((signedIp.Set idEntry).1.Set udpEntry).1 ∧
      ((signedIp.Set udpEntry).1.Set idEntry).1.seq = 1 ∧
      ((signedIp.Set udpEntry).1.Set udpEntry).1 = (signedIp.Set udpEntry).1 :=
  ⟨(Set_commutes signedIp udpEntry idEntry [0x82, 0x76, 0x5f] [0x82, 0x76, 0x34]
      (Reachable.SetSig _ _ _ (Reachable.Set _ ipEntry Reachable.zero)).ascending
      rfl rfl).1 (by decide),
    by decide,
    (Set_commutes signedIp udpEntry idEntry [0x82, 0x76, 0x5f] [0x82, 0x76, 0x34]
      (Reachable.SetSig _ _ _ (Reachable.Set _ ipEntry Reachable.zero)).ascending
      rfl rfl).2.1⟩

/-- Calls of `Set` on an unsigned record leave it unsigned at its sequence number. -/
theorem Sets_unsigned (es : List Entry) :
    ∀ r : Record, r.signature = none →
      (es.foldl (fun r e => (r.Set e).1) r).seq = r.seq ∧
        (es.foldl (fun r e => (r.Set e).1) r).signature = none := by
  induction es with
  | nil => intro r h; exact ⟨rfl, h⟩
  | cons e es ih =>
    intro r h
    simp only [List.foldl_cons]
    cases henc : e.EncodeToBytes with
    | error err =>
      have : (r.Set e).1 = r := by simp [Record.Set, henc]
      rw [this]
      exact ih r h
    | ok blob =>
      obtain ⟨_, a2, a3, _⟩ := Set_frame r e blob henc
      obtain ⟨i1, i2⟩ := ih (r.Set e).1 a3
      rw [i1, i2, a2, invalidate_seq_unsigned r h]
      exact ⟨rfl, rfl⟩

/-- C37: one increment per signing cycle.  On a signed record with a sequence number `n`
below `2 ^ 64 - 1`, after a sequence of `Set` calls of which at least one returns (a call
that panics changes nothing), so after every non-empty sequence of calls that return, the
sequence number is `n + 1` and the record is unsigned. -/
theorem Sets_one_increment (es : List Entry) (r : Record) (hsig : r.signature ≠ none)
    (hn : r.seq < 2 ^ 64 - 1) (hsome : ∃ e ∈ es, ∃ blob, e.EncodeToBytes = .ok blob) :
    (es.foldl (fun r e => (r.Set e).1) r).seq = r.seq + 1 ∧
      (es.foldl (fun r e => (r.Set e).1) r).Seq = r.Seq + 1 ∧
      (es.foldl (fun r e => (r.Set e).1) r).signature = none := by
  have main : (es.foldl (fun r e => (r.Set e).1) r).seq = r.seq + 1 ∧
      (es.foldl (fun r e => (r.Set e).1) r).signature = none := by
    induction es with
    | nil =>
      obtain ⟨e, he, _⟩ := hsome
      cases he
    | cons e es ih =>
      simp only [List.foldl_cons]
      cases henc : e.EncodeToBytes with
      | error err =>
        have hr : (r.Set e).1 = r := by simp [Record.Set, henc]
        rw [hr]
        apply ih
        obtain ⟨e0, he0, blob, hb⟩ := hsome
        rcases List.mem_cons.mp he0 with heq | hin
        · subst heq; rw [henc] at hb; cases hb
        · exact ⟨e0, hin, blob, hb⟩
      | ok blob =>
        obtain ⟨_, a2, a3, a4, a5, _⟩ := Set_signed_seq r e blob hsig henc
        obtain ⟨i1, i2⟩ := Sets_unsigned es (r.Set e).1 a5
        rw [i1, i2]
        exact ⟨a3 hn, rfl⟩
  exact ⟨main.1, main.1, main.2⟩

/-- The record signed with "S1" at sequence number 0 is at 1 after three calls of
`Set`. -/
theorem Sets_one_increment_witness :
    signedIp.seq = 0 ∧
      ([udpEntry, idEntry, ip4Entry].foldl (fun r e => (r.Set e).1) signedIp).seq = 1 :=
  ⟨rfl, (Sets_one_increment [udpEntry, idEntry, ip4Entry] signedIp (by decide) (by decide)
    ⟨udpEntry, List.mem_cons_self _ _, [0x82, 0x76, 0x5f], rfl⟩).1⟩

end enr

namespace lru

/-- `BasicLRU.Add` puts the item in front of items that were there. -/
theorem BasicLRU_Add_items {K : Type} [DecidableEq K] (l : BasicLRU K) (key : K)
    (value : ByteSeq) :
    ∃ rest, (l.Add key value).1.items = (key, value) :: rest ∧ ∀ it ∈ rest, it ∈ l.items := by
  unfold BasicLRU.Add
  split_ifs
  · exact ⟨_, rfl, fun it h => (List.mem_filter.mp h).1⟩
  · exact ⟨_, rfl, fun it h => List.mem_of_mem_dropLast h⟩
  · exact ⟨_, rfl, fun it h => h⟩

/-- After `Add` the item added is in front, and every other item was there before. -/
theorem Add_items {K : Type} [DecidableEq K] (c : SizeConstrainedCache K) (key : K)
    (value : ByteSeq) :
    ∃ rest, (c.Add key value).1.lru.items = (key, value) :: rest ∧
      ∀ it ∈ rest, it ∈ c.lru.items := by
  unfold SizeConstrainedCache.Add
  by_cases hc : c.lru.Contains key = true
  · rw [if_neg (by simp [hc])]
    exact BasicLRU_Add_items c.lru key value
  · rw [if_pos (by simp [hc])]
    simp only
    obtain ⟨removed, p1, _⟩ := evictLoop_spec c.maxSize (c.lru.items.length + 1)
      ((c.size + value.length % 2 ^ 64) % 2 ^ 64) c.lru false (Nat.lt_succ_self _)
    obtain ⟨rest, h1, h2⟩ := BasicLRU_Add_items (evictLoop c.maxSize (c.lru.items.length + 1)
      ((c.size + value.length % 2 ^ 64) % 2 ^ 64) c.lru false).2.1 key value
    refine ⟨rest, h1, fun it hit => ?_⟩
    rw [p1]
    exact List.mem_append_left _ (h2 it hit)

/-- `Get` of a key that is not in the cache returns the zero value and false. -/
theorem Get_absent {K : Type} [DecidableEq K] (c : SizeConstrainedCache K) (key : K)
    (h : c.lru.Contains key = false) : (c.Get key).2 = ([], false) := by
  have hf : c.lru.items.find? (fun it => decide (it.1 = key)) = none := by
    apply List.find?_eq_none.mpr
    intro x hx
    have := (List.any_eq_false.mp h) x hx
    exact this
  simp [SizeConstrainedCache.Get, BasicLRU.Get, hf]

/-- Every item of the cache after a sequence of `Add` calls was added by one of them. -/
theorem run_items {K : Type} [DecidableEq K] (maxSize : Nat) :
    ∀ adds : List (K × ByteSeq), ∀ it ∈ (run maxSize adds).lru.items, it ∈ adds := by
  intro adds
  induction adds using List.reverseRecOn with
  | nil => intro it hit; cases hit
  | append_singleton adds a ih =>
    intro it hit
    rw [run_append] at hit
    obtain ⟨rest, h1, h2⟩ := Add_items (run maxSize adds) a.1 a.2
    rw [h1] at hit
    rcases List.mem_cons.mp hit with h | h
    · rw [h]; exact List.mem_append_right _ (List.mem_singleton.mpr rfl)
    · exact List.mem_append_left _ (ih it (h2 it h))

/-- C31: immediately after `Add(k, v)`, whatever the state of the cache and the length
of the value, `Get(k)` returns `(v, true)`.  `Get` of a key that is not in the cache
returns the zero value and false: so for a key that no `Add` of the sequence had, and for
the key of an item that an `Add` removed from a cache with one item per key. -/
theorem Get_after_Add {K : Type} [DecidableEq K] (c : SizeConstrainedCache K) (k : K)
    (v : ByteSeq) :
    ((c.Add k v).1.Get k).2 = (v, true) ∧
      (∀ k2, c.lru.Contains k2 = false → (c.Get k2).2 = ([], false)) ∧
      (∀ (maxSize : Nat) (adds : List (K × ByteSeq)), k ∉ adds.map Prod.fst →
        ((run maxSize adds).Get k).2 = ([], false)) ∧
      ((c.lru.items.map Prod.fst).Nodup → c.lru.Contains k = false →
        ∀ it ∈ c.lru.items, it ∉ (c.Add k v).1.lru.items →
          ((c.Add k v).1.Get it.1).2 = ([], false)) := by
  obtain ⟨rest, h1, h2⟩ := Add_items c k v
  refine ⟨?_, fun k2 h => Get_absent c k2 h, ?_, ?_⟩
  · simp [SizeConstrainedCache.Get, BasicLRU.Get, h1]
  · intro maxSize adds hk
    apply Get_absent
    apply List.any_eq_false.mpr
    intro x hx hxk
    have := run_items maxSize adds x hx
    exact hk (List.mem_map.mpr ⟨x, this, by simpa using hxk⟩)
  · intro hnd hck it hit hgone
    apply Get_absent
    apply List.any_eq_false.mpr
    intro x hx hxk
    have hxk2 : x.1 = it.1 := by simpa using hxk
    unfold BasicLRU.Contains at hck
    rw [h1] at hx hgone
    rcases List.mem_cons.mp hx with hx1 | hx1
    · have := (List.any_eq_false.mp hck) it hit
      apply this
      rw [hx1] at hxk2
      simpa using hxk2.symm
    · have hxi : x = it := List.inj_on_of_nodup_map hnd (h2 x hx1) hit hxk2
      rw [hxi] at hx1
      exact hgone (List.mem_cons_of_mem _ hx1)

/-- A value of 11 bytes in a cache of 10 is found right after it was added; the key 1,
evicted by the third `Add` of four bytes, and the key 9, never added, are not found. -/
theorem Get_after_Add_witness :
    (((NewSizeConstrainedCache 10 : SizeConstrainedCache Nat).Add 1
        (List.replicate 11 0)).1.Get 1).2 = (List.replicate 11 0, true) ∧
      ((run 10 [((1 : Nat), List.replicate 4 (0 : Byte)), (2, List.replicate 4 0),
        (3, List.replicate 4 0)]).Get 9).2 = ([], false) ∧
      ((run 10 [((1 : Nat), List.replicate 4 (0 : Byte)), (2, List.replicate 4 0),
        (3, List.replicate 4 0)]).Get 1).2 = ([], false) :=
  ⟨(Get_after_Add (NewSizeConstrainedCache 10 : SizeConstrainedCache Nat) 1
      (List.replicate 11 0)).1,
    (Get_after_Add (NewSizeConstrainedCache 10 : SizeConstrainedCache Nat) 9 []).2.2.1 10
      [((1 : Nat), List.replicate 4 (0 : Byte)), (2, List.replicate 4 0),
        (3, List.replicate 4 0)] (by decide),
    (Get_after_Add (run 10 [((1 : Nat), List.replicate 4 (0 : Byte)), (2, List.replicate 4 0)])
      3 (List.replicate 4 0)).2.2.2 (by decide) (by decide) (1, List.replicate 4 0)
      (by decide) (by decide)⟩

end lru

namespace lru

/-- The loop of `Add` on a target size that covers the lengths of all values held: no
subtraction wraps, the items removed are the oldest, the target size falls by their
lengths, the loop ends below the maximum or on an empty cache, and the item removed last
was removed while the target size was above the maximum. -/
theorem evictLoop_acct {K : Type} (maxSize : Nat) :
    ∀ (fuel t : Nat) (l : BasicLRU K) (ev : Bool), l.items.length < fuel →
      (l.items.map fun it => it.2.length).sum ≤ t → t < 2 ^ 64 →
      evictUnderflows maxSize fuel t l = false ∧
      ∃ removed, l.items = (evictLoop maxSize fuel t l ev).2.1.items ++ removed ∧
        (evictLoop maxSize fuel t l ev).2.1.cap = l.cap ∧
        ((evictLoop maxSize fuel t l ev).1 ≤ maxSize ∨
          (evictLoop maxSize fuel t l ev).2.1.items = []) ∧
        (evictLoop maxSize fuel t l ev).1 + (removed.map fun it => it.2.length).sum = t ∧
        (∀ x xs, removed = x :: xs →
          (evictLoop maxSize fuel t l ev).1 + x.2.length > maxSize) := by
  intro fuel
  induction fuel with
  | zero => intro t l ev h; omega
  | succ fuel ih =>
    intro t l ev hlen hsum hlt
    unfold evictLoop evictUnderflows
    by_cases ht : t > maxSize
    · rw [if_pos ht, if_pos ht]
      cases hr : l.RemoveOldest with
      | mk l2 o =>
        cases o with
        | none =>
          obtain ⟨h1, h2⟩ := RemoveOldest_none l l2 hr
          subst h2
          refine ⟨rfl, [], by simp, rfl, Or.inr h1, by simp, ?_⟩
          intro x xs hx; cases hx
        | some it =>
          obtain ⟨h1, h2⟩ := RemoveOldest_some l l2 it hr
          have hlen2 : l2.items.length < fuel := by
            have := congrArg List.length h1
            simp only [List.length_append, List.length_singleton] at this
            omega
          rw [h1] at hsum
          simp only [List.map_append, List.sum_append, List.map_cons, List.map_nil,
            List.sum_cons, List.sum_nil, Nat.add_zero] at hsum
          have hv : it.2.length % 2 ^ 64 = it.2.length := Nat.mod_eq_of_lt (by omega)
          have ht2 : (t + 2 ^ 64 - it.2.length % 2 ^ 64) % 2 ^ 64 = t - it.2.length := by
            rw [hv]
            have : t + 2 ^ 64 - it.2.length = (t - it.2.length) + 2 ^ 64 := by omega
            rw [this, Nat.add_mod_right]
            exact Nat.mod_eq_of_lt (by omega)
          obtain ⟨u, removed, p1, p2, p3, p4, p5⟩ :=
            ih ((t + 2 ^ 64 - it.2.length % 2 ^ 64) % 2 ^ 64) l2 true hlen2
              (by rw [ht2]; omega) (by rw [ht2]; omega)
          simp only []
          refine ⟨?_, removed ++ [it], ?_, ?_, p3, ?_, ?_⟩
          · rw [u, Bool.or_false, hv]
            simp only [decide_eq_false_iff_not, not_lt]
            omega
          · rw [h1, ← List.append_assoc, ← p1]
          · rw [p2, h2]
          · simp only [List.map_append, List.sum_append, List.map_cons, List.map_nil,
              List.sum_cons, List.sum_nil, Nat.add_zero]
            omega
          · intro x xs hx
            cases hrem : removed with
            | nil =>
              rw [hrem] at hx p4
              simp only [List.nil_append, List.cons.injEq] at hx
              simp only [List.map_nil, List.sum_nil, Nat.add_zero] at p4
              rw [← hx.1, p4, ht2]
              omega
            | cons y ys =>
              rw [hrem] at hx
              simp only [List.cons_append, List.cons.injEq] at hx
              rw [← hx.1]
              exact p5 y ys hrem
    · rw [if_neg ht, if_neg ht]
      refine ⟨rfl, [], by simp, rfl, Or.inl (by simp only []; omega), by simp, ?_⟩
      intro x xs hx; cases hx

/-- One `Add` on a cache whose size field is the total length of the values held, with
one item per key, a key that comes with the value it has in the cache, and a sum that
fits a `uint64`: the size field is again the total, and for a new key no subtraction
wraps and the oldest items are removed until the value fits or the cache is empty. -/
theorem Add_acct {K : Type} [DecidableEq K] (c : SizeConstrainedCache K) (key : K)
    (value : ByteSeq) (hsize : c.size = c.held) (hwrap : c.held + value.length < 2 ^ 64)
    (hnd : (c.lru.items.map Prod.fst).Nodup) (hcap : c.lru.items.length < c.lru.cap)
    (hca : ∀ it ∈ c.lru.items, it.1 = key → it.2 = value) :
    (c.Add key value).1.size = (c.Add key value).1.held ∧
      ((c.Add key value).1.held ≤ c.maxSize ∨ (c.Add key value).1.held = value.length ∨
        (c.Add key value).1.held = c.held) ∧
      ((c.Add key value).1.lru.items.map Prod.fst).Nodup ∧
      (c.Add key value).1.lru.items.length ≤ c.lru.items.length + 1 ∧
      (c.Add key value).1.lru.cap = c.lru.cap ∧
      (c.Add key value).1.maxSize = c.maxSize ∧
      (c.lru.Contains key = false →
        evictUnderflows c.maxSize (c.lru.items.length + 1)
          ((c.size + value.length % 2 ^ 64) % 2 ^ 64) c.lru = false ∧
        ∃ kept removed, c.lru.items = kept ++ removed ∧
          (c.Add key value).1.lru.items = (key, value) :: kept ∧
          ((c.Add key value).1.size ≤ c.maxSize ∨ kept = []) ∧
          (∀ x xs, removed = x :: xs → (c.Add key value).1.size + x.2.length > c.maxSize)) := by
  by_cases hc : c.lru.Contains key = true
  · unfold SizeConstrainedCache.Add
    rw [if_neg (by simp [hc])]
    simp only [BasicLRU.Add, hc, if_true, SizeConstrainedCache.held]
    obtain ⟨it, hit, hk⟩ := (Contains_iff c.lru key).mp hc
    have hv := hca it hit hk
    have hmem : (key, value) ∈ c.lru.items := by
      have : it = (key, value) := Prod.ext hk hv
      rw [← this]; exact hit
    have hsum := sum_filter_key key value c.lru.items hnd hmem
    simp only [SizeConstrainedCache.held] at hsize
    refine ⟨?_, Or.inr (Or.inr ?_), ?_, ?_, by trivial, by trivial, ?_⟩
    · simp only [List.map_cons, List.sum_cons]; omega
    · simp only [List.map_cons, List.sum_cons]; omega
    · simp only [List.map_cons, List.nodup_cons]
      refine ⟨?_, (hnd.sublist (List.Sublist.map _ (List.filter_sublist _)))⟩
      intro hin
      obtain ⟨a, ha, hak⟩ := List.mem_map.mp hin
      have := (List.mem_filter.mp ha).2
      simp only [ne_eq, decide_not, Bool.not_eq_eq_eq_not, Bool.not_true,
        decide_eq_false_iff_not] at this
      exact this hak
    · simp only [List.length_cons]
      have := List.length_filter_le (fun it : K × ByteSeq => decide (it.1 ≠ key)) c.lru.items
      omega
    · intro hcf
      simp at hcf
  · have hcf : c.lru.Contains key = false := by
      cases hx : c.lru.Contains key with
      | false => rfl
      | true => exact absurd hx hc
    simp only [SizeConstrainedCache.held] at hsize hwrap
    have hvl : value.length % 2 ^ 64 = value.length := Nat.mod_eq_of_lt (by omega)
    have ht : (c.size + value.length % 2 ^ 64) % 2 ^ 64 = c.size + value.length := by
      rw [hvl]; exact Nat.mod_eq_of_lt (by omega)
    have hspec := evictLoop_acct c.maxSize (c.lru.items.length + 1) (c.size + value.length)
      c.lru false (Nat.lt_succ_self _) (by omega) (by omega)
    unfold SizeConstrainedCache.Add
    rw [if_pos (by simp [hc]), ht]
    simp only []
    cases hres : evictLoop c.maxSize (c.lru.items.length + 1) (c.size + value.length) c.lru
      false with
    | mk t rest =>
    obtain ⟨l, ev⟩ := rest
    rw [hres] at hspec
    obtain ⟨hu, removed, p1, p2, p3, p4, p5⟩ := hspec
    simp only [] at p1 p2 p3 p4 p5 ⊢
    have hitems := congrArg (fun xs : List (K × ByteSeq) => (xs.map fun it => it.2.length).sum) p1
    simp only [List.map_append, List.sum_append] at hitems
    have hlen := congrArg List.length p1
    simp only [List.length_append] at hlen
    have hcl : l.Contains key = false := by
      cases hlc : l.Contains key with
      | false => rfl
      | true =>
        obtain ⟨it, hit, hk⟩ := (Contains_iff l key).mp hlc
        exact absurd ((Contains_iff c.lru key).mpr
          ⟨it, by rw [p1]; exact List.mem_append_left _ hit, hk⟩) hc
    have hfull : ¬ l.items.length ≥ l.cap := by omega
    simp only [BasicLRU.Add, hcl, Bool.false_eq_true, if_false, hfull, SizeConstrainedCache.held,
      List.map_cons, List.sum_cons, List.length_cons, List.nodup_cons]
    have htl : t = value.length + (l.items.map fun it => it.2.length).sum := by omega
    refine ⟨htl, ?_, ⟨?_, ?_⟩, by omega, p2, by trivial, fun _ => ⟨hu, l.items, removed, p1,
      by trivial, p3, p5⟩⟩
    · rcases p3 with h | h
      · exact Or.inl (by omega)
      · exact Or.inr (Or.inl (by rw [h]; simp))
    · intro hin
      obtain ⟨a, ha, hak⟩ := List.mem_map.mp hin
      have : c.lru.Contains key = true :=
        (Contains_iff c.lru key).mpr ⟨a, by rw [p1]; exact List.mem_append_left _ ha, hak⟩
      exact hc this
    · rw [p1, List.map_append] at hnd
      exact (List.nodup_append.mp hnd).1

/-- The size field stays the total length of the values held over a sequence of `Add`
calls in which a key always comes with the same value and no sum of the size and the
length of a value runs over a `uint64`. -/
theorem run_acct {K : Type} [DecidableEq K] (maxSize : Nat) :
    ∀ adds : List (K × ByteSeq), adds.length < MaxInt →
      (∀ n k v, adds[n]? = some (k, v) →
        (run maxSize (adds.take n)).held + v.length < 2 ^ 64) →
      (∀ a ∈ adds, ∀ b ∈ adds, a.1 = b.1 → a.2 = b.2) →
      (run maxSize adds).size = (run maxSize adds).held ∧
        ((run maxSize adds).lru.items.map Prod.fst).Nodup ∧
        (run maxSize adds).lru.items.length ≤ adds.length ∧
        (run maxSize adds).lru.cap = MaxInt ∧
        (run maxSize adds).maxSize = maxSize := by
  intro adds
  induction adds using List.reverseRecOn with
  | nil =>
    intro _ _ _
    refine ⟨rfl, List.nodup_nil, Nat.le_refl _, ?_, rfl⟩
    simp [run, NewSizeConstrainedCache, NewBasicLRU, MaxInt]
  | append_singleton adds a ih =>
    intro hcount hwrap hca
    simp only [List.length_append, List.length_singleton] at hcount
    obtain ⟨i1, i3, i4, i5, i6⟩ := ih (by omega)
      (fun n k v hget => by
        have hn : n < adds.length := (List.getElem?_eq_some.mp hget).1
        have := hwrap n k v (by rw [List.getElem?_append_left hn]; exact hget)
        rw [List.take_append_of_le_length (Nat.le_of_lt hn)] at this
        exact this)
      (fun x hx y hy => hca x (List.mem_append_left _ hx) y (List.mem_append_left _ hy))
    have hlast := hwrap adds.length a.1 a.2 (by
      rw [List.getElem?_append_right (Nat.le_refl _)]; simp)
    rw [List.take_append_of_le_length (Nat.le_refl _), List.take_length] at hlast
    rw [run_append]
    obtain ⟨s1, _, s3, s4, s5, s6, _⟩ := Add_acct (run maxSize adds) a.1 a.2 i1 hlast i3
      (by rw [i5]; omega)
      (fun it hit hk => hca it (List.mem_append_left _ (run_items maxSize adds it hit)) a
        (List.mem_append_right _ (List.mem_singleton.mpr rfl)) hk)
    refine ⟨s1, s3, ?_, by rw [s5, i5], by rw [s6, i6]⟩
    simp only [List.length_append, List.length_singleton]; omega

/-- C38 (amended): size accounting of the cache bounded in bytes.  Over a sequence of
fewer than `math.MaxInt` `Add` calls on a new cache in which a key always comes with the
same value and no sum `size + len(value)` runs over a `uint64`, after each call the field
`size` is the sum of the byte lengths of the values held.  At each call with a key that is
not in the cache no subtraction of the eviction loop wraps below zero, and the loop
removes the oldest items, keeping the more recently used ones in their order, until the
size with the new value is within `maxSize` or no item is left: the item removed last was
removed because the size was still above `maxSize`. -/
theorem Add_size_accounting {K : Type} [DecidableEq K] (maxSize : Nat)
    (adds : List (K × ByteSeq)) (hcount : adds.length < MaxInt)
    (hwrap : ∀ n k v, adds[n]? = some (k, v) →
      (run maxSize (adds.take n)).held + v.length < 2 ^ 64)
    (hca : ∀ a ∈ adds, ∀ b ∈ adds, a.1 = b.1 → a.2 = b.2) (n : Nat) :
    (run maxSize (adds.take n)).size = (run maxSize (adds.take n)).held ∧
      (∀ k v, adds[n]? = some (k, v) → (run maxSize (adds.take n)).lru.Contains k = false →
        evictUnderflows maxSize ((run maxSize (adds.take n)).lru.items.length + 1)
          (((run maxSize (adds.take n)).size + v.length % 2 ^ 64) % 2 ^ 64)
          (run maxSize (adds.take n)).lru = false ∧
        ∃ kept removed, (run maxSize (adds.take n)).lru.items = kept ++ removed ∧
          (run maxSize (adds.take (n + 1))).lru.items = (k, v) :: kept ∧
          ((run maxSize (adds.take (n + 1))).size ≤ maxSize ∨ kept = []) ∧
          (∀ x xs, removed = x :: xs →
            (run maxSize (adds.take (n + 1))).size + x.2.length > maxSize)) := by
  have hpre : (adds.take n).length < MaxInt :=
    Nat.lt_of_le_of_lt (by rw [List.length_take]; exact Nat.min_le_right _ _) hcount
  obtain ⟨i1, i3, i4, i5, i6⟩ := run_acct maxSize (adds.take n) hpre
    (fun m k v hget => by
      have hm : m < (adds.take n).length := (List.getElem?_eq_some.mp hget).1
      rw [List.length_take] at hm
      have hmn : m < n := by omega
      rw [List.getElem?_take_of_lt hmn] at hget
      have := hwrap m k v hget
      rw [List.take_take, Nat.min_eq_left (Nat.le_of_lt hmn)]
      exact this)
    (fun a ha b hb => hca a (List.mem_of_mem_take ha) b (List.mem_of_mem_take hb))
  refine ⟨i1, ?_⟩
  intro k v hget hck
  have hmem : (k, v) ∈ adds := List.mem_iff_getElem?.mpr ⟨n, hget⟩
  have htake : adds.take (n + 1) = adds.take n ++ [(k, v)] := by
    rw [List.take_succ, hget]; rfl
  obtain ⟨_, _, _, _, _, _, s7⟩ := Add_acct (run maxSize (adds.take n)) k v i1
    (hwrap n k v hget) i3 (by rw [i5]; omega)
    (fun it hit hk => hca it (List.mem_of_mem_take (run_items maxSize _ it hit)) (k, v) hmem hk)
  have := s7 hck
  rw [htake, run_append]
  rw [i6] at this
  exact this

/-- Three values of four bytes into a cache of ten: at the third call the key 1, the
oldest, is removed and the keys 3 and 2 are held, eight bytes in all. -/
theorem Add_size_accounting_witness :
    (run 10 [((1 : Nat), List.replicate 4 (0 : Byte)), (2, List.replicate 4 0),
        (3, List.replicate 4 0)]).size = 8 ∧
      (run 10 [((1 : Nat), List.replicate 4 (0 : Byte)), (2, List.replicate 4 0),
        (3, List.replicate 4 0)]).lru.items
        = [(3, List.replicate 4 0), (2, List.replicate 4 0)] ∧
      (run 10 ([((1 : Nat), List.replicate 4 (0 : Byte)), (2, List.replicate 4 0),
        (3, List.replicate 4 0)].take 3)).size
        = (run 10 ([((1 : Nat), List.replicate 4 (0 : Byte)), (2, List.replicate 4 0),
        (3, List.replicate 4 0)].take 3)).held :=
  ⟨by decide, by decide,
    (Add_size_accounting 10 [((1 : Nat), List.replicate 4 (0 : Byte)),
      (2, List.replicate 4 0), (3, List.replicate 4 0)] (by norm_num [MaxInt])
      (fun n k v h => by
        match n with
        | 0 => simp at h; obtain ⟨_, rfl⟩ := h; decide
        | 1 => simp at h; obtain ⟨_, rfl⟩ := h; decide
        | 2 => simp at h; obtain ⟨_, rfl⟩ := h; decide
        | n + 3 => simp at h)
      (by decide) 3).1⟩

end lru

namespace lru

/-- `Add` of a new key whose target size, as a `uint64`, is within the maximum, on a list
that is not full: nothing is removed, the target size becomes the size, and the item is
put in front. -/
theorem Add_no_evict {K : Type} [DecidableEq K] (c : SizeConstrainedCache K) (key : K)
    (value : ByteSeq) (hc : c.lru.Contains key = false)
    (hfit : (c.size + value.length % 2 ^ 64) % 2 ^ 64 ≤ c.maxSize)
    (hcap : c.lru.items.length < c.lru.cap) :
    (c.Add key value).1 =
      { c with size := (c.size + value.length % 2 ^ 64) % 2 ^ 64,
               lru := { c.lru with items := (key, value) :: c.lru.items } } := by
  unfold SizeConstrainedCache.Add
  rw [if_pos (by simp [hc])]
  have hloop : evictLoop c.maxSize (c.lru.items.length + 1)
      ((c.size + value.length % 2 ^ 64) % 2 ^ 64) c.lru false
      = ((c.size + value.length % 2 ^ 64) % 2 ^ 64, c.lru, false) := by
    unfold evictLoop
    rw [if_neg (by omega)]
  simp only [hloop]
  have hfull : ¬ c.lru.items.length ≥ c.lru.cap := by omega
  simp only [BasicLRU.Add, hc, Bool.false_eq_true, if_false, hfull]

/-- Two values of `2 ^ 63 - 1` bytes and one of two bytes, under three keys, in a cache
with the largest maximum: the third sum wraps, and the size field is 0 while `2 ^ 64`
bytes are held. -/
theorem run_wraps (big : ByteSeq) (h : big.length = 2 ^ 63 - 1) :
    (run (2 ^ 64 - 1) [((1 : Nat), big), (2, big), (3, [0, 0])]).size = 0 ∧
      (run (2 ^ 64 - 1) [((1 : Nat), big), (2, big), (3, [0, 0])]).held = 2 ^ 64 ∧
      (∀ a ∈ [((1 : Nat), big), (2, big), (3, [0, 0])],
        ∀ b ∈ [((1 : Nat), big), (2, big), (3, [0, 0])], a.1 = b.1 → a.2 = b.2) := by
  have e0 : run (2 ^ 64 - 1) ([] : List (Nat × ByteSeq))
      = { size := 0, maxSize := 2 ^ 64 - 1, lru := { cap := 2 ^ 63 - 1, items := [] } } := by
    simp [run, NewSizeConstrainedCache, NewBasicLRU, MaxInt]
  have e1 : run (2 ^ 64 - 1) [((1 : Nat), big)]
      = { size := 2 ^ 63 - 1, maxSize := 2 ^ 64 - 1,
          lru := { cap := 2 ^ 63 - 1, items := [(1, big)] } } := by
    have : run (2 ^ 64 - 1) [((1 : Nat), big)] = ((run (2 ^ 64 - 1) []).Add 1 big).1 := rfl
    rw [this, e0, Add_no_evict _ _ _ (by simp [BasicLRU.Contains]) (by simp only [h]; norm_num)
      (by simp)]
    simp only [h]
    norm_num
  have e2 : run (2 ^ 64 - 1) [((1 : Nat), big), (2, big)]
      = { size := 2 ^ 64 - 2, maxSize := 2 ^ 64 - 1,
          lru := { cap := 2 ^ 63 - 1, items := [(2, big), (1, big)] } } := by
    have : run (2 ^ 64 - 1) [((1 : Nat), big), (2, big)]
        = ((run (2 ^ 64 - 1) [((1 : Nat), big)]).Add 2 big).1 := rfl
    rw [this, e1, Add_no_evict _ _ _ (by simp [BasicLRU.Contains]) (by simp only [h]; norm_num)
      (by simp)]
    simp only [h]
    norm_num
  have e3 : run (2 ^ 64 - 1) [((1 : Nat), big), (2, big), (3, [0, 0])]
      = { size := 0, maxSize := 2 ^ 64 - 1,
          lru := { cap := 2 ^ 63 - 1, items := [(3, [0, 0]), (2, big), (1, big)] } } := by
    have : run (2 ^ 64 - 1) [((1 : Nat), big), (2, big), (3, [0, 0])]
        = ((run (2 ^ 64 - 1) [((1 : Nat), big), (2, big)]).Add 3 [0, 0]).1 := rfl
    rw [this, e2, Add_no_evict _ _ _ (by simp [BasicLRU.Contains]) (by norm_num) (by simp)]
    norm_num
  rw [e3]
  refine ⟨rfl, ?_, ?_⟩
  · simp only [SizeConstrainedCache.held, List.map_cons, List.map_nil, List.sum_cons,
      List.sum_nil, h, List.length_cons, List.length_nil]
    norm_num
  · intro a ha b hb hk
    simp only [List.mem_cons, List.mem_singleton, List.not_mem_nil, or_false] at ha hb
    rcases ha with rfl | rfl | rfl <;> rcases hb with rfl | rfl | rfl <;>
      first | rfl | (simp at hk)

/-- `Add` of a new key whose target size is within the maximum, on a list that is full:
the list drops its oldest item to take the new one, and the size is not told. -/
theorem Add_full {K : Type} [DecidableEq K] (c : SizeConstrainedCache K) (key : K)
    (value : ByteSeq) (hc : c.lru.Contains key = false)
    (hfit : (c.size + value.length % 2 ^ 64) % 2 ^ 64 ≤ c.maxSize)
    (hcap : c.lru.items.length ≥ c.lru.cap) :
    (c.Add key value).1 =
      { c with size := (c.size + value.length % 2 ^ 64) % 2 ^ 64,
               lru := { c.lru with items := (key, value) :: c.lru.items.dropLast } } := by
  unfold SizeConstrainedCache.Add
  rw [if_pos (by simp [hc])]
  have hloop : evictLoop c.maxSize (c.lru.items.length + 1)
      ((c.size + value.length % 2 ^ 64) % 2 ^ 64) c.lru false
      = ((c.size + value.length % 2 ^ 64) % 2 ^ 64, c.lru, false) := by
    unfold evictLoop
    rw [if_neg (by omega)]
  simp only [hloop]
  simp only [BasicLRU.Add, hc, Bool.false_eq_true, if_false, hcap, if_true]

/-- A new cache after `n` calls that add one byte each under the keys `0` to `n - 1`,
while the list is not full and the maximum is not reached: all items are held, the last
added first, and the size is `n`. -/
theorem run_ones (M : Nat) :
    ∀ n, n ≤ MaxInt → n ≤ M →
      run M ((List.range n).map fun i => (i, ([0] : ByteSeq)))
        = { size := n, maxSize := M,
            lru := { cap := MaxInt,
                     items := ((List.range n).map fun i => (i, ([0] : ByteSeq))).reverse } } := by
  intro n
  induction n with
  | zero =>
    intro _ _
    simp [run, NewSizeConstrainedCache, NewBasicLRU, MaxInt]
  | succ n ih =>
    intro h1 h2
    have hM : n < 2 ^ 63 := by simp only [MaxInt] at h1; omega
    rw [List.range_succ, List.map_append, List.map_singleton, run_append, ih (by omega) (by omega)]
    rw [Add_no_evict]
    · simp only [List.length_singleton, List.reverse_append, List.reverse_singleton,
        List.singleton_append]
      have e1 : (1 : Nat) % 2 ^ 64 = 1 := by norm_num
      have e2 : (n + 1) % 2 ^ 64 = n + 1 := Nat.mod_eq_of_lt (by omega)
      rw [e1, e2]
    · simp only [BasicLRU.Contains, List.any_eq_false, List.mem_reverse, List.mem_map,
        List.mem_range, decide_eq_true_eq]
      rintro x ⟨i, hi, rfl⟩
      simp only
      omega
    · simp only [List.length_singleton]
      have e1 : (1 : Nat) % 2 ^ 64 = 1 := by norm_num
      rw [e1, Nat.mod_eq_of_lt (by omega)]
      exact h2
    · simp only [List.length_reverse, List.length_map, List.length_range]
      exact h1

/-- Values of one byte are as many bytes as there are items. -/
theorem held_ones : ∀ items : List (Nat × ByteSeq), (∀ it ∈ items, it.2.length = 1) →
    (items.map fun it => it.2.length).sum = items.length := by
  intro items
  induction items with
  | nil => intro _; rfl
  | cons x xs ih =>
    intro h
    simp only [List.map_cons, List.sum_cons, List.length_cons]
    rw [ih (fun it hit => h it (List.mem_cons_of_mem _ hit)), h x (List.mem_cons_self _ _)]
    omega

/-- One more call than the list under the cache takes: `n + 1` calls of one byte each
under new keys, where `n` is the capacity `math.MaxInt` of the list.  At the last call the
list drops its oldest item, and the size is one more than the bytes held. -/
theorem run_full (n : Nat) (hn : n = MaxInt) :
    (run (2 ^ 64 - 1) ((List.range (n + 1)).map fun i => (i, ([0] : ByteSeq)))).size = n + 1 ∧
      (run (2 ^ 64 - 1) ((List.range (n + 1)).map fun i => (i, ([0] : ByteSeq)))).held = n := by
  have hlt : n < 2 ^ 63 := by rw [hn]; simp [MaxInt]
  have hpos : 0 < n := by rw [hn]; simp [MaxInt]
  have hrun := run_ones (2 ^ 64 - 1) n (Nat.le_of_eq hn) (by omega)
  have hadd := Add_full (run (2 ^ 64 - 1) ((List.range n).map fun i => (i, ([0] : ByteSeq))))
    n [0]
    (by
      rw [hrun]
      simp only [BasicLRU.Contains, List.any_eq_false, List.mem_reverse, List.mem_map,
        List.mem_range, decide_eq_true_eq]
      rintro x ⟨i, hi, rfl⟩
      simp only
      omega)
    (by
      rw [hrun]
      simp only [List.length_singleton]
      have e1 : (1 : Nat) % 2 ^ 64 = 1 := by norm_num
      rw [e1, Nat.mod_eq_of_lt (by omega)]
      omega)
    (by
      rw [hrun]
      simp only [List.length_reverse, List.length_map, List.length_range]
      exact Nat.le_of_eq hn.symm)
  rw [List.range_succ, List.map_append, List.map_singleton, run_append, hadd, hrun]
  have e1 : (1 : Nat) % 2 ^ 64 = 1 := by norm_num
  have e2 : (n + 1) % 2 ^ 64 = n + 1 := Nat.mod_eq_of_lt (by omega)
  simp only [List.length_singleton, e1, e2, SizeConstrainedCache.held, List.map_cons,
    List.sum_cons, true_and]
  rw [held_ones]
  · simp only [List.length_dropLast, List.length_reverse, List.length_map,
      List.length_range, List.length_singleton]
    omega
  · intro it hit
    have := List.mem_of_mem_dropLast hit
    simp only [List.mem_reverse, List.mem_map, List.mem_range] at this
    obtain ⟨i, _, rfl⟩ := this
    rfl

/-- C38 (as stated, refuted): two sequences of `Add` calls on a new cache with the
maximum `2 ^ 64 - 1`, each key with one value (the keys differ).  In `Add(1, big)`, `Add(2, big)`,
`Add(3, two bytes)`, with `big` a value of `2 ^ 63 - 1` bytes, the third sum
`size + len(value)` wraps around: the field `size` is 0 while `2 ^ 64` bytes are held.
In `math.MaxInt + 1` calls of one byte each under the keys `0` to `math.MaxInt`, the list
under the cache is full at the last call and drops its oldest item: the field `size` is
`math.MaxInt + 1` while `math.MaxInt` bytes are held. -/
theorem Add_size_accounting_counterexample :
    ((run (2 ^ 64 - 1) [((1 : Nat), List.replicate (2 ^ 63 - 1) (0 : Byte)),
        (2, List.replicate (2 ^ 63 - 1) 0), (3, [0, 0])]).size = 0 ∧
      (run (2 ^ 64 - 1) [((1 : Nat), List.replicate (2 ^ 63 - 1) (0 : Byte)),
        (2, List.replicate (2 ^ 63 - 1) 0), (3, [0, 0])]).held = 2 ^ 64) ∧
      (run (2 ^ 64 - 1) ((List.range (MaxInt + 1)).map fun i => (i, ([0] : ByteSeq)))).size
        = MaxInt + 1 ∧
      (run (2 ^ 64 - 1) ((List.range (MaxInt + 1)).map fun i => (i, ([0] : ByteSeq)))).held
        = MaxInt :=
  ⟨⟨(run_wraps (List.replicate (2 ^ 63 - 1) (0 : Byte)) (List.length_replicate _ _)).1,
      (run_wraps (List.replicate (2 ^ 63 - 1) (0 : Byte)) (List.length_replicate _ _)).2.1⟩,
    (run_full MaxInt rfl).1, (run_full MaxInt rfl).2⟩

end lru
